import Mathlib

/-!
Verification of the bcsv-jmap library: a reader/writer for the BCSV/JMap
binary table format.  The development shallowly embeds the data model
(src/field.rs, src/entry.rs, src/jmap.rs), the name hash (src/hash.rs) and
the binary codec (src/io.rs) and proves the frozen behavioural claims
about them.

Modelling conventions:
* Machine integers are `Nat`; a value of Rust type `u32`/`u16`/`u8`/`i32`
  is represented by its bit pattern, with explicit `% 2^w` at the places
  where the Rust code performs a narrowing cast or wrapping arithmetic.
* Rust `String` values are represented by their encoded byte sequence
  (`List Nat`); the UTF-8 option of the codec is then the identity on
  bytes.  The Shift-JIS transcoding tables are not modelled; claims that
  involve text fix the UTF-8 option.
* `f32` values are represented by their 32-bit pattern: the codec only
  moves float bits (`read_f32`/`write_f32` are `from_bits`/`to_bits`
  composed with the 32-bit integer codec).
* The mutable output buffer is a size plus a byte-valued function; the
  input side of the codec additionally checks bounds, and a decode result
  of `none` models a Rust index/slice bounds failure (an abort that
  returns no error value).
* Rust `HashMap` iteration order is unspecified; an `Entry` therefore
  carries its key/value pairs as an explicit list, recording one concrete
  iteration order.  `IndexMap` (insertion ordered) is an association list
  with the insertion/replacement/swap-removal operations of the library.
-/

set_option maxHeartbeats 2000000
set_option maxRecDepth 4000

namespace BCSV

/-- Abbreviation for the string type, usable after `String` becomes the name
of a field-type constructor below. -/
abbrev Str := String

/-! ## Bit-level helpers -/

/-- Narrowing cast to `u32` (`x as u32` on an unbounded value). -/
def u32cast (x : Nat) : Nat := x % 4294967296

/-- Narrowing cast to `u16`. -/
def u16cast (x : Nat) : Nat := x % 65536

/-- Narrowing cast to `u8`. -/
def u8cast (x : Nat) : Nat := x % 256

/-- Bitwise complement on `u32` (`!m` in Rust). -/
def u32not (m : Nat) : Nat := 4294967295 ^^^ m

/-! ## Byte buffers

The output buffer of the encoder (`Vec<u8>`) is modelled as a length
together with a total byte function; bytes at indices `≥ size` are
irrelevant (reads below are always guarded by bounds of `size`). -/

structure Buffer where
  size : Nat
  data : Nat → Nat

/-- A zero-filled buffer, `vec![0u8; n]`. -/
def Buffer.zeros (n : Nat) : Buffer := ⟨n, fun _ => 0⟩

/-- Overwrite `ws.length` bytes starting at `off` (in-bounds slice copy). -/
def Buffer.writeBytes (buf : Buffer) (off : Nat) (ws : List Nat) : Buffer :=
  ⟨buf.size, fun i => if off ≤ i ∧ i < off + ws.length then ws.getD (i - off) 0 else buf.data i⟩

/-- Append bytes at the end, `extend_from_slice`. -/
def Buffer.append (buf : Buffer) (ws : List Nat) : Buffer :=
  ⟨buf.size + ws.length, fun i => if i < buf.size then buf.data i else ws.getD (i - buf.size) 0⟩

/-- Grow to length `n`, filling new bytes with `fill` (`Vec::resize`; the
encoder only ever grows the buffer). -/
def Buffer.resizeFill (buf : Buffer) (n : Nat) (fill : Nat) : Buffer :=
  ⟨n, fun i => if i < buf.size then buf.data i else fill⟩

/-- The byte contents of the buffer. -/
def Buffer.toList (buf : Buffer) : List Nat :=
  (List.range buf.size).map buf.data

/-- Buffer holding exactly the given bytes. -/
def Buffer.ofList (l : List Nat) : Buffer :=
  ⟨l.length, fun i => l.getD i 0⟩

/-- Big-endian byte decomposition of a `u32` (`BigEndian::write_u32`). -/
def beBytes32 (v : Nat) : List Nat :=
  [(v >>> 24) % 256, (v >>> 16) % 256, (v >>> 8) % 256, v % 256]

/-- Little-endian byte decomposition of a `u32`. -/
def leBytes32 (v : Nat) : List Nat :=
  [v % 256, (v >>> 8) % 256, (v >>> 16) % 256, (v >>> 24) % 256]

/-- Big-endian byte decomposition of a `u16`. -/
def beBytes16 (v : Nat) : List Nat :=
  [(v >>> 8) % 256, v % 256]

/-- Little-endian byte decomposition of a `u16`. -/
def leBytes16 (v : Nat) : List Nat :=
  [v % 256, (v >>> 8) % 256]

/-- Write a `u32` at `off` in the configured endianness. -/
def writeU32 (be : Bool) (buf : Buffer) (off v : Nat) : Buffer :=
  buf.writeBytes off (if be then beBytes32 v else leBytes32 v)

/-- Write a `u16` at `off` in the configured endianness. -/
def writeU16 (be : Bool) (buf : Buffer) (off v : Nat) : Buffer :=
  buf.writeBytes off (if be then beBytes16 v else leBytes16 v)

/-- Write a single byte at `off`. -/
def writeU8 (buf : Buffer) (off v : Nat) : Buffer :=
  buf.writeBytes off [v]

/-- Read a `u32` at `off` in the configured endianness (caller checks bounds). -/
def readU32 (be : Bool) (buf : Buffer) (off : Nat) : Nat :=
  if be then
    buf.data off * 16777216 + buf.data (off + 1) * 65536 +
      buf.data (off + 2) * 256 + buf.data (off + 3)
  else
    buf.data (off + 3) * 16777216 + buf.data (off + 2) * 65536 +
      buf.data (off + 1) * 256 + buf.data off

/-- Read a `u16` at `off` in the configured endianness. -/
def readU16 (be : Bool) (buf : Buffer) (off : Nat) : Nat :=
  if be then buf.data off * 256 + buf.data (off + 1)
  else buf.data (off + 1) * 256 + buf.data off

/-! ## Field and value model (src/field.rs) -/

/-- Data types supported by the BCSV format. -/
inductive FieldType where
  | Long
  | String
  | Float
  | UnsignedLong
  | Short
  | Char
  | StringOffset
  deriving DecidableEq, Repr

/-- Size in bytes for this field type. -/
def FieldType.size : FieldType → Nat
  | .Long => 4
  | .String => 32
  | .Float => 4
  | .UnsignedLong => 4
  | .Short => 2
  | .Char => 1
  | .StringOffset => 4

/-- Default bitmask for this field type. -/
def FieldType.default_mask : FieldType → Nat
  | .Long => 0xFFFFFFFF
  | .String => 0x00000000
  | .Float => 0xFFFFFFFF
  | .UnsignedLong => 0xFFFFFFFF
  | .Short => 0x0000FFFF
  | .Char => 0x000000FF
  | .StringOffset => 0xFFFFFFFF

/-- Sorting order for field layout (used when calculating offsets). -/
def FieldType.order : FieldType → Nat
  | .String => 0
  | .Float => 1
  | .Long => 2
  | .UnsignedLong => 3
  | .Short => 4
  | .Char => 5
  | .StringOffset => 6

/-- Raw on-wire type code (the `repr(u8)` discriminant of the Rust enum). -/
def FieldType.raw : FieldType → Nat
  | .Long => 0
  | .String => 1
  | .Float => 2
  | .UnsignedLong => 3
  | .Short => 4
  | .Char => 5
  | .StringOffset => 6

/-- Parse a field type from a raw byte value. -/
def FieldType.from_raw : Nat → Option FieldType
  | 0 => some .Long
  | 1 => some .String
  | 2 => some .Float
  | 3 => some .UnsignedLong
  | 4 => some .Short
  | 5 => some .Char
  | 6 => some .StringOffset
  | _ => none

/-- Name of the type for CSV export (also appears in type-mismatch errors). -/
def FieldType.csv_name : FieldType → Str
  | .Long => "Int"
  | .String => "EmbeddedString"
  | .Float => "Float"
  | .UnsignedLong => "UnsignedInt"
  | .Short => "Short"
  | .Char => "Char"
  | .StringOffset => "String"

/-- A value stored in a JMap field.  `Int` carries the 32-bit pattern of the
Rust `i32`, `Float` the 32-bit pattern of the `f32`, and `String` the encoded
bytes of the Rust string. -/
inductive FieldValue where
  | Int (v : Nat)
  | Float (bits : Nat)
  | String (s : List Nat)
  deriving DecidableEq, Repr

/-- Default value for a field type. -/
def FieldValue.default_for : FieldType → FieldValue
  | .Long | .UnsignedLong | .Short | .Char => .Int 0
  | .Float => .Float 0
  | .String | .StringOffset => .String []

/-- Compatibility of a value variant with a field type. -/
def FieldValue.is_compatible_with : FieldValue → FieldType → Bool
  | .Int _, .Long | .Int _, .UnsignedLong | .Int _, .Short | .Int _, .Char => true
  | .Float _, .Float => true
  | .String _, .String | .String _, .StringOffset => true
  | _, _ => false

/-- Type name of the value variant, for error messages. -/
def FieldValue.type_name : FieldValue → Str
  | .Int _ => "Int"
  | .Float _ => "Float"
  | .String _ => "String"

/-- Definition of a field (column) in a BCSV. -/
structure Field where
  hash : Nat
  mask : Nat
  offset : Nat
  field_type : FieldType
  shift : Nat
  default : FieldValue
  deriving DecidableEq, Repr

/-- Create a new field with the default mask, shift 0 and type default. -/
def Field.new (hash : Nat) (field_type : FieldType) : Field :=
  { hash, field_type, mask := field_type.default_mask, shift := 0, offset := 0,
    default := FieldValue.default_for field_type }

/-- Create a new field with a custom default value. -/
def Field.with_default (hash : Nat) (field_type : FieldType) (default : FieldValue) : Field :=
  { hash, field_type, mask := field_type.default_mask, shift := 0, offset := 0, default }

/-! ## Errors (src/error.rs) -/

/-- Error values reported by the library (field names are carried as their
byte sequences, matching the string model). -/
inductive JMapError where
  | BufferTooSmall (expected got : Nat)
  | InvalidFieldType (raw : Nat)
  | TypeMismatch (expected got : Str)
  | FieldAlreadyExists (name : List Nat)
  | FieldNotFound (name : List Nat)
  | EntryIndexOutOfBounds (index len : Nat)
  | EncodingError
  deriving DecidableEq, Repr

/-! ## The name hash (src/hash.rs)

The hash of the Super Mario Galaxy JGadget table; a name is given by its
UTF-8 bytes. -/

/-- Hash one byte into the running 32-bit hash: bytes with the top bit set
are first sign-extended as 8-bit two's-complement integers (their pattern
as an `i32` is `byte | 0xFFFFFF00`); multiplication and addition wrap
modulo `2^32`. -/
def hashStep (hash byte : Nat) : Nat :=
  let ch := if byte &&& 0x80 ≠ 0 then byte ||| 0xFFFFFF00 else byte
  (hash * 31 % 4294967296 + ch) % 4294967296

/-- The hash function used by Super Mario Galaxy 1. -/
def calc_hash (field_name : List Nat) : Nat :=
  field_name.foldl hashStep 0

/-! ## Ordered maps (the `IndexMap` of the fields directory)

An insertion-ordered map is an association list; `insert` replaces the
value in place when the key is present and appends otherwise, and
`swap_remove` moves the last element into the removed position. -/

/-- Look up the value stored under `k`. -/
def lookupVal {α : Type} (l : List (Nat × α)) (k : Nat) : Option α :=
  (l.find? (fun p => p.1 == k)).map (·.2)

/-- Insert for an insertion-ordered map (`IndexMap::insert`, also the model
of `HashMap::insert` on an entry). -/
def indexInsert {α : Type} (l : List (Nat × α)) (k : Nat) (v : α) : List (Nat × α) :=
  if l.any (fun p => p.1 == k) then l.map (fun p => if p.1 == k then (k, v) else p)
  else l ++ [(k, v)]

/-- Removal by swapping the last element into the removed position
(`IndexMap::swap_remove`). -/
def indexSwapRemove {α : Type} (l : List (Nat × α)) (k : Nat) : List (Nat × α) :=
  match l.findIdx? (fun p => p.1 == k) with
  | none => l
  | some i =>
    match l.getLast? with
    | none => l
    | some last => (l.set i last).dropLast

/-! ## Entries (src/entry.rs) -/

/-- An entry (row): hash-to-value pairs, in one concrete iteration order of
the backing hash map. -/
structure Entry where
  data : List (Nat × FieldValue)
  deriving DecidableEq, Repr

/-- The empty entry (`Entry::new` / `with_capacity`). -/
def Entry.new : Entry := ⟨[]⟩

/-- Set a value by hash (`HashMap::insert`). -/
def Entry.set_by_hash (e : Entry) (hash : Nat) (value : FieldValue) : Entry :=
  ⟨indexInsert e.data hash value⟩

/-- Get a value by hash. -/
def Entry.get_by_hash (e : Entry) (hash : Nat) : Option FieldValue :=
  lookupVal e.data hash

/-- Remove a value by hash (`HashMap::remove`). -/
def Entry.removeHash (e : Entry) (hash : Nat) : Entry :=
  ⟨e.data.eraseP (fun p => p.1 == hash)⟩

/-! ## The table container (src/jmap.rs)

The hash-table parameter is specialised to the Super Mario Galaxy table,
whose `calc` is `calc_hash`; the reverse name index does not influence any
of the operations modelled here. -/

/-- The in-memory representation of a BCSV file: an insertion-ordered
field directory, a row list and the cached row byte size. -/
structure JMapInfo where
  fields : List (Nat × Field)
  entries : List Entry
  entry_size : Nat
  deriving DecidableEq, Repr

/-- A new empty container. -/
def JMapInfo.new : JMapInfo := ⟨[], [], 0⟩

/-- Number of fields (columns). -/
def JMapInfo.num_fields (jmap : JMapInfo) : Nat := jmap.fields.length

/-- Number of entries (rows). -/
def JMapInfo.len (jmap : JMapInfo) : Nat := jmap.entries.length

/-- Hashes of the declared fields, in insertion order. -/
def JMapInfo.fieldHashes (jmap : JMapInfo) : List Nat := jmap.fields.map (·.1)

/-- Create a new field: rejects an incompatible default and a duplicate
hash; on success inserts the field and retroactively sets the default on
every existing row. -/
def JMapInfo.create_field (jmap : JMapInfo) (name : List Nat) (field_type : FieldType)
    (default : FieldValue) : Except JMapError JMapInfo :=
  if ¬ default.is_compatible_with field_type then
    .error (.TypeMismatch field_type.csv_name default.type_name)
  else
    let hash := calc_hash name
    if jmap.fields.any (fun p => p.1 == hash) then
      .error (.FieldAlreadyExists name)
    else
      .ok { jmap with
        fields := indexInsert jmap.fields hash (Field.with_default hash field_type default),
        entries := jmap.entries.map (fun e => e.set_by_hash hash default) }

/-- Remove a field from the container: the directory entry is removed by
swap-removal and the value is stripped from every row. -/
def JMapInfo.drop_field (jmap : JMapInfo) (name : List Nat) : Except JMapError JMapInfo :=
  let hash := calc_hash name
  if ¬ jmap.fields.any (fun p => p.1 == hash) then
    .error (.FieldNotFound name)
  else
    .ok { jmap with
      fields := indexSwapRemove jmap.fields hash,
      entries := jmap.entries.map (fun e => e.removeHash hash) }

/-- Append a new row pre-populated with every declared default. -/
def JMapInfo.create_entry (jmap : JMapInfo) : JMapInfo :=
  let entry := jmap.fields.foldl (fun e p => e.set_by_hash p.2.hash p.2.default) Entry.new
  { jmap with entries := jmap.entries ++ [entry] }

/-- Remove a row by index; out of range is a reported error. -/
def JMapInfo.remove_entry (jmap : JMapInfo) (index : Nat) : Except JMapError (JMapInfo × Entry) :=
  if h : index < jmap.entries.length then
    .ok ({ jmap with entries := jmap.entries.eraseIdx index }, jmap.entries.get ⟨index, h⟩)
  else
    .error (.EntryIndexOutOfBounds index jmap.entries.length)

/-- Set a value on row `i` (`get_entry_mut` followed by `set_by_hash`). -/
def JMapInfo.setEntryValueByHash (jmap : JMapInfo) (i hash : Nat) (v : FieldValue) : JMapInfo :=
  { jmap with entries := jmap.entries.modify (fun e => e.set_by_hash hash v) i }

/-- Layout comparison used by the stable sorts of the encoder and of
`recalculate_offsets` (`sort_by_key` on the layout-order rank; a stable
sort by a key is determined by the key, so insertion sort with the
non-strict key comparison models it exactly). -/
def layoutLe (a b : Nat × Field) : Prop :=
  a.2.field_type.order ≤ b.2.field_type.order

instance : DecidableRel layoutLe := fun a b =>
  inferInstanceAs (Decidable (a.2.field_type.order ≤ b.2.field_type.order))

/-- Round a row byte total up to the next multiple of 4.  The source
computes `((total as u32 + 3) & !3)`; for totals below `2^32 - 3` the bit
operation equals this arithmetic form. -/
def align4 (total : Nat) : Nat := (total + 3) / 4 * 4

/-- Round a buffer length up to the next multiple of 32.  The source
computes `(len + 31) & !31` on `usize`; for lengths below `2^64 - 31` the
bit operation equals this arithmetic form. -/
def align32 (len : Nat) : Nat := (len + 31) / 32 * 32

/-- The offset-assignment loop of `recalculate_offsets`: walk the sorted
working copy, store the running offset into the original directory through
a lookup by hash, and accumulate the 16-bit running offset. -/
def recalcLoop : List (Nat × Field) → Nat → List (Nat × Field) → List (Nat × Field) × Nat
  | [], current_offset, fields => (fields, current_offset)
  | (hash, field) :: rest, current_offset, fields =>
    let fields := fields.map (fun p =>
      if p.1 == hash then (p.1, { p.2 with offset := current_offset }) else p)
    recalcLoop rest ((current_offset + field.field_type.size) % 65536) fields

/-- Recalculate field offsets and entry size based on field types. -/
def JMapInfo.recalculate_offsets (jmap : JMapInfo) : JMapInfo :=
  let fields_with_hashes := List.insertionSort layoutLe jmap.fields
  let (fields, current_offset) := recalcLoop fields_with_hashes 0 jmap.fields
  { jmap with fields, entry_size := align4 current_offset }

/-! ## I/O options (src/io.rs) -/

/-- String encoding options.  `ShiftJis` is carried for completeness; its
byte-level transcoding tables are outside the model, so the byte-identity
reading is only faithful for `Utf8`, and text-sensitive claims fix `Utf8`. -/
inductive Encoding where
  | ShiftJis
  | Utf8
  deriving DecidableEq, Repr

/-- Options for reading/writing BCSV files. -/
structure IoOptions where
  big_endian : Bool
  encoding : Encoding
  deriving DecidableEq, Repr

/-- The `Default` instance of the options: big-endian Shift-JIS. -/
def IoOptions.standard : IoOptions := ⟨true, .ShiftJis⟩

/-- Encode a string.  In the byte model this is the identity: UTF-8
encoding of a Rust string is exactly its bytes, and neither source branch
reports an error.  Shift-JIS transcoding is unmodelled. -/
def encode_string (s : List Nat) (_encoding : Encoding) : Except JMapError (List Nat) :=
  .ok s

/-- Decode bytes into a string.  In the byte model this is the identity;
the UTF-8 validity check of the source (whose failure is an
`EncodingError`) is not representable when strings are byte sequences, and
no claim depends on it. -/
def decode_string (bytes : List Nat) (_encoding : Encoding) : Except JMapError (List Nat) :=
  .ok bytes

/-! ## The encoder (src/io.rs, `to_buffer` and helpers) -/

/-- The offset-assignment loop of `to_buffer`: store the 16-bit running
offset into each field of the sorted working copy and return the final
running total. -/
def assignOffsets : List (Nat × Field) → Nat → List (Nat × Field) × Nat
  | [], current_offset => ([], current_offset)
  | (hash, field) :: rest, current_offset =>
    let field := { field with offset := current_offset }
    let (tail, total) := assignOffsets rest ((current_offset + field.field_type.size) % 65536)
    ((hash, field) :: tail, total)

/-- Write one field-directory record (hash, mask, offset, shift, type code). -/
def write_field (buffer : Buffer) (offset hash : Nat) (field : Field) (big_endian : Bool) :
    Buffer :=
  let buffer := writeU32 big_endian buffer offset hash
  let buffer := writeU32 big_endian buffer (offset + 0x04) field.mask
  let buffer := writeU16 big_endian buffer (offset + 0x08) field.offset
  let buffer := writeU8 buffer (offset + 0x0A) field.shift
  writeU8 buffer (offset + 0x0B) field.field_type.raw

/-- Write the field directory starting at `off` (12 bytes per record). -/
def writeFieldsLoop (big_endian : Bool) : List (Nat × Field) → Nat → Buffer → Buffer
  | [], _, buffer => buffer
  | (hash, field) :: rest, off, buffer =>
    writeFieldsLoop big_endian rest (off + 12) (write_field buffer off hash field big_endian)

/-- Write the four 32-bit header words. -/
def writeHeader (buffer : Buffer) (big_endian : Bool)
    (num_entries num_fields off_data entry_size : Nat) : Buffer :=
  let buffer := writeU32 big_endian buffer 0x00 num_entries
  let buffer := writeU32 big_endian buffer 0x04 num_fields
  let buffer := writeU32 big_endian buffer 0x08 off_data
  writeU32 big_endian buffer 0x0C entry_size

/-- Mutable state threaded through entry writing: the output buffer, the
string pool being built and the text-to-offset deduplication map. -/
structure EncState where
  buffer : Buffer
  string_table : List Nat
  string_offsets : List (List Nat × Nat)

/-- Write one field value at `offset`, applying mask/shift packing by
read-modify-write for the integer family and maintaining the string pool
for indirect text. -/
def write_field_value (offset : Nat) (value : FieldValue) (field : Field) (st : EncState)
    (options : IoOptions) : Except JMapError EncState :=
  match field.field_type, value with
  | .Long, .Int v | .UnsignedLong, .Int v =>
    let existing := readU32 options.big_endian st.buffer offset
    let masked := (existing &&& u32not field.mask) |||
      (u32cast (u32cast v <<< field.shift) &&& field.mask)
    .ok { st with buffer := writeU32 options.big_endian st.buffer offset masked }
  | .Float, .Float v =>
    .ok { st with buffer := writeU32 options.big_endian st.buffer offset v }
  | .Short, .Int v =>
    let existing := readU16 options.big_endian st.buffer offset
    let masked := u16cast ((existing &&& u32not field.mask) |||
      (u32cast (u32cast v <<< field.shift) &&& field.mask))
    .ok { st with buffer := writeU16 options.big_endian st.buffer offset masked }
  | .Char, .Int v =>
    let existing := st.buffer.data offset
    let masked := u8cast ((existing &&& u32not field.mask) |||
      (u32cast (u32cast v <<< field.shift) &&& field.mask))
    .ok { st with buffer := writeU8 st.buffer offset masked }
  | .String, .String s =>
    match encode_string s options.encoding with
    | .error e => .error e
    | .ok bytes =>
      let len := min bytes.length 32
      .ok { st with buffer := st.buffer.writeBytes offset (bytes.take len) }
  | .StringOffset, .String s =>
    match (st.string_offsets.find? (fun p => p.1 == s)).map (·.2) with
    | some existing_offset =>
      .ok { st with
        buffer := writeU32 options.big_endian st.buffer offset existing_offset }
    | none =>
      match encode_string s options.encoding with
      | .error e => .error e
      | .ok bytes =>
        let str_offset := st.string_table.length
        .ok { buffer := writeU32 options.big_endian st.buffer offset str_offset,
              string_table := st.string_table ++ bytes ++ [0],
              string_offsets := st.string_offsets ++ [(s, str_offset)] }
  | _, _ =>
    .error (.TypeMismatch field.field_type.csv_name value.type_name)

/-- Write one row: every pair the row holds whose hash matches a known
field is written at the field slot; unknown hashes are skipped. -/
def writeEntryPairs (entry_offset : Nat) (lookupField : Nat → Option Field)
    (options : IoOptions) : List (Nat × FieldValue) → EncState → Except JMapError EncState
  | [], st => .ok st
  | (hash, value) :: rest, st =>
    match lookupField hash with
    | some field =>
      match write_field_value (entry_offset + field.offset) value field st options with
      | .error e => .error e
      | .ok st => writeEntryPairs entry_offset lookupField options rest st
    | none => writeEntryPairs entry_offset lookupField options rest st

/-- Write one entry (row) at `entry_offset`. -/
def write_entry (entry_offset : Nat) (entry : Entry) (lookupField : Nat → Option Field)
    (options : IoOptions) (st : EncState) : Except JMapError EncState :=
  writeEntryPairs entry_offset lookupField options entry.data st

/-- Write all rows, advancing by `entry_size` bytes per row. -/
def writeEntriesLoop (lookupField : Nat → Option Field) (options : IoOptions)
    (entry_size : Nat) : List Entry → Nat → EncState → Except JMapError EncState
  | [], _, st => .ok st
  | entry :: rest, off, st =>
    match write_entry off entry lookupField options st with
    | .error e => .error e
    | .ok st => writeEntriesLoop lookupField options entry_size rest (off + entry_size) st

/-- Serialize a container into the BCSV byte format: header, sorted field
directory with freshly computed offsets, packed rows, deduplicated string
pool, and 0x40 padding to a 32-byte boundary.  The source computes both
`off_data = 0x10 + num_fields * 0x0C` and the allocation size
`off_data + num_entries * entry_size` in `u32`; overflow of either aborts
the program (a checked-arithmetic panic in a debug build; in a release
build the wrapped allocation makes the subsequent fixed-offset slice
writes panic), so it is modelled as `none`, the same convention as the
decoder's slice panics. -/
def to_buffer (jmap : JMapInfo) (options : IoOptions) : Option (Except JMapError Buffer) :=
  let num_entries := u32cast jmap.len
  let num_fields := u32cast jmap.num_fields
  if 0x10 + num_fields * 0x0C < 4294967296 then
    let off_data := 0x10 + num_fields * 0x0C
    let fields_with_offsets := jmap.fields.map (fun p => (p.2.hash, p.2))
    let fields_with_offsets := List.insertionSort layoutLe fields_with_offsets
    let (fields_with_offsets, current_offset) := assignOffsets fields_with_offsets 0
    let entry_size := align4 current_offset
    if off_data + num_entries * entry_size < 4294967296 then
      let buffer := Buffer.zeros (off_data + num_entries * entry_size)
      let buffer := writeHeader buffer options.big_endian num_entries num_fields off_data entry_size
      let lookupField := fun h => lookupVal fields_with_offsets h
      let buffer := writeFieldsLoop options.big_endian fields_with_offsets 0x10 buffer
      match writeEntriesLoop lookupField options entry_size jmap.entries off_data
          ⟨buffer, [], []⟩ with
      | .error e => some (.error e)
      | .ok st =>
        let buffer := st.buffer.append st.string_table
        let buffer := buffer.resizeFill (align32 buffer.size) 0x40
        some (.ok buffer)
    else none
  else none

/-- The encoder stopped right after `buffer.extend_from_slice(&string_table)`:
identical to `to_buffer` in every step except that the final padding resize
to a 32-byte boundary is not performed.  A successful result is therefore
the output exactly up to the end of the string pool, and its size marks
where the padding of the full encoder begins. -/
def to_buffer_content (jmap : JMapInfo) (options : IoOptions) :
    Option (Except JMapError Buffer) :=
  let num_entries := u32cast jmap.len
  let num_fields := u32cast jmap.num_fields
  if 0x10 + num_fields * 0x0C < 4294967296 then
    let off_data := 0x10 + num_fields * 0x0C
    let fields_with_offsets := jmap.fields.map (fun p => (p.2.hash, p.2))
    let fields_with_offsets := List.insertionSort layoutLe fields_with_offsets
    let (fields_with_offsets, current_offset) := assignOffsets fields_with_offsets 0
    let entry_size := align4 current_offset
    if off_data + num_entries * entry_size < 4294967296 then
      let buffer := Buffer.zeros (off_data + num_entries * entry_size)
      let buffer := writeHeader buffer options.big_endian num_entries num_fields off_data entry_size
      let lookupField := fun h => lookupVal fields_with_offsets h
      let buffer := writeFieldsLoop options.big_endian fields_with_offsets 0x10 buffer
      match writeEntriesLoop lookupField options entry_size jmap.entries off_data
          ⟨buffer, [], []⟩ with
      | .error e => some (.error e)
      | .ok st => some (.ok (st.buffer.append st.string_table))
    else none
  else none

/-- The encoder observed as a byte list (buffer equality up to contents). -/
def encodeBytes (jmap : JMapInfo) (options : IoOptions) :
    Option (Except JMapError (List Nat)) :=
  (to_buffer jmap options).map (fun r => r.map Buffer.toList)

/-! ## The decoder (src/io.rs, `from_buffer` and helpers)

The outer `Option` reports Rust bounds aborts: `none` means the source
indexes or slices out of range (a panic, not a returned error). -/

/-- Read one field-directory record at `offset`. -/
def read_field (data : Buffer) (offset : Nat) (big_endian : Bool) :
    Option (Except JMapError Field) :=
  if offset + 0x0C ≤ data.size then
    let hash := readU32 big_endian data offset
    let mask := readU32 big_endian data (offset + 0x04)
    let field_offset := readU16 big_endian data (offset + 0x08)
    let shift := data.data (offset + 0x0A)
    let raw_type := data.data (offset + 0x0B)
    some (match FieldType.from_raw raw_type with
      | none => .error (.InvalidFieldType raw_type)
      | some field_type =>
        .ok { hash, field_type, mask, shift, offset := field_offset,
              default := FieldValue.default_for field_type })
  else none

/-- Read the field directory: `num_fields` records of 12 bytes each,
inserted into the directory map in order. -/
def readFieldsLoop (data : Buffer) (big_endian : Bool) :
    Nat → Nat → List (Nat × Field) → Option (Except JMapError (List (Nat × Field)))
  | 0, _, acc => some (.ok acc)
  | n + 1, off, acc =>
    match read_field data off big_endian with
    | none => none
    | some (.error e) => some (.error e)
    | some (.ok field) => readFieldsLoop data big_endian n (off + 0x0C) (indexInsert acc field.hash field)

/-- Read one field value at `offset`, applying the mask/shift and the
per-width sign extension of the source. -/
def read_field_value (data : Buffer) (offset string_table_offset : Nat) (field : Field)
    (options : IoOptions) : Option (Except JMapError FieldValue) :=
  match field.field_type with
  | .Long | .UnsignedLong =>
    if offset + 4 ≤ data.size then
      let raw := readU32 options.big_endian data offset
      let masked := (raw &&& field.mask) >>> field.shift
      -- The source guards on bit 31 but returns `masked as i32` in both
      -- branches: reinterpretation, with no bits changed.
      let signed := if masked &&& 0x80000000 ≠ 0 then masked else masked
      some (.ok (.Int signed))
    else none
  | .Float =>
    if offset + 4 ≤ data.size then
      some (.ok (.Float (readU32 options.big_endian data offset)))
    else none
  | .Short =>
    if offset + 2 ≤ data.size then
      let raw := readU16 options.big_endian data offset
      let masked := (raw &&& field.mask) >>> field.shift
      let signed := if masked &&& 0x8000 ≠ 0 then masked ||| 0xFFFF0000 else masked
      some (.ok (.Int signed))
    else none
  | .Char =>
    if offset + 1 ≤ data.size then
      let raw := data.data offset
      let masked := (raw &&& field.mask) >>> field.shift
      let signed := if masked &&& 0x80 ≠ 0 then masked ||| 0xFFFFFF00 else masked
      some (.ok (.Int signed))
    else none
  | .String =>
    if offset + 32 ≤ data.size then
      let window := (List.range 32).map (fun j => data.data (offset + j))
      let endPos := (window.findIdx? (fun b => b == 0)).getD 32
      match decode_string (window.take endPos) options.encoding with
      | .error e => some (.error e)
      | .ok s => some (.ok (.String s))
    else none
  | .StringOffset =>
    if offset + 4 ≤ data.size then
      let str_offset := readU32 options.big_endian data offset
      let str_start := string_table_offset + str_offset
      if str_start ≤ data.size then
        let tailBytes := (List.range (data.size - str_start)).map (fun j => data.data (str_start + j))
        let endPos := (tailBytes.findIdx? (fun b => b == 0)).getD 0
        match decode_string (tailBytes.take endPos) options.encoding with
        | .error e => some (.error e)
        | .ok s => some (.ok (.String s))
      else none
    else none

/-- Read one entry: every declared field is extracted at its offset. -/
def readEntryFields (data : Buffer) (entry_offset string_table_offset : Nat)
    (options : IoOptions) : List (Nat × Field) → Entry → Option (Except JMapError Entry)
  | [], entry => some (.ok entry)
  | (_, field) :: rest, entry =>
    match read_field_value data (entry_offset + field.offset) string_table_offset field options with
    | none => none
    | some (.error e) => some (.error e)
    | some (.ok value) =>
      readEntryFields data entry_offset string_table_offset options rest
        (entry.set_by_hash field.hash value)

/-- Read `num_entries` rows of `entry_size` bytes each. -/
def readEntriesLoop (data : Buffer) (string_table_offset : Nat) (fields : List (Nat × Field))
    (options : IoOptions) (entry_size : Nat) :
    Nat → Nat → List Entry → Option (Except JMapError (List Entry))
  | 0, _, acc => some (.ok acc)
  | n + 1, off, acc =>
    match readEntryFields data off string_table_offset options fields Entry.new with
    | none => none
    | some (.error e) => some (.error e)
    | some (.ok entry) =>
      readEntriesLoop data string_table_offset fields options entry_size n
        (off + entry_size) (acc ++ [entry])

/-- Parse a BCSV byte buffer into a container.  A result of `none` models
an index/slice bounds abort of the source. -/
def from_buffer (data : Buffer) (options : IoOptions) : Option (Except JMapError JMapInfo) :=
  if data.size < 0x10 then
    some (.error (.BufferTooSmall 0x10 data.size))
  else
    let num_entries := readU32 options.big_endian data 0x00
    let num_fields := readU32 options.big_endian data 0x04
    let off_data := readU32 options.big_endian data 0x08
    let entry_size := readU32 options.big_endian data 0x0C
    let off_strings := off_data + num_entries * entry_size
    match readFieldsLoop data options.big_endian num_fields 0x10 [] with
    | none => none
    | some (.error e) => some (.error e)
    | some (.ok fields) =>
      match readEntriesLoop data off_strings fields options entry_size num_entries off_data [] with
      | none => none
      | some (.error e) => some (.error e)
      | some (.ok entries) => some (.ok ⟨fields, entries, entry_size⟩)

/-! ## Specification-side definitions

These definitions follow the words of the specification, for comparison
with the embedded source functions. -/

/-- Signed value of a byte viewed as an 8-bit two's-complement integer. -/
def signedByteValue (b : Nat) : Int :=
  if 0x80 ≤ b then (b : Int) - 256 else (b : Int)

/-- The hash fold exactly as the specification words it: hash times 31
plus the signed byte value, folded left-to-right with 32-bit wraparound. -/
def specHashFold (bs : List Nat) : Nat :=
  bs.foldl (fun h b => (((h : Int) * 31 + signedByteValue b) % 4294967296).toNat) 0

/-! ## Claim C2: determinism and arithmetic of the name hash -/

theorem natMod_toNat_intMod (m : Nat) :
    ((m : Int) % 4294967296).toNat = m % 4294967296 := by
  rw [show ((4294967296 : Int)) = ((4294967296 : Nat) : Int) from rfl, ← Int.ofNat_emod]
  exact Int.toNat_ofNat _

theorem hashStep_eq_spec (h b : Nat) (hb : b < 256) :
    hashStep h b = (((h : Int) * 31 + signedByteValue b) % 4294967296).toNat := by
  have hand0 : ∀ x, x < 128 → x &&& 0x80 = 0 := by decide
  have hand1 : ∀ x, x < 256 → 128 ≤ x → x &&& 0x80 ≠ 0 := by decide
  have hor : ∀ x, x < 256 → 128 ≤ x → x ||| 0xFFFFFF00 = 4294967040 + x := by decide
  rcases Nat.lt_or_ge b 128 with hlt | hge
  · have e1 : hashStep h b = (h * 31 % 4294967296 + b) % 4294967296 := by
      simp [hashStep, hand0 b hlt]
    have e2 : signedByteValue b = (b : Int) := by
      unfold signedByteValue; rw [if_neg (by omega)]
    rw [e1, e2]
    omega
  · have e1 : hashStep h b = (h * 31 % 4294967296 + (4294967040 + b)) % 4294967296 := by
      simp [hashStep, hand1 b hb hge, hor b hb hge]
    have e2 : signedByteValue b = (b : Int) - 256 := by
      unfold signedByteValue; rw [if_pos (by omega)]
    rw [e1, e2]
    omega

theorem calc_hash_fold (bs : List Nat) (hbs : ∀ b ∈ bs, b < 256) :
    calc_hash bs = specHashFold bs := by
  unfold calc_hash specHashFold
  have key : ∀ (l : List Nat) (h : Nat), (∀ b ∈ l, b < 256) →
      l.foldl hashStep h =
        l.foldl (fun (a : Nat) b => (((a : Int) * 31 + signedByteValue b) % 4294967296).toNat) h := by
    intro l
    induction l with
    | nil => intro h _; rfl
    | cons b rest ih =>
      intro h hl
      simp only [List.foldl_cons]
      rw [hashStep_eq_spec h b (hl b (List.mem_cons_self b rest))]
      exact ih _ (fun x hx => hl x (List.mem_cons_of_mem b hx))
  exact key bs 0 hbs

/-- C2: calc_hash is a pure, deterministic function of the name bytes that
folds `hash * 31 + signed_byte_value(b)` left-to-right with 32-bit
wraparound arithmetic, sign-extending each byte as an 8-bit
two's-complement integer; in particular the name "ScenarioNo" hashes to
0xED08B591 and "ZoneName" hashes to 0x3666C077. -/
theorem calc_hash_spec :
    (∀ bs : List Nat, (∀ b ∈ bs, b < 256) → calc_hash bs = specHashFold bs) ∧
    calc_hash [83, 99, 101, 110, 97, 114, 105, 111, 78, 111] = 0xED08B591 ∧
    calc_hash [90, 111, 110, 101, 78, 97, 109, 101] = 0x3666C077 :=
  ⟨calc_hash_fold, by decide, by decide⟩

/-- Witness for C2 at the concrete name "ScenarioNo". -/
theorem calc_hash_spec_witness :
    (∀ b ∈ [83, 99, 101, 110, 97, 114, 105, 111, 78, 111], b < 256) ∧
    calc_hash [83, 99, 101, 110, 97, 114, 105, 111, 78, 111] =
      specHashFold [83, 99, 101, 110, 97, 114, 105, 111, 78, 111] :=
  ⟨by decide, calc_hash_spec.1 _ (by decide)⟩

/-! ## Claim C7: decode totality -/

/-- C7 evaluation: a buffer shorter than 16 bytes is reported as
`BufferTooSmall` with expected size 16 and the actual length, as the claim
says; but decode is not total: a well-sized 16-byte header that declares
one field makes the source slice out of bounds (an abort, modelled as
`none`), not a reported error. -/
theorem from_buffer_bounds_abort :
    from_buffer (Buffer.ofList [0, 0, 0, 0, 0, 0, 0, 1, 0, 0, 0, 0, 0, 0, 0, 0])
      IoOptions.standard = none ∧
    from_buffer (Buffer.ofList [1, 2, 3]) IoOptions.standard =
      some (.error (.BufferTooSmall 16 3)) :=
  ⟨rfl, rfl⟩

/-! ## Claim C3: per-width sign extension after masking -/

theorem high_bits_of_or_FFFF0000 (x k : Nat) (h16 : 16 ≤ k) (h32 : k < 32) :
    (x ||| 0xFFFF0000).testBit k = true := by
  rw [Nat.testBit_lor]
  have : (0xFFFF0000 : Nat).testBit k = true := by
    interval_cases k <;> decide
  simp [this]

theorem high_bits_of_or_FFFFFF00 (x k : Nat) (h8 : 8 ≤ k) (h32 : k < 32) :
    (x ||| 0xFFFFFF00).testBit k = true := by
  rw [Nat.testBit_lor]
  have : (0xFFFFFF00 : Nat).testBit k = true := by
    interval_cases k <;> decide
  simp [this]

theorem and_top_bit_iff (x n : Nat) : x &&& 2 ^ n ≠ 0 ↔ x.testBit n := by
  rw [Nat.and_two_pow]
  cases h : x.testBit n <;> simp [h]

/-- C3: for the integer-family field types the decoder reads the raw word
of the field width in the configured endianness, applies
`(raw & mask) >> shift`, and sign-extends the masked value according to
the declared width: a 16-bit field whose masked value has bit 15 set
yields a 32-bit pattern with bits 16 to 31 all set, an 8-bit field whose
masked value has bit 7 set yields a pattern with bits 8 to 31 all set,
independent of mask and shift, while the 32-bit types take the masked
value unchanged. -/
theorem read_field_value_sign_extension (data : Buffer) (offset st : Nat) (field : Field)
    (options : IoOptions) :
    (field.field_type = .Short → offset + 2 ≤ data.size →
      ∃ v, read_field_value data offset st field options = some (.ok (.Int v)) ∧
        v = (if ((readU16 options.big_endian data offset &&& field.mask) >>> field.shift)
              &&& 0x8000 ≠ 0 then
              ((readU16 options.big_endian data offset &&& field.mask) >>> field.shift) ||| 0xFFFF0000
            else (readU16 options.big_endian data offset &&& field.mask) >>> field.shift) ∧
        (((readU16 options.big_endian data offset &&& field.mask) >>> field.shift).testBit 15 →
          ∀ k, 16 ≤ k → k < 32 → v.testBit k = true)) ∧
    (field.field_type = .Char → offset + 1 ≤ data.size →
      ∃ v, read_field_value data offset st field options = some (.ok (.Int v)) ∧
        v = (if ((data.data offset &&& field.mask) >>> field.shift) &&& 0x80 ≠ 0 then
              ((data.data offset &&& field.mask) >>> field.shift) ||| 0xFFFFFF00
            else (data.data offset &&& field.mask) >>> field.shift) ∧
        (((data.data offset &&& field.mask) >>> field.shift).testBit 7 →
          ∀ k, 8 ≤ k → k < 32 → v.testBit k = true)) ∧
    ((field.field_type = .Long ∨ field.field_type = .UnsignedLong) → offset + 4 ≤ data.size →
      read_field_value data offset st field options =
        some (.ok (.Int ((readU32 options.big_endian data offset &&& field.mask)
          >>> field.shift)))) := by
  refine ⟨?_, ?_, ?_⟩
  · intro hty hsz
    set masked := (readU16 options.big_endian data offset &&& field.mask) >>> field.shift with hm
    refine ⟨if masked &&& 0x8000 ≠ 0 then masked ||| 0xFFFF0000 else masked, ?_, rfl, ?_⟩
    · simp [read_field_value, hty, hsz, hm]
    · intro hbit k hk1 hk2
      have hne : masked &&& 0x8000 ≠ 0 := (and_top_bit_iff masked 15).mpr hbit
      rw [if_pos hne]
      exact high_bits_of_or_FFFF0000 masked k hk1 hk2
  · intro hty hsz
    set masked := (data.data offset &&& field.mask) >>> field.shift with hm
    refine ⟨if masked &&& 0x80 ≠ 0 then masked ||| 0xFFFFFF00 else masked, ?_, rfl, ?_⟩
    · simp [read_field_value, hty, hsz, hm]
    · intro hbit k hk1 hk2
      have hne : masked &&& 0x80 ≠ 0 := (and_top_bit_iff masked 7).mpr hbit
      rw [if_pos hne]
      exact high_bits_of_or_FFFFFF00 masked k hk1 hk2
  · rintro (hty | hty) hsz <;> simp [read_field_value, hty, hsz]

/-- Witness for C3 on a concrete two-byte buffer holding 0x8000, a
concrete one-byte buffer holding 0x80 and a concrete four-byte buffer. -/
theorem read_field_value_sign_extension_witness :
    (∃ v, read_field_value (Buffer.ofList [0x80, 0x00]) 0 0
        { Field.new 5 .Short with } ⟨true, .Utf8⟩ = some (.ok (.Int v)) ∧
      v = (if ((readU16 true (Buffer.ofList [0x80, 0x00]) 0 &&& (Field.new 5 .Short).mask) >>>
            (Field.new 5 .Short).shift) &&& 0x8000 ≠ 0 then
            ((readU16 true (Buffer.ofList [0x80, 0x00]) 0 &&& (Field.new 5 .Short).mask) >>>
              (Field.new 5 .Short).shift) ||| 0xFFFF0000
          else ((readU16 true (Buffer.ofList [0x80, 0x00]) 0 &&& (Field.new 5 .Short).mask) >>>
            (Field.new 5 .Short).shift)) ∧
      (((readU16 true (Buffer.ofList [0x80, 0x00]) 0 &&& (Field.new 5 .Short).mask) >>>
          (Field.new 5 .Short).shift).testBit 15 →
        ∀ k, 16 ≤ k → k < 32 → v.testBit k = true)) ∧
    (∃ v, read_field_value (Buffer.ofList [0x80]) 0 0
        { Field.new 6 .Char with } ⟨true, .Utf8⟩ = some (.ok (.Int v)) ∧
      v = (if (((Buffer.ofList [0x80]).data 0 &&& (Field.new 6 .Char).mask) >>>
            (Field.new 6 .Char).shift) &&& 0x80 ≠ 0 then
            (((Buffer.ofList [0x80]).data 0 &&& (Field.new 6 .Char).mask) >>>
              (Field.new 6 .Char).shift) ||| 0xFFFFFF00
          else (((Buffer.ofList [0x80]).data 0 &&& (Field.new 6 .Char).mask) >>>
            (Field.new 6 .Char).shift)) ∧
      ((((Buffer.ofList [0x80]).data 0 &&& (Field.new 6 .Char).mask) >>>
          (Field.new 6 .Char).shift).testBit 7 →
        ∀ k, 8 ≤ k → k < 32 → v.testBit k = true)) ∧
    read_field_value (Buffer.ofList [1, 2, 3, 4]) 0 0 { Field.new 7 .Long with } ⟨true, .Utf8⟩ =
      some (.ok (.Int ((readU32 true (Buffer.ofList [1, 2, 3, 4]) 0 &&&
        (Field.new 7 .Long).mask) >>> (Field.new 7 .Long).shift))) :=
  ⟨(read_field_value_sign_extension (Buffer.ofList [0x80, 0x00]) 0 0
      { Field.new 5 .Short with } ⟨true, .Utf8⟩).1 rfl (by decide),
   (read_field_value_sign_extension (Buffer.ofList [0x80]) 0 0
      { Field.new 6 .Char with } ⟨true, .Utf8⟩).2.1 rfl (by decide),
   (read_field_value_sign_extension (Buffer.ofList [1, 2, 3, 4]) 0 0
      { Field.new 7 .Long with } ⟨true, .Utf8⟩).2.2 (Or.inl rfl) (by decide)⟩

/-! ## Buffer size bookkeeping -/

@[simp] theorem Buffer.size_writeBytes (buf : Buffer) (off : Nat) (ws : List Nat) :
    (buf.writeBytes off ws).size = buf.size := rfl

@[simp] theorem Buffer.size_append (buf : Buffer) (ws : List Nat) :
    (buf.append ws).size = buf.size + ws.length := rfl

@[simp] theorem Buffer.size_resizeFill (buf : Buffer) (n fill : Nat) :
    (buf.resizeFill n fill).size = n := rfl

@[simp] theorem Buffer.size_zeros (n : Nat) : (Buffer.zeros n).size = n := rfl

@[simp] theorem size_writeU32 (be : Bool) (buf : Buffer) (off v : Nat) :
    (writeU32 be buf off v).size = buf.size := rfl

@[simp] theorem size_writeU16 (be : Bool) (buf : Buffer) (off v : Nat) :
    (writeU16 be buf off v).size = buf.size := rfl

@[simp] theorem size_writeU8 (buf : Buffer) (off v : Nat) :
    (writeU8 buf off v).size = buf.size := rfl

/-! ## Claim C5: alignment and padding invariants -/

/-- C5: the computed row size is a multiple of 4; whenever encoding
succeeds the buffer length is a multiple of 32 and the output is the
unpadded encode (the buffer as it stands at the end of the string pool,
computed by `to_buffer_content`) resized up to the next 32-byte boundary,
with every byte past the end of the string pool equal to the fixed pad
byte 0x40. -/
theorem to_buffer_alignment (jmap : JMapInfo) (options : IoOptions) (buf : Buffer)
    (h : to_buffer jmap options = some (.ok buf)) :
    align4 (assignOffsets (List.insertionSort layoutLe
        (jmap.fields.map (fun p => (p.2.hash, p.2)))) 0).2 % 4 = 0 ∧
    buf.size % 32 = 0 ∧
    ∃ content, to_buffer_content jmap options = some (.ok content) ∧
      buf = content.resizeFill (align32 content.size) 0x40 ∧
      content.size ≤ buf.size ∧
      ∀ i, content.size ≤ i → i < buf.size → buf.data i = 0x40 := by
  refine ⟨by unfold align4; omega, ?_⟩
  simp only [to_buffer] at h
  split at h
  case isFalse => exact absurd h (by simp)
  case isTrue hg1 =>
    split at h
    case isFalse => exact absurd h (by simp)
    case isTrue hg2 =>
      split at h
      case h_1 e heq => exact absurd h (by simp)
      case h_2 st heq =>
        injection h with h
        injection h with h
        subst h
        refine ⟨?_, st.buffer.append st.string_table, ?_, rfl, ?_, ?_⟩
        · show align32 _ % 32 = 0
          unfold align32; omega
        · simp only [to_buffer_content]
          rw [if_pos hg1, if_pos hg2, heq]
        · show _ ≤ align32 _
          unfold align32; omega
        · intro i hi _
          show (if i < (st.buffer.append st.string_table).size then _ else (0x40 : Nat)) = 0x40
          rw [if_neg (by omega)]

/-- Witness for C5 at the empty container. -/
theorem to_buffer_alignment_witness :
    ∃ buf, to_buffer JMapInfo.new IoOptions.standard = some (.ok buf) ∧
      (align4 (assignOffsets (List.insertionSort layoutLe
          (JMapInfo.new.fields.map (fun p => (p.2.hash, p.2)))) 0).2 % 4 = 0 ∧
      buf.size % 32 = 0 ∧
      ∃ content, to_buffer_content JMapInfo.new IoOptions.standard = some (.ok content) ∧
        buf = content.resizeFill (align32 content.size) 0x40 ∧
        content.size ≤ buf.size ∧
        ∀ i, content.size ≤ i → i < buf.size → buf.data i = 0x40) :=
  ⟨_, rfl, to_buffer_alignment JMapInfo.new IoOptions.standard _ rfl⟩

/-! ## Association list lemmas -/

theorem lookupVal_cons {α : Type} (a : Nat × α) (t : List (Nat × α)) (k : Nat) :
    lookupVal (a :: t) k = if a.1 = k then some a.2 else lookupVal t k := by
  by_cases h : a.1 = k
  · rw [if_pos h]
    unfold lookupVal
    rw [List.find?_cons_of_pos _ (by simp [h])]
    rfl
  · rw [if_neg h]
    unfold lookupVal
    rw [List.find?_cons_of_neg _ (by simp [h])]

theorem lookupVal_eq_none_of_not_mem {α : Type} (l : List (Nat × α)) (k : Nat)
    (h : k ∉ l.map (·.1)) : lookupVal l k = none := by
  unfold lookupVal
  rw [List.find?_eq_none.mpr]
  · rfl
  · intro p hp hbeq
    exact h (List.mem_map.mpr ⟨p, hp, by simpa using hbeq⟩)

theorem lookupVal_eraseP {α : Type} (l : List (Nat × α)) (k : Nat)
    (hnd : (l.map (·.1)).Nodup) :
    lookupVal (l.eraseP (fun p => p.1 == k)) k = none ∧
    ∀ k2, k2 ≠ k → lookupVal (l.eraseP (fun p => p.1 == k)) k2 = lookupVal l k2 := by
  induction l with
  | nil => exact ⟨rfl, fun _ _ => rfl⟩
  | cons a t ih =>
    simp only [List.map_cons, List.nodup_cons] at hnd
    by_cases ha : a.1 = k
    · rw [List.eraseP_cons_of_pos (by simp [ha])]
      refine ⟨lookupVal_eq_none_of_not_mem t k (ha ▸ hnd.1), ?_⟩
      intro k2 hk2
      rw [lookupVal_cons, if_neg (fun hc => hk2 (by rw [← hc, ha]))]
    · rw [List.eraseP_cons_of_neg (by simp [ha])]
      obtain ⟨ih1, ih2⟩ := ih hnd.2
      refine ⟨?_, ?_⟩
      · rw [lookupVal_cons, if_neg ha]
        exact ih1
      · intro k2 hk2
        rw [lookupVal_cons, lookupVal_cons]
        by_cases hak : a.1 = k2
        · rw [if_pos hak, if_pos hak]
        · rw [if_neg hak, if_neg hak]
          exact ih2 k2 hk2

theorem findIdx?_of_first {α : Type} (p : α → Bool) :
    ∀ (l : List α) (i : Nat) (hi : i < l.length) (n : Nat),
      p (l.get ⟨i, hi⟩) = true →
      (∀ j (hj : j < i), p (l.get ⟨j, Nat.lt_trans hj hi⟩) = false) →
      List.findIdx? p l n = some (n + i) := by
  intro l
  induction l with
  | nil => intro i hi; exact absurd hi (by simp)
  | cons a t ih =>
    intro i hi n hp hprior
    rw [List.findIdx?_cons]
    cases i with
    | zero =>
      have hpa : p a = true := hp
      rw [if_pos hpa]
      rfl
    | succ i =>
      have ha : p a = false := hprior 0 (Nat.succ_pos i)
      rw [if_neg (by simp [ha])]
      have hi2 : i < t.length := by simpa using hi
      have := ih i hi2 (n + 1) (by simpa using hp)
        (fun j hj => by simpa using hprior (j + 1) (Nat.succ_lt_succ hj))
      rw [this]
      congr 1
      omega

/-! ## Claim C10: swap-removal behaviour of drop_field -/

/-- C10 (amended): `drop_field` removes a declared field by swap-removal:
an unknown name is a `FieldNotFound` error; for a declared field at
position `i` the final field of the directory is moved into position `i`
and the last slot dropped, so when at least two fields follow the dropped
one the insertion order of the remaining fields differs from the
order-preserving removal; and every entry loses its value under the
dropped hash while keeping all other values. -/
theorem drop_field_swap_removal (c : JMapInfo) (name : List Nat)
    (hndf : (c.fields.map (·.1)).Nodup)
    (hnde : ∀ e ∈ c.entries, (e.data.map (·.1)).Nodup) :
    (calc_hash name ∉ c.fields.map (·.1) →
      c.drop_field name = .error (.FieldNotFound name)) ∧
    (∀ i (hi : i < c.fields.length), (c.fields.get ⟨i, hi⟩).1 = calc_hash name →
      ∃ c' : JMapInfo, c.drop_field name = .ok c' ∧
        c'.fields.length = c.fields.length - 1 ∧
        (∀ j, j < c.fields.length - 1 → j ≠ i → c'.fields[j]? = c.fields[j]?) ∧
        (i < c.fields.length - 1 →
          c'.fields[i]? = c.fields[c.fields.length - 1]?) ∧
        (i + 2 < c.fields.length →
          c'.fields.map (·.1) ≠ (c.fields.map (·.1)).eraseIdx i) ∧
        c'.entries.length = c.entries.length ∧
        (∀ (j : Nat) (e : Entry), c.entries[j]? = some e →
          ∃ e' : Entry, c'.entries[j]? = some e' ∧
            e'.get_by_hash (calc_hash name) = none ∧
            (∀ k, k ≠ calc_hash name → e'.get_by_hash k = e.get_by_hash k))) := by
  have hmaplen : (c.fields.map (·.1)).length = c.fields.length := by simp
  constructor
  · intro hnot
    have hany : c.fields.any (fun p => p.1 == calc_hash name) = false := by
      rw [List.any_eq_false]
      intro p hp
      simp only [beq_iff_eq]
      intro hcontra
      exact hnot (List.mem_map.mpr ⟨p, hp, hcontra⟩)
    unfold JMapInfo.drop_field
    rw [if_pos (by simp [hany])]
  · intro i hi hkey
    have hkey2 : c.fields[i].1 = calc_hash name := hkey
    have hany : c.fields.any (fun p => p.1 == calc_hash name) = true := by
      rw [List.any_eq_true]
      exact ⟨c.fields.get ⟨i, hi⟩, List.get_mem c.fields i hi, by simp [hkey2]⟩
    have hlen : 0 < c.fields.length := by omega
    -- the swap-removal index is exactly i
    have hfind : c.fields.findIdx? (fun p => p.1 == calc_hash name) = some i := by
      have := findIdx?_of_first (fun p => p.1 == calc_hash name) c.fields i hi 0
        (by simp [hkey2])
        (fun j hj => by
          show ((c.fields.get ⟨j, Nat.lt_trans hj hi⟩).1 == calc_hash name) = false
          simp only [beq_eq_false_iff_ne, ne_eq]
          intro hc
          have hb1 : j < (c.fields.map (·.1)).length := by omega
          have hb2 : i < (c.fields.map (·.1)).length := by omega
          have hgetEq : (c.fields.map (·.1))[j] = (c.fields.map (·.1))[i] := by
            simp only [List.getElem_map]
            exact hc.trans hkey.symm
          have := (List.Nodup.getElem_inj_iff hndf).mp hgetEq
          omega)
      simpa using this
    have hlast : c.fields.getLast? = some (c.fields.get ⟨c.fields.length - 1, by omega⟩) := by
      rw [List.getLast?_eq_getElem?, List.getElem?_eq_getElem (by omega)]
      rfl
    have hswap : indexSwapRemove c.fields (calc_hash name) =
        (c.fields.set i (c.fields.get ⟨c.fields.length - 1, by omega⟩)).dropLast := by
      unfold indexSwapRemove
      rw [hfind, hlast]
    refine ⟨⟨indexSwapRemove c.fields (calc_hash name),
      c.entries.map (fun e => e.removeHash (calc_hash name)), c.entry_size⟩,
      ?_, ?_, ?_, ?_, ?_, ?_, ?_⟩
    · unfold JMapInfo.drop_field
      rw [if_neg (by simp [hany])]
    · simp [hswap]
    · intro j hj hji
      show (indexSwapRemove c.fields (calc_hash name))[j]? = _
      rw [hswap, List.getElem?_dropLast, if_pos (by simpa using hj),
        List.getElem?_set_ne (Ne.symm hji)]
    · intro hilt
      show (indexSwapRemove c.fields (calc_hash name))[i]? = _
      rw [hswap, List.getElem?_dropLast, if_pos (by simpa using hilt),
        List.getElem?_set_eq_of_lt _ hi,
        List.getElem?_eq_getElem (show c.fields.length - 1 < c.fields.length by omega)]
      rfl
    · intro hii hcontra
      have hL : ((indexSwapRemove c.fields (calc_hash name)).map (·.1))[i]? =
          some ((c.fields.get ⟨c.fields.length - 1, by omega⟩).1) := by
        rw [List.getElem?_map, hswap, List.getElem?_dropLast,
          if_pos (by simp; omega), List.getElem?_set_eq_of_lt _ hi]
        rfl
      have hR : ((c.fields.map (·.1)).eraseIdx i)[i]? =
          some ((c.fields.get ⟨i + 1, by omega⟩).1) := by
        rw [List.getElem?_eraseIdx_of_ge _ _ _ (Nat.le_refl i), List.getElem?_map,
          List.getElem?_eq_getElem (show i + 1 < c.fields.length by omega)]
        rfl
      rw [hcontra] at hL
      have hkeyeq : (c.fields.get ⟨c.fields.length - 1, by omega⟩).1 =
          (c.fields.get ⟨i + 1, by omega⟩).1 :=
        Option.some.inj (hL.symm.trans hR)
      have hb1 : c.fields.length - 1 < (c.fields.map (·.1)).length := by omega
      have hb2 : i + 1 < (c.fields.map (·.1)).length := by omega
      have hgetEq : (c.fields.map (·.1))[c.fields.length - 1] = (c.fields.map (·.1))[i + 1] := by
        simp only [List.getElem_map]
        exact hkeyeq
      have := (List.Nodup.getElem_inj_iff hndf).mp hgetEq
      omega
    · simp
    · intro j e hje
      have hmem2 : e ∈ c.entries := List.getElem?_mem hje
      obtain ⟨h1, h2⟩ := lookupVal_eraseP e.data (calc_hash name) (hnde e hmem2)
      refine ⟨e.removeHash (calc_hash name), ?_, h1, fun k hk => h2 k hk⟩
      show (c.entries.map (fun e => e.removeHash (calc_hash name)))[j]? = _
      rw [List.getElem?_map, hje]
      rfl

/-- Witness for C10 on a concrete four-field container, dropping the
first field. -/
theorem drop_field_swap_removal_witness :
    ((([(1, Field.new 1 .Long), (2, Field.new 2 .Long), (3, Field.new 3 .Long),
        (4, Field.new 4 .Long)].map (fun p : Nat × Field => p.1)).Nodup) ∧
      (1 : Nat) < 4 ∧ (1 + 2 : Nat) < 4) ∧
    (∃ c' : JMapInfo,
      (JMapInfo.mk [(1, Field.new 1 .Long), (2, Field.new 2 .Long), (3, Field.new 3 .Long),
        (4, Field.new 4 .Long)] [] 0).drop_field [1] = .ok c' ∧
      c'.fields.length = 3 ∧
      c'.fields.map (·.1) ≠ ([(1, Field.new 1 .Long), (2, Field.new 2 .Long),
        (3, Field.new 3 .Long), (4, Field.new 4 .Long)].map (fun p : Nat × Field => p.1)).eraseIdx 0) := by
  refine ⟨⟨by decide, by decide, by decide⟩, ?_⟩
  obtain ⟨c', hok, hlen, -, -, hord, -, -⟩ :=
    (drop_field_swap_removal
      (JMapInfo.mk [(1, Field.new 1 .Long), (2, Field.new 2 .Long), (3, Field.new 3 .Long),
        (4, Field.new 4 .Long)] [] 0) [1] (by decide) (by intro e he; cases he)).2
      0 (by decide) (by decide)
  exact ⟨c', hok, hlen, hord (by decide)⟩

/-! ## Claim C4: encode layout equals recalculate_offsets -/

theorem lookupVal_mapUpdate (fs : List (Nat × Field)) (h0 cur k : Nat) :
    lookupVal (fs.map (fun p => if p.1 == h0 then (p.1, { p.2 with offset := cur }) else p)) k =
      if k = h0 then (lookupVal fs k).map (fun f => { f with offset := cur })
      else lookupVal fs k := by
  induction fs with
  | nil => by_cases h : k = h0 <;> simp [lookupVal, h]
  | cons a t ih =>
    simp only [List.map_cons]
    rw [lookupVal_cons, lookupVal_cons, ih]
    by_cases ha : a.1 = h0 <;> by_cases hak : a.1 = k
    · have hk : k = h0 := hak.symm.trans ha
      simp [ha, hak, hk]
    · have hk : ¬ k = h0 := fun hc => hak (ha.trans hc.symm)
      have hk2 : ¬ h0 = k := fun hc => hk hc.symm
      have hak2 : ¬ k = a.1 := fun hc => hak hc.symm
      simp [ha, hak, hk, hk2, hak2]
    · have hk : ¬ k = h0 := fun hc => ha (hak.trans hc)
      have hk2 : ¬ h0 = k := fun hc => hk hc.symm
      simp [ha, hak, hk, hk2]
    · have hak2 : ¬ k = a.1 := fun hc => hak hc.symm
      simp [ha, hak, hak2]

theorem recalcLoop_total (S : List (Nat × Field)) :
    ∀ (cur : Nat) (fs : List (Nat × Field)),
      (recalcLoop S cur fs).2 = (assignOffsets S cur).2 := by
  induction S with
  | nil => intro cur fs; rfl
  | cons a rest ih =>
    intro cur fs
    simp only [recalcLoop, assignOffsets]
    exact ih _ _

theorem assignOffsets_keys (S : List (Nat × Field)) (cur : Nat) :
    (assignOffsets S cur).1.map (·.1) = S.map (·.1) := by
  induction S generalizing cur with
  | nil => rfl
  | cons a rest ih =>
    simp only [assignOffsets, List.map_cons]
    rw [ih]

theorem recalcLoop_lookup (S : List (Nat × Field)) :
    ∀ (cur : Nat) (fs : List (Nat × Field)), (S.map (·.1)).Nodup →
      (∀ h, h ∉ S.map (·.1) → lookupVal (recalcLoop S cur fs).1 h = lookupVal fs h) ∧
      (∀ h f2, lookupVal (assignOffsets S cur).1 h = some f2 →
        lookupVal (recalcLoop S cur fs).1 h =
          (lookupVal fs h).map (fun f => { f with offset := f2.offset })) := by
  induction S with
  | nil =>
    intro cur fs _
    refine ⟨fun _ _ => rfl, fun h f2 hsome => ?_⟩
    simp [assignOffsets, lookupVal] at hsome
  | cons a rest ih =>
    intro cur fs hnd
    simp only [List.map_cons, List.nodup_cons] at hnd
    obtain ⟨ih1, ih2⟩ := ih ((cur + a.2.field_type.size) % 65536)
      (fs.map (fun p => if p.1 == a.1 then (p.1, { p.2 with offset := cur }) else p)) hnd.2
    constructor
    · intro h hmem
      simp only [List.map_cons, List.mem_cons] at hmem
      push_neg at hmem
      show lookupVal (recalcLoop rest _ _).1 h = _
      rw [ih1 h hmem.2, lookupVal_mapUpdate, if_neg hmem.1]
    · intro h f2 hsome
      simp only [assignOffsets] at hsome
      rw [lookupVal_cons] at hsome
      by_cases hcase : a.1 = h
      · rw [if_pos hcase] at hsome
        injection hsome with hf2
        show lookupVal (recalcLoop rest _ _).1 h = _
        rw [ih1 h (hcase ▸ hnd.1), lookupVal_mapUpdate, if_pos hcase.symm, ← hf2]
      · rw [if_neg hcase] at hsome
        show lookupVal (recalcLoop rest _ _).1 h = _
        rw [ih2 h f2 hsome, lookupVal_mapUpdate, if_neg (fun hc => hcase hc.symm)]

/-- C4: the layout the encoder computes independently (stable sort by the
layout-order rank of the type, running-sum offsets, row size rounded up to
a multiple of 4) agrees with `recalculate_offsets`: the row size the
encoder writes equals the recalculated `entry_size`, and for every hash
the offset the encoder assigns is the offset `recalculate_offsets` stores,
all other field components unchanged. -/
theorem encode_layout_eq_recalculate (jmap : JMapInfo)
    (hndf : (jmap.fields.map (·.1)).Nodup)
    (hhash : ∀ p ∈ jmap.fields, p.2.hash = p.1) :
    jmap.recalculate_offsets.entry_size =
      align4 (assignOffsets (List.insertionSort layoutLe
        (jmap.fields.map (fun p => (p.2.hash, p.2)))) 0).2 ∧
    (∀ h f2, lookupVal (assignOffsets (List.insertionSort layoutLe
          (jmap.fields.map (fun p => (p.2.hash, p.2)))) 0).1 h = some f2 →
      lookupVal jmap.recalculate_offsets.fields h =
        (lookupVal jmap.fields h).map (fun f => { f with offset := f2.offset })) := by
  have hmapid : jmap.fields.map (fun p => (p.2.hash, p.2)) = jmap.fields := by
    have h1 : jmap.fields.map (fun p => (p.2.hash, p.2)) = jmap.fields.map id :=
      List.map_congr_left (fun p hp => by rw [hhash p hp]; rfl)
    rw [h1, List.map_id]
  rw [hmapid]
  have hsortnd : ((List.insertionSort layoutLe jmap.fields).map (·.1)).Nodup :=
    ((List.perm_insertionSort layoutLe jmap.fields).map (·.1)).nodup_iff.mpr hndf
  obtain ⟨-, h2⟩ := recalcLoop_lookup (List.insertionSort layoutLe jmap.fields) 0
    jmap.fields hsortnd
  constructor
  · show (JMapInfo.recalculate_offsets jmap).entry_size = _
    unfold JMapInfo.recalculate_offsets
    simp only [recalcLoop_total]
  · intro h f2 hsome
    have := h2 h f2 hsome
    show lookupVal (JMapInfo.recalculate_offsets jmap).fields h = _
    unfold JMapInfo.recalculate_offsets
    simpa using this

/-- Witness for C4 on a concrete two-field container. -/
theorem encode_layout_eq_recalculate_witness :
    (([(10, Field.new 10 .Char), (11, Field.new 11 .Float)].map
        (fun p : Nat × Field => p.1)).Nodup ∧
      (∀ p ∈ [(10, Field.new 10 .Char), (11, Field.new 11 .Float)],
        (p.2 : Field).hash = p.1)) ∧
    ((JMapInfo.mk [(10, Field.new 10 .Char), (11, Field.new 11 .Float)] [] 0).recalculate_offsets.entry_size =
      align4 (assignOffsets (List.insertionSort layoutLe
        ([(10, Field.new 10 .Char), (11, Field.new 11 .Float)].map
          (fun p : Nat × Field => (p.2.hash, p.2)))) 0).2 ∧
    (∀ h f2, lookupVal (assignOffsets (List.insertionSort layoutLe
          ([(10, Field.new 10 .Char), (11, Field.new 11 .Float)].map
            (fun p : Nat × Field => (p.2.hash, p.2)))) 0).1 h = some f2 →
      lookupVal (JMapInfo.mk [(10, Field.new 10 .Char), (11, Field.new 11 .Float)] [] 0).recalculate_offsets.fields h =
        (lookupVal [(10, Field.new 10 .Char), (11, Field.new 11 .Float)] h).map
          (fun f => { f with offset := f2.offset }))) :=
  ⟨⟨by decide, by decide⟩,
    encode_layout_eq_recalculate
      (JMapInfo.mk [(10, Field.new 10 .Char), (11, Field.new 11 .Float)] [] 0)
      (by decide) (by decide)⟩

/-! ## Bit-arithmetic utilities -/

theorem mod_two_pow_and (a b n : Nat) : (a &&& b) % 2 ^ n = (a % 2 ^ n) &&& (b % 2 ^ n) := by
  apply Nat.eq_of_testBit_eq
  intro i
  simp only [Nat.testBit_mod_two_pow, Nat.testBit_and]
  by_cases h : i < n <;> simp [h]

theorem mod_two_pow_or (a b n : Nat) : (a ||| b) % 2 ^ n = (a % 2 ^ n) ||| (b % 2 ^ n) := by
  apply Nat.eq_of_testBit_eq
  intro i
  simp only [Nat.testBit_mod_two_pow, Nat.testBit_or]
  by_cases h : i < n <;> simp [h]

theorem and_mask32 (v : Nat) : v &&& 0xFFFFFFFF = v % 4294967296 := by
  have := Nat.and_pow_two_sub_one_eq_mod v 32
  norm_num at this
  exact this

theorem and_mask16 (v : Nat) : v &&& 0xFFFF = v % 65536 := by
  have := Nat.and_pow_two_sub_one_eq_mod v 16
  norm_num at this
  exact this

theorem and_mask8 (v : Nat) : v &&& 0xFF = v % 256 := by
  have := Nat.and_pow_two_sub_one_eq_mod v 8
  norm_num at this
  exact this

theorem u32_bytes_recompose (v : Nat) :
    ((v >>> 24) % 256) * 16777216 + ((v >>> 16) % 256) * 65536 +
      ((v >>> 8) % 256) * 256 + v % 256 = v % 4294967296 := by
  simp only [Nat.shiftRight_eq_div_pow]
  omega

theorem u16_bytes_recompose (v : Nat) :
    ((v >>> 8) % 256) * 256 + v % 256 = v % 65536 := by
  simp only [Nat.shiftRight_eq_div_pow]
  omega

/-! ## Pointwise buffer lemmas -/

theorem Buffer.data_writeBytes_out (buf : Buffer) (off : Nat) (ws : List Nat) (i : Nat)
    (h : i < off ∨ off + ws.length ≤ i) :
    (buf.writeBytes off ws).data i = buf.data i := by
  show (if off ≤ i ∧ i < off + ws.length then _ else _) = _
  rw [if_neg (by omega)]

theorem Buffer.data_writeBytes_in (buf : Buffer) (off : Nat) (ws : List Nat) (i : Nat)
    (h1 : off ≤ i) (h2 : i < off + ws.length) :
    (buf.writeBytes off ws).data i = ws.getD (i - off) 0 := by
  show (if off ≤ i ∧ i < off + ws.length then _ else _) = _
  rw [if_pos ⟨h1, h2⟩]

theorem length_bytes32 (be : Bool) (v : Nat) :
    (if be then beBytes32 v else leBytes32 v).length = 4 := by
  cases be <;> rfl

theorem length_bytes16 (be : Bool) (v : Nat) :
    (if be then beBytes16 v else leBytes16 v).length = 2 := by
  cases be <;> rfl

theorem data_writeU32_out (be : Bool) (buf : Buffer) (off v i : Nat)
    (h : i < off ∨ off + 4 ≤ i) : (writeU32 be buf off v).data i = buf.data i := by
  unfold writeU32
  rw [Buffer.data_writeBytes_out]
  rw [length_bytes32]
  exact h

theorem data_writeU16_out (be : Bool) (buf : Buffer) (off v i : Nat)
    (h : i < off ∨ off + 2 ≤ i) : (writeU16 be buf off v).data i = buf.data i := by
  unfold writeU16
  rw [Buffer.data_writeBytes_out]
  rw [length_bytes16]
  exact h

theorem data_writeU8_out (buf : Buffer) (off v i : Nat)
    (h : i < off ∨ off + 1 ≤ i) : (writeU8 buf off v).data i = buf.data i := by
  unfold writeU8
  rw [Buffer.data_writeBytes_out]
  simpa using h

theorem data_writeU8_self (buf : Buffer) (off v : Nat) : (writeU8 buf off v).data off = v := by
  unfold writeU8
  rw [Buffer.data_writeBytes_in _ _ _ _ (Nat.le_refl off) (by simp)]
  simp

theorem readU32_congr (be : Bool) (b1 b2 : Buffer) (off : Nat)
    (h : ∀ i, off ≤ i → i < off + 4 → b1.data i = b2.data i) :
    readU32 be b1 off = readU32 be b2 off := by
  unfold readU32
  rw [h off (by omega) (by omega), h (off + 1) (by omega) (by omega),
    h (off + 2) (by omega) (by omega), h (off + 3) (by omega) (by omega)]

theorem readU16_congr (be : Bool) (b1 b2 : Buffer) (off : Nat)
    (h : ∀ i, off ≤ i → i < off + 2 → b1.data i = b2.data i) :
    readU16 be b1 off = readU16 be b2 off := by
  unfold readU16
  rw [h off (by omega) (by omega), h (off + 1) (by omega) (by omega)]

theorem readU32_writeU32 (be : Bool) (buf : Buffer) (off v : Nat) :
    readU32 be (writeU32 be buf off v) off = v % 4294967296 := by
  cases be <;>
    · unfold readU32 writeU32
      rw [Buffer.data_writeBytes_in _ _ _ _ (by omega) (by simp [beBytes32, leBytes32]; try omega),
        Buffer.data_writeBytes_in _ _ _ _ (by omega) (by simp [beBytes32, leBytes32]; try omega),
        Buffer.data_writeBytes_in _ _ _ _ (by omega) (by simp [beBytes32, leBytes32]; try omega),
        Buffer.data_writeBytes_in _ _ _ _ (by omega) (by simp [beBytes32, leBytes32]; try omega)]
      simp [beBytes32, leBytes32, Nat.shiftRight_eq_div_pow]
      try omega

theorem readU16_writeU16 (be : Bool) (buf : Buffer) (off v : Nat) :
    readU16 be (writeU16 be buf off v) off = v % 65536 := by
  cases be <;>
    · unfold readU16 writeU16
      rw [Buffer.data_writeBytes_in _ _ _ _ (by omega) (by simp [beBytes16, leBytes16]; try omega),
        Buffer.data_writeBytes_in _ _ _ _ (by omega) (by simp [beBytes16, leBytes16]; try omega)]
      simp [beBytes16, leBytes16, Nat.shiftRight_eq_div_pow]
      try omega

theorem Buffer.data_append_lt (buf : Buffer) (ws : List Nat) (i : Nat) (h : i < buf.size) :
    (buf.append ws).data i = buf.data i := by
  show (if i < buf.size then _ else _) = _
  rw [if_pos h]

theorem Buffer.data_append_ge (buf : Buffer) (ws : List Nat) (i : Nat) (h : buf.size ≤ i) :
    (buf.append ws).data i = ws.getD (i - buf.size) 0 := by
  show (if i < buf.size then _ else _) = _
  rw [if_neg (by omega)]

theorem Buffer.data_resizeFill_lt (buf : Buffer) (n fill i : Nat) (h : i < buf.size) :
    (buf.resizeFill n fill).data i = buf.data i := by
  show (if i < buf.size then _ else _) = _
  rw [if_pos h]

/-! ## find? and lookup auxiliaries -/

theorem find?_append_of_some {α : Type} (l1 l2 : List α) (p : α → Bool) (x : α)
    (h : l1.find? p = some x) : (l1 ++ l2).find? p = some x := by
  induction l1 with
  | nil => simp [List.find?] at h
  | cons a t ih =>
    rw [List.cons_append]
    by_cases hp : p a
    · rw [List.find?_cons_of_pos _ hp] at h ⊢
      exact h
    · rw [List.find?_cons_of_neg _ (by simp [hp])] at h ⊢
      exact ih h

/-! ## Pool evolution

`poolStepValue` is the pool effect of writing one (hash, value) pair: a
known indirect-text field either reuses a recorded offset or appends the
text plus a null terminator and records it; everything else leaves the
pool alone.  The folds characterize the pool the encoder builds, in
row-major, entry-iteration order. -/

def poolStepValue (lookupF : Nat → Option Field) (acc : List Nat × List (List Nat × Nat))
    (p : Nat × FieldValue) : List Nat × List (List Nat × Nat) :=
  match lookupF p.1 with
  | none => acc
  | some f =>
    match f.field_type, p.2 with
    | .StringOffset, .String s =>
      match acc.2.find? (fun q => q.1 == s) with
      | some _ => acc
      | none => (acc.1 ++ s ++ [0], acc.2 ++ [(s, acc.1.length)])
    | _, _ => acc

def poolFoldPairs (lookupF : Nat → Option Field) (acc : List Nat × List (List Nat × Nat))
    (pairs : List (Nat × FieldValue)) : List Nat × List (List Nat × Nat) :=
  pairs.foldl (poolStepValue lookupF) acc

def poolFoldEntries (lookupF : Nat → Option Field) (acc : List Nat × List (List Nat × Nat))
    (es : List Entry) : List Nat × List (List Nat × Nat) :=
  es.foldl (fun a e => poolFoldPairs lookupF a e.data) acc

theorem poolStepValue_extends (lookupF : Nat → Option Field)
    (acc : List Nat × List (List Nat × Nat)) (p : Nat × FieldValue) :
    (∃ δ, (poolStepValue lookupF acc p).1 = acc.1 ++ δ) ∧
    (∃ σ, (poolStepValue lookupF acc p).2 = acc.2 ++ σ) := by
  constructor
  · unfold poolStepValue
    split
    · exact ⟨[], by simp⟩
    · split
      · split
        · exact ⟨[], by simp⟩
        · exact ⟨_, by rw [List.append_assoc]⟩
      · exact ⟨[], by simp⟩
  · unfold poolStepValue
    split
    · exact ⟨[], by simp⟩
    · split
      · split
        · exact ⟨[], by simp⟩
        · exact ⟨_, rfl⟩
      · exact ⟨[], by simp⟩

theorem poolFoldPairs_extends (lookupF : Nat → Option Field)
    (pairs : List (Nat × FieldValue)) :
    ∀ acc, (∃ δ, (poolFoldPairs lookupF acc pairs).1 = acc.1 ++ δ) ∧
      (∃ σ, (poolFoldPairs lookupF acc pairs).2 = acc.2 ++ σ) := by
  induction pairs with
  | nil => exact fun acc => ⟨⟨[], by simp [poolFoldPairs]⟩, ⟨[], by simp [poolFoldPairs]⟩⟩
  | cons p rest ih =>
    intro acc
    obtain ⟨⟨δ1, h1⟩, ⟨σ1, h2⟩⟩ := poolStepValue_extends lookupF acc p
    obtain ⟨⟨δ2, h3⟩, ⟨σ2, h4⟩⟩ := ih (poolStepValue lookupF acc p)
    refine ⟨⟨δ1 ++ δ2, ?_⟩, ⟨σ1 ++ σ2, ?_⟩⟩
    · show (poolFoldPairs lookupF (poolStepValue lookupF acc p) rest).1 = _
      rw [h3, h1, List.append_assoc]
    · show (poolFoldPairs lookupF (poolStepValue lookupF acc p) rest).2 = _
      rw [h4, h2, List.append_assoc]

theorem find?_append_of_none {α : Type} (l1 l2 : List α) (p : α → Bool)
    (h : l1.find? p = none) : (l1 ++ l2).find? p = l2.find? p := by
  simp [List.find?_append, h]

/-- Well-formedness of a pool accumulator: every recorded text sits in the
table at its recorded offset, null-terminated. -/
def poolWF (acc : List Nat × List (List Nat × Nat)) : Prop :=
  ∀ q ∈ acc.2, q.2 + q.1.length + 1 ≤ acc.1.length ∧
    (∀ j, j < q.1.length → acc.1.getD (q.2 + j) 0 = q.1.getD j 0) ∧
    acc.1.getD (q.2 + q.1.length) 0 = 0

theorem poolWF_nil : poolWF ([], []) := fun q hq => absurd hq (by simp)

theorem poolWF_append_record (T : List Nat) (σ : List (List Nat × Nat)) (s : List Nat)
    (h : poolWF (T, σ)) : poolWF (T ++ s ++ [0], σ ++ [(s, T.length)]) := by
  intro q hq
  rcases List.mem_append.mp hq with hold | hnew
  · obtain ⟨hb, hbytes, hterm⟩ := h q hold
    have hb2 : q.2 + q.1.length + 1 ≤ T.length := hb
    refine ⟨by simp; omega, ?_, ?_⟩
    · intro j hj
      rw [List.append_assoc, List.getD_append _ _ _ _ (by omega)]
      exact hbytes j hj
    · rw [List.append_assoc, List.getD_append _ _ _ _ (by omega)]
      exact hterm
  · have hq2 : q = (s, T.length) := by simpa using hnew
    subst hq2
    refine ⟨by simp; omega, ?_, ?_⟩
    · intro j hj
      rw [List.append_assoc, List.getD_append_right _ _ _ _ (by omega),
        List.getD_append _ _ _ _ (by simpa using hj)]
      congr 1
      omega
    · rw [List.append_assoc, List.getD_append_right _ _ _ _ (by omega),
        List.getD_append_right _ _ _ _ (by simp)]
      simp

theorem poolWF_poolStepValue (lookupF : Nat → Option Field)
    (acc : List Nat × List (List Nat × Nat)) (p : Nat × FieldValue)
    (h : poolWF acc) : poolWF (poolStepValue lookupF acc p) := by
  unfold poolStepValue
  split
  · exact h
  · split
    · split
      · exact h
      · exact poolWF_append_record acc.1 acc.2 _ h
    · exact h

theorem poolWF_poolFoldPairs (lookupF : Nat → Option Field)
    (pairs : List (Nat × FieldValue)) :
    ∀ acc, poolWF acc → poolWF (poolFoldPairs lookupF acc pairs) := by
  induction pairs with
  | nil => exact fun acc h => h
  | cons p rest ih =>
    intro acc h
    exact ih _ (poolWF_poolStepValue lookupF acc p h)

theorem poolWF_poolFoldEntries (lookupF : Nat → Option Field) (es : List Entry) :
    ∀ acc, poolWF acc → poolWF (poolFoldEntries lookupF acc es) := by
  induction es with
  | nil => exact fun acc h => h
  | cons e rest ih =>
    intro acc h
    exact ih _ (poolWF_poolFoldPairs lookupF e.data acc h)

theorem poolFoldEntries_extends (lookupF : Nat → Option Field) (es : List Entry) :
    ∀ acc, (∃ δ, (poolFoldEntries lookupF acc es).1 = acc.1 ++ δ) ∧
      (∃ σ, (poolFoldEntries lookupF acc es).2 = acc.2 ++ σ) := by
  induction es with
  | nil => exact fun acc => ⟨⟨[], by simp [poolFoldEntries]⟩, ⟨[], by simp [poolFoldEntries]⟩⟩
  | cons e rest ih =>
    intro acc
    obtain ⟨⟨d1, h1⟩, ⟨s1, h2⟩⟩ := poolFoldPairs_extends lookupF e.data acc
    obtain ⟨⟨d2, h3⟩, ⟨s2, h4⟩⟩ := ih (poolFoldPairs lookupF acc e.data)
    refine ⟨⟨d1 ++ d2, ?_⟩, ⟨s1 ++ s2, ?_⟩⟩
    · show (poolFoldEntries lookupF (poolFoldPairs lookupF acc e.data) rest).1 = _
      rw [h3, h1, List.append_assoc]
    · show (poolFoldEntries lookupF (poolFoldPairs lookupF acc e.data) rest).2 = _
      rw [h4, h2, List.append_assoc]

/-- Pool space one value can consume: its text plus the null terminator. -/
def valueTextLen : FieldValue → Nat
  | .String s => s.length + 1
  | _ => 0

/-- Upper bound on the pool bytes a row list can produce. -/
def poolBound (es : List Entry) : Nat :=
  (es.map (fun e => (e.data.map (fun p => valueTextLen p.2)).sum)).sum

theorem poolStepValue_table_le (L : Nat → Option Field) (acc : List Nat × List (List Nat × Nat))
    (p : Nat × FieldValue) :
    (poolStepValue L acc p).1.length ≤ acc.1.length + valueTextLen p.2 := by
  obtain ⟨ph, pv⟩ := p
  unfold poolStepValue
  rcases L ph with - | f
  · simp
  · rcases hft : f.field_type <;> rcases pv with n | b | s <;>
      simp only [hft, valueTextLen] <;> try omega
    rcases hfind : acc.2.find? (fun q => q.1 == s) with - | q <;>
      simp only [hfind] <;> simp <;> omega

theorem poolFoldPairs_table_le (L : Nat → Option Field) (pairs : List (Nat × FieldValue)) :
    ∀ acc, (poolFoldPairs L acc pairs).1.length ≤
      acc.1.length + (pairs.map (fun p => valueTextLen p.2)).sum := by
  induction pairs with
  | nil => intro acc; simp [poolFoldPairs]
  | cons p rest ih =>
    intro acc
    have h1 := poolStepValue_table_le L acc p
    have h2 := ih (poolStepValue L acc p)
    show (poolFoldPairs L (poolStepValue L acc p) rest).1.length ≤ _
    simp only [List.map_cons, List.sum_cons]
    omega

theorem poolFoldEntries_table_le (L : Nat → Option Field) (es : List Entry) :
    ∀ acc, (poolFoldEntries L acc es).1.length ≤ acc.1.length + poolBound es := by
  induction es with
  | nil => intro acc; simp [poolFoldEntries, poolBound]
  | cons e rest ih =>
    intro acc
    have h1 := poolFoldPairs_table_le L e.data acc
    have h2 := ih (poolFoldPairs L acc e.data)
    show (poolFoldEntries L (poolFoldPairs L acc e.data) rest).1.length ≤ _
    simp only [poolBound, List.map_cons, List.sum_cons] at h2 ⊢
    omega

/-! ## Slot contents

`slotHolds` states what a field slot of an encoded row holds for a
primitives-built field (default mask, zero shift): the value narrowed to
the declared width, the float bits, the inline text padded by the zero
initialization, or a pool offset recorded for the text in the dedup map. -/

def slotHolds (opts : IoOptions) (buf : Buffer) (off : Nat) (f : Field) (v : FieldValue)
    (σ : List (List Nat × Nat)) : Prop :=
  match f.field_type, v with
  | .Long, .Int n => readU32 opts.big_endian buf off = n % 4294967296
  | .UnsignedLong, .Int n => readU32 opts.big_endian buf off = n % 4294967296
  | .Float, .Float bits => readU32 opts.big_endian buf off = bits % 4294967296
  | .Short, .Int n => readU16 opts.big_endian buf off = n % 65536
  | .Char, .Int n => buf.data off = n % 256
  | .String, .String s =>
      ∀ j, j < 32 → buf.data (off + j) = if j < s.length then s.getD j 0 else 0
  | .StringOffset, .String s =>
      ∃ o, (σ.find? (fun q => q.1 == s)).map (·.2) = some o ∧
        readU32 opts.big_endian buf off = o % 4294967296
  | _, _ => False

theorem slotHolds_congr (opts : IoOptions) (b1 b2 : Buffer) (off : Nat) (f : Field)
    (v : FieldValue) (σ1 σ2 : List (List Nat × Nat))
    (hdata : ∀ i, off ≤ i → i < off + f.field_type.size → b2.data i = b1.data i)
    (hσ : ∃ δ, σ2 = σ1 ++ δ)
    (h : slotHolds opts b1 off f v σ1) : slotHolds opts b2 off f v σ2 := by
  obtain ⟨δ, rfl⟩ := hσ
  unfold slotHolds at h ⊢
  rcases hft : f.field_type <;> rcases hv : v with n | bits | str <;>
    rw [hft, hv] at h <;> simp only []
  case Long.Int =>
    rw [readU32_congr opts.big_endian b2 b1 off (fun i h1 h2 => hdata i h1 (by rw [hft]; simpa using h2))]
    exact h
  case String.String =>
    intro j hj
    rw [hdata (off + j) (by omega) (by rw [hft]; simp [FieldType.size]; omega)]
    exact h j hj
  case Float.Float =>
    rw [readU32_congr opts.big_endian b2 b1 off (fun i h1 h2 => hdata i h1 (by rw [hft]; simpa using h2))]
    exact h
  case UnsignedLong.Int =>
    rw [readU32_congr opts.big_endian b2 b1 off (fun i h1 h2 => hdata i h1 (by rw [hft]; simpa using h2))]
    exact h
  case Short.Int =>
    rw [readU16_congr opts.big_endian b2 b1 off (fun i h1 h2 => hdata i h1 (by rw [hft]; simpa using h2))]
    exact h
  case Char.Int =>
    rw [hdata off (Nat.le_refl off) (by rw [hft]; simp [FieldType.size])]
    exact h
  case StringOffset.String =>
    obtain ⟨o, hfind, hread⟩ := h
    refine ⟨o, ?_, ?_⟩
    · rcases hfo : σ1.find? (fun q => q.1 == str) with - | q
      · rw [hfo] at hfind
        exact absurd hfind (by simp)
      · rw [find?_append_of_some _ _ _ _ hfo]
        rw [hfo] at hfind
        exact hfind
    · rw [readU32_congr opts.big_endian b2 b1 off (fun i h1 h2 => hdata i h1 (by rw [hft]; simpa using h2))]
      exact hread
  all_goals exact h

/-! ## Write lemmas per field type -/

theorem write_fv_long (opts : IoOptions) (off v : Nat) (f : Field) (st : EncState)
    (hty : f.field_type = .Long ∨ f.field_type = .UnsignedLong)
    (hmask : f.mask = 0xFFFFFFFF) (hshift : f.shift = 0) :
    write_field_value off (.Int v) f st opts =
      .ok { st with buffer := writeU32 opts.big_endian st.buffer off (v % 4294967296) } := by
  have hval : (readU32 opts.big_endian st.buffer off &&& u32not f.mask) |||
      (u32cast (u32cast v <<< f.shift) &&& f.mask) = v % 4294967296 := by
    rw [hmask, hshift, Nat.shiftLeft_zero]
    show _ &&& (4294967295 ^^^ 4294967295) ||| (u32cast (u32cast v) &&& 4294967295) = _
    rw [Nat.xor_self, Nat.and_zero, Nat.zero_or, and_mask32]
    simp [u32cast, Nat.mod_mod_of_dvd]
  rcases hty with h | h <;>
    · simp only [write_field_value, h]
      rw [hval]

theorem write_fv_float (opts : IoOptions) (off bits : Nat) (f : Field) (st : EncState)
    (hty : f.field_type = .Float) :
    write_field_value off (.Float bits) f st opts =
      .ok { st with buffer := writeU32 opts.big_endian st.buffer off bits } := by
  simp only [write_field_value, hty]

theorem write_fv_short (opts : IoOptions) (off v : Nat) (f : Field) (st : EncState)
    (hty : f.field_type = .Short) (hmask : f.mask = 0xFFFF) (hshift : f.shift = 0) :
    write_field_value off (.Int v) f st opts =
      .ok { st with buffer := writeU16 opts.big_endian st.buffer off (v % 65536) } := by
  have hval : u16cast ((readU16 opts.big_endian st.buffer off &&& u32not f.mask) |||
      (u32cast (u32cast v <<< f.shift) &&& f.mask)) = v % 65536 := by
    rw [hmask, hshift, Nat.shiftLeft_zero]
    show ((_ &&& (4294967295 ^^^ 65535)) ||| (u32cast (u32cast v) &&& 65535)) % 65536 = _
    have h1 : (65536 : Nat) = 2 ^ 16 := by norm_num
    rw [show ((4294967295 : Nat) ^^^ 65535) = 4294901760 from rfl, h1, mod_two_pow_or,
      mod_two_pow_and]
    rw [show ((4294901760 : Nat) % 2 ^ 16) = 0 from by norm_num, Nat.and_zero, Nat.zero_or]
    rw [and_mask16]
    simp only [u32cast, ← h1]
    rw [Nat.mod_mod_of_dvd _ (by norm_num), Nat.mod_mod_of_dvd _ (by norm_num),
      Nat.mod_mod_of_dvd _ (by norm_num)]
  simp only [write_field_value, hty]
  rw [hval]

theorem write_fv_char (opts : IoOptions) (off v : Nat) (f : Field) (st : EncState)
    (hty : f.field_type = .Char) (hmask : f.mask = 0xFF) (hshift : f.shift = 0) :
    write_field_value off (.Int v) f st opts =
      .ok { st with buffer := writeU8 st.buffer off (v % 256) } := by
  have hval : u8cast ((st.buffer.data off &&& u32not f.mask) |||
      (u32cast (u32cast v <<< f.shift) &&& f.mask)) = v % 256 := by
    rw [hmask, hshift, Nat.shiftLeft_zero]
    show ((_ &&& (4294967295 ^^^ 255)) ||| (u32cast (u32cast v) &&& 255)) % 256 = _
    have h1 : (256 : Nat) = 2 ^ 8 := by norm_num
    rw [show ((4294967295 : Nat) ^^^ 255) = 4294967040 from rfl, h1, mod_two_pow_or,
      mod_two_pow_and]
    rw [show ((4294967040 : Nat) % 2 ^ 8) = 0 from by norm_num, Nat.and_zero, Nat.zero_or]
    rw [and_mask8]
    simp only [u32cast, ← h1]
    rw [Nat.mod_mod_of_dvd _ (by norm_num), Nat.mod_mod_of_dvd _ (by norm_num),
      Nat.mod_mod_of_dvd _ (by norm_num)]
  simp only [write_field_value, hty]
  rw [hval]

theorem write_fv_string (opts : IoOptions) (off : Nat) (s : List Nat) (f : Field)
    (st : EncState) (hty : f.field_type = .String) :
    write_field_value off (.String s) f st opts =
      .ok { st with buffer := st.buffer.writeBytes off (s.take (min s.length 32)) } := by
  simp only [write_field_value, hty, encode_string]

theorem write_fv_so_reuse (opts : IoOptions) (off : Nat) (s : List Nat) (f : Field)
    (st : EncState) (q : List Nat × Nat) (hty : f.field_type = .StringOffset)
    (hfind : st.string_offsets.find? (fun p => p.1 == s) = some q) :
    write_field_value off (.String s) f st opts =
      .ok { st with buffer := writeU32 opts.big_endian st.buffer off q.2 } := by
  simp only [write_field_value, hty, hfind]
  rfl

theorem write_fv_so_fresh (opts : IoOptions) (off : Nat) (s : List Nat) (f : Field)
    (st : EncState) (hty : f.field_type = .StringOffset)
    (hfind : st.string_offsets.find? (fun p => p.1 == s) = none) :
    write_field_value off (.String s) f st opts =
      .ok ⟨writeU32 opts.big_endian st.buffer off st.string_table.length,
           st.string_table ++ s ++ [0],
           st.string_offsets ++ [(s, st.string_table.length)]⟩ := by
  simp only [write_field_value, hty, hfind, encode_string]
  rfl

/-- Combined specification of one field-value write for a primitives-built
field: the write succeeds, only the slot bytes change, the pool evolves by
one dedup step, and afterwards the slot holds the narrowed value. -/
theorem write_field_value_spec (opts : IoOptions) (off : Nat) (v : FieldValue) (f : Field)
    (st : EncState)
    (hmask : f.mask = f.field_type.default_mask) (hshift : f.shift = 0)
    (hcompat : v.is_compatible_with f.field_type = true)
    (hstr32 : ∀ s, v = .String s → f.field_type = .String → s.length ≤ 32)
    (hz : ∀ j, j < f.field_type.size → st.buffer.data (off + j) = 0) :
    ∃ st', write_field_value off v f st opts = .ok st' ∧
      st'.buffer.size = st.buffer.size ∧
      (st'.string_table, st'.string_offsets) =
        poolStepValue (fun _ => some f) (st.string_table, st.string_offsets) (0, v) ∧
      (∀ i, i < off ∨ off + f.field_type.size ≤ i → st'.buffer.data i = st.buffer.data i) ∧
      slotHolds opts st'.buffer off f v st'.string_offsets := by
  rcases v with n | bits | str <;> rcases hft : f.field_type <;>
    rw [hft] at hmask hcompat hz <;>
    try (simp [FieldValue.is_compatible_with] at hcompat)
  case Int.Long =>
    refine ⟨_, write_fv_long opts off n f st (Or.inl hft) hmask hshift, by simp, ?_, ?_, ?_⟩
    · simp only [poolStepValue, hft]
    · intro i hi
      exact data_writeU32_out _ _ _ _ _ (by simpa [FieldType.size] using hi)
    · simp only [slotHolds, hft]
      rw [readU32_writeU32]
      omega
  case Int.UnsignedLong =>
    refine ⟨_, write_fv_long opts off n f st (Or.inr hft) hmask hshift, by simp, ?_, ?_, ?_⟩
    · simp only [poolStepValue, hft]
    · intro i hi
      exact data_writeU32_out _ _ _ _ _ (by simpa [FieldType.size] using hi)
    · simp only [slotHolds, hft]
      rw [readU32_writeU32]
      omega
  case Int.Short =>
    refine ⟨_, write_fv_short opts off n f st hft hmask hshift, by simp, ?_, ?_, ?_⟩
    · simp only [poolStepValue, hft]
    · intro i hi
      exact data_writeU16_out _ _ _ _ _ (by simpa [FieldType.size] using hi)
    · simp only [slotHolds, hft]
      rw [readU16_writeU16]
      omega
  case Int.Char =>
    refine ⟨_, write_fv_char opts off n f st hft hmask hshift, by simp, ?_, ?_, ?_⟩
    · simp only [poolStepValue, hft]
    · intro i hi
      exact data_writeU8_out _ _ _ _ (by simpa [FieldType.size] using hi)
    · simp only [slotHolds, hft]
      rw [data_writeU8_self]
  case Float.Float =>
    refine ⟨_, write_fv_float opts off bits f st hft, by simp, ?_, ?_, ?_⟩
    · simp only [poolStepValue, hft]
    · intro i hi
      exact data_writeU32_out _ _ _ _ _ (by simpa [FieldType.size] using hi)
    · simp only [slotHolds, hft]
      rw [readU32_writeU32]
  case String.String =>
    have hlen : str.length ≤ 32 := hstr32 str rfl hft
    have htake : str.take (min str.length 32) = str := by
      rw [Nat.min_eq_left hlen, List.take_length]
    refine ⟨_, write_fv_string opts off str f st hft, by simp, ?_, ?_, ?_⟩
    · simp only [poolStepValue, hft]
    · intro i hi
      apply Buffer.data_writeBytes_out
      rw [htake]
      simp only [FieldType.size] at hi
      omega
    · simp only [slotHolds, hft]
      intro j hj
      by_cases hjs : j < str.length
      · rw [if_pos hjs, htake, Buffer.data_writeBytes_in _ _ _ _ (by omega) (by omega)]
        rw [Nat.add_sub_cancel_left]
      · rw [if_neg hjs, htake, Buffer.data_writeBytes_out _ _ _ _ (by omega)]
        exact hz j (by simpa [FieldType.size] using hj)
  case String.StringOffset =>
    rcases hfind : st.string_offsets.find? (fun q => q.1 == str) with - | q
    · refine ⟨_, write_fv_so_fresh opts off str f st hft hfind, by simp, ?_, ?_, ?_⟩
      · simp only [poolStepValue, hft, hfind]
      · intro i hi
        exact data_writeU32_out _ _ _ _ _ (by simpa [FieldType.size] using hi)
      · simp only [slotHolds, hft]
        refine ⟨st.string_table.length, ?_, ?_⟩
        · rw [find?_append_of_none _ _ _ hfind, List.find?_cons_of_pos _ (by simp)]
          rfl
        · rw [readU32_writeU32]
    · refine ⟨_, write_fv_so_reuse opts off str f st q hft hfind, by simp, ?_, ?_, ?_⟩
      · simp only [poolStepValue, hft, hfind]
      · intro i hi
        exact data_writeU32_out _ _ _ _ _ (by simpa [FieldType.size] using hi)
      · simp only [slotHolds, hft]
        exact ⟨q.2, by rw [hfind]; rfl, by rw [readU32_writeU32]⟩

/-- Specification of writing one row: every known-field pair lands in its
slot, unknown hashes are skipped, the pool evolves by the dedup fold of
the pairs in iteration order, and bytes outside the written slots are
untouched. -/
theorem writeEntryPairs_spec (opts : IoOptions) (lookupF : Nat → Option Field)
    (hdisj : ∀ h1 f1 h2 f2, h1 ≠ h2 → lookupF h1 = some f1 → lookupF h2 = some f2 →
      f1.offset + f1.field_type.size ≤ f2.offset ∨ f2.offset + f2.field_type.size ≤ f1.offset)
    (hwf : ∀ h f, lookupF h = some f → f.mask = f.field_type.default_mask ∧ f.shift = 0) :
    ∀ (pairs : List (Nat × FieldValue)) (st : EncState) (R : Nat),
      (pairs.map (·.1)).Nodup →
      (∀ p ∈ pairs, ∀ f, lookupF p.1 = some f →
        p.2.is_compatible_with f.field_type = true ∧
        (∀ s, p.2 = .String s → f.field_type = .String → s.length ≤ 32)) →
      (∀ p ∈ pairs, ∀ f, lookupF p.1 = some f →
        ∀ j, j < f.field_type.size → st.buffer.data (R + f.offset + j) = 0) →
      ∃ st', writeEntryPairs R lookupF opts pairs st = .ok st' ∧
        st'.buffer.size = st.buffer.size ∧
        (st'.string_table, st'.string_offsets) =
          poolFoldPairs lookupF (st.string_table, st.string_offsets) pairs ∧
        (∀ i, (∀ p ∈ pairs, ∀ f, lookupF p.1 = some f →
            i < R + f.offset ∨ R + f.offset + f.field_type.size ≤ i) →
          st'.buffer.data i = st.buffer.data i) ∧
        (∀ p ∈ pairs, ∀ f, lookupF p.1 = some f →
          slotHolds opts st'.buffer (R + f.offset) f p.2 st'.string_offsets) := by
  intro pairs
  induction pairs with
  | nil =>
    intro st R _ _ _
    exact ⟨st, rfl, rfl, rfl, fun i _ => rfl, fun p hp => absurd hp (by simp)⟩
  | cons p0 rest ih =>
    obtain ⟨h0, v0⟩ := p0
    intro st R hnd hcompat hz
    have hnd2 : (h0, v0).1 ∉ rest.map (·.1) ∧ (rest.map (·.1)).Nodup :=
      List.nodup_cons.mp (by rw [List.map_cons] at hnd; exact hnd)
    have hndr : (rest.map (·.1)).Nodup := hnd2.2
    have hp0nr : ∀ q ∈ rest, q.1 ≠ h0 := by
      intro q hq hc
      exact hnd2.1 (List.mem_map.mpr ⟨q, hq, hc⟩)
    rcases hl : lookupF h0 with - | f0
    · obtain ⟨st', heq, hsize, hpool, hframe, hslots⟩ := ih st R hndr
        (fun q hq => hcompat q (List.mem_cons_of_mem _ hq))
        (fun q hq => hz q (List.mem_cons_of_mem _ hq))
      refine ⟨st', ?_, hsize, ?_, ?_, ?_⟩
      · simp only [writeEntryPairs, hl]
        exact heq
      · rw [hpool]
        show poolFoldPairs lookupF _ rest =
          poolFoldPairs lookupF (poolStepValue lookupF _ (h0, v0)) rest
        rw [show poolStepValue lookupF (st.string_table, st.string_offsets) (h0, v0) =
          (st.string_table, st.string_offsets) from by simp only [poolStepValue, hl]]
      · intro i hcond
        exact hframe i (fun q hq => hcond q (List.mem_cons_of_mem _ hq))
      · intro p hp f hf
        rcases List.mem_cons.mp hp with hph | hpr
        · rw [hph] at hf
          rw [hl] at hf
          exact absurd hf (by simp)
        · exact hslots p hpr f hf
    · obtain ⟨hmask, hshift⟩ := hwf h0 f0 hl
      obtain ⟨hc0, hs0⟩ := hcompat (h0, v0) (List.mem_cons_self _ _) f0 hl
      obtain ⟨st1, heq1, hsize1, hpool1, hframe1, hslot1⟩ :=
        write_field_value_spec opts (R + f0.offset) v0 f0 st hmask hshift hc0 hs0
          (fun j hj => hz (h0, v0) (List.mem_cons_self _ _) f0 hl j hj)
      have hzr : ∀ q ∈ rest, ∀ f, lookupF q.1 = some f → ∀ j, j < f.field_type.size →
          st1.buffer.data (R + f.offset + j) = 0 := by
        intro q hq f hf j hj
        have hd := hdisj q.1 f h0 f0 (hp0nr q hq) hf hl
        rw [hframe1 (R + f.offset + j) (by omega)]
        exact hz q (List.mem_cons_of_mem _ hq) f hf j hj
      obtain ⟨st', heq', hsize', hpool', hframe', hslots'⟩ := ih st1 R hndr
        (fun q hq => hcompat q (List.mem_cons_of_mem _ hq)) hzr
      have hstep : poolStepValue lookupF (st.string_table, st.string_offsets) (h0, v0) =
          (st1.string_table, st1.string_offsets) := by
        rw [hpool1]
        simp only [poolStepValue, hl]
      refine ⟨st', ?_, by rw [hsize', hsize1], ?_, ?_, ?_⟩
      · simp only [writeEntryPairs, hl, heq1]
        exact heq'
      · rw [hpool']
        show poolFoldPairs lookupF _ rest =
          poolFoldPairs lookupF (poolStepValue lookupF _ (h0, v0)) rest
        rw [hstep]
      · intro i hcond
        rw [hframe' i (fun q hq => hcond q (List.mem_cons_of_mem _ hq)),
          hframe1 i (by
            have := hcond (h0, v0) (List.mem_cons_self _ _) f0 hl
            omega)]
      · intro p hp f hf
        rcases List.mem_cons.mp hp with hph | hpr
        · have hp1 : p.1 = h0 := by rw [hph]
          have hp2 : p.2 = v0 := by rw [hph]
          rw [hp1] at hf
          rw [hl] at hf
          have hff : f0 = f := Option.some.inj hf
          subst hff
          rw [hp2]
          have hσext : ∃ δ, st'.string_offsets = st1.string_offsets ++ δ := by
            obtain ⟨-, ⟨σδ, hσδ⟩⟩ := poolFoldPairs_extends lookupF rest
              (st1.string_table, st1.string_offsets)
            refine ⟨σδ, ?_⟩
            have := congrArg Prod.snd hpool'
            simp only at this
            rw [this]
            exact hσδ
          refine slotHolds_congr opts st1.buffer st'.buffer (R + f0.offset) f0 v0
            st1.string_offsets st'.string_offsets ?_ hσext hslot1
          intro i h1 h2
          apply hframe'
          intro q hq f2 hf2
          have hd := hdisj q.1 f2 h0 f0 (hp0nr q hq) hf2 hl
          omega
        · exact hslots' p hpr f hf

/-- Specification of the whole row-writing loop: rows land in disjoint
regions in row-major order, the pool is the row-major entry-order dedup
fold, and bytes below the row region are untouched. -/
theorem writeEntriesLoop_spec (opts : IoOptions) (lookupF : Nat → Option Field)
    (entry_size : Nat)
    (hdisj : ∀ h1 f1 h2 f2, h1 ≠ h2 → lookupF h1 = some f1 → lookupF h2 = some f2 →
      f1.offset + f1.field_type.size ≤ f2.offset ∨ f2.offset + f2.field_type.size ≤ f1.offset)
    (hwf : ∀ h f, lookupF h = some f → f.mask = f.field_type.default_mask ∧ f.shift = 0)
    (hrange : ∀ h f, lookupF h = some f → f.offset + f.field_type.size ≤ entry_size) :
    ∀ (es : List Entry) (st : EncState) (R0 : Nat),
      (∀ e ∈ es, (e.data.map (·.1)).Nodup ∧
        (∀ p ∈ e.data, ∀ f, lookupF p.1 = some f →
          p.2.is_compatible_with f.field_type = true ∧
          (∀ s, p.2 = .String s → f.field_type = .String → s.length ≤ 32))) →
      (∀ i, R0 ≤ i → st.buffer.data i = 0) →
      ∃ st', writeEntriesLoop lookupF opts entry_size es R0 st = .ok st' ∧
        st'.buffer.size = st.buffer.size ∧
        (st'.string_table, st'.string_offsets) =
          poolFoldEntries lookupF (st.string_table, st.string_offsets) es ∧
        (∀ i, i < R0 → st'.buffer.data i = st.buffer.data i) ∧
        (∀ k e, es[k]? = some e → ∀ p ∈ e.data, ∀ f, lookupF p.1 = some f →
          slotHolds opts st'.buffer (R0 + k * entry_size + f.offset) f p.2
            st'.string_offsets) := by
  intro es
  induction es with
  | nil =>
    intro st R0 _ _
    refine ⟨st, rfl, rfl, rfl, fun i _ => rfl, fun k e hk => ?_⟩
    rw [List.getElem?_nil] at hk
    exact absurd hk (by simp)
  | cons e rest ih =>
    intro st R0 hent hzero
    obtain ⟨hnd0, hcomp0⟩ := hent e (List.mem_cons_self _ _)
    obtain ⟨st1, heq1, hsize1, hpool1, hframe1, hslot1⟩ :=
      writeEntryPairs_spec opts lookupF hdisj hwf e.data st R0 hnd0 hcomp0
        (fun p hp f hf j hj => hzero (R0 + f.offset + j) (by omega))
    have hframe1r : ∀ i, i < R0 ∨ R0 + entry_size ≤ i →
        st1.buffer.data i = st.buffer.data i := by
      intro i hi
      apply hframe1
      intro q hq f hf
      have := hrange q.1 f hf
      omega
    obtain ⟨st', heq', hsize', hpool', hframe', hslots'⟩ := ih st1 (R0 + entry_size)
      (fun e2 he2 => hent e2 (List.mem_cons_of_mem _ he2))
      (fun i hi => by rw [hframe1r i (Or.inr hi)]; exact hzero i (by omega))
    have hσext : ∃ δ, st'.string_offsets = st1.string_offsets ++ δ := by
      obtain ⟨-, ⟨σδ, hσδ⟩⟩ := poolFoldEntries_extends lookupF rest
        (st1.string_table, st1.string_offsets)
      refine ⟨σδ, ?_⟩
      have h2 := congrArg Prod.snd hpool'
      simp only at h2
      rw [h2]
      exact hσδ
    refine ⟨st', ?_, by rw [hsize', hsize1], ?_, ?_, ?_⟩
    · simp only [writeEntriesLoop, write_entry, heq1]
      exact heq'
    · rw [hpool']
      show poolFoldEntries lookupF _ rest =
        poolFoldEntries lookupF (poolFoldPairs lookupF _ e.data) rest
      rw [← hpool1]
    · intro i hi
      rw [hframe' i (by omega), hframe1r i (Or.inl hi)]
    · intro k e2 hk p hp f hf
      cases k with
      | zero =>
        rw [List.getElem?_cons_zero] at hk
        have he2 : e2 = e := by injection hk with h; rw [← h]
        subst he2
        have hpos : R0 + 0 * entry_size + f.offset = R0 + f.offset := by ring
        rw [hpos]
        refine slotHolds_congr opts st1.buffer st'.buffer (R0 + f.offset) f p.2
          st1.string_offsets st'.string_offsets ?_ hσext (hslot1 p hp f hf)
        intro i h1 h2
        apply hframe'
        have := hrange p.1 f hf
        omega
      | succ k =>
        rw [List.getElem?_cons_succ] at hk
        have hpos : R0 + (k + 1) * entry_size + f.offset =
            R0 + entry_size + k * entry_size + f.offset := by ring
        rw [hpos]
        exact hslots' k e2 hk p hp f hf

/-! ## Layout lemmas: offsets are prefix sums of sizes -/

/-- Total of the field sizes of a directory slice. -/
def sumSizes (l : List (Nat × Field)) : Nat :=
  (l.map (fun p => p.2.field_type.size)).sum

theorem sumSizes_cons (a : Nat × Field) (t : List (Nat × Field)) :
    sumSizes (a :: t) = a.2.field_type.size + sumSizes t := by
  simp [sumSizes]

theorem assignOffsets_total (S : List (Nat × Field)) :
    ∀ cur, cur + sumSizes S ≤ 65535 → (assignOffsets S cur).2 = cur + sumSizes S := by
  induction S with
  | nil => intro cur _; simp [assignOffsets, sumSizes]
  | cons a t ih =>
    intro cur hb
    rw [sumSizes_cons] at hb
    show (assignOffsets t ((cur + a.2.field_type.size) % 65536)).2 = _
    rw [Nat.mod_eq_of_lt (by omega), ih _ (by omega), sumSizes_cons]
    ring

theorem assignOffsets_getElem (S : List (Nat × Field)) :
    ∀ cur, cur + sumSizes S ≤ 65535 → ∀ j, (hj : j < S.length) →
      (assignOffsets S cur).1[j]? =
        some ((S.get ⟨j, hj⟩).1,
          { (S.get ⟨j, hj⟩).2 with offset := cur + sumSizes (S.take j) }) := by
  induction S with
  | nil => intro cur _ j hj; exact absurd hj (by simp)
  | cons a t ih =>
    intro cur hb j hj
    rw [sumSizes_cons] at hb
    show ((a.1, { a.2 with offset := cur }) ::
      (assignOffsets t ((cur + ({ a.2 with offset := cur } : Field).field_type.size) % 65536)).1)[j]? = _
    rw [show ({ a.2 with offset := cur } : Field).field_type.size = a.2.field_type.size from rfl]
    cases j with
    | zero =>
      rw [List.getElem?_cons_zero]
      simp [sumSizes]
    | succ j =>
      have hj2 : j < t.length := by simpa using hj
      rw [List.getElem?_cons_succ, Nat.mod_eq_of_lt (by omega),
        ih (cur + a.2.field_type.size) (by omega) j hj2]
      have harith : cur + a.2.field_type.size + sumSizes (t.take j) =
          cur + sumSizes ((a :: t).take (j + 1)) := by
        rw [List.take_succ_cons, sumSizes_cons]
        ring
      rw [show ((a :: t).get ⟨j + 1, hj⟩) = t.get ⟨j, hj2⟩ from rfl, ← harith]

theorem sumSizes_take_succ (S : List (Nat × Field)) (j : Nat) (hj : j < S.length) :
    sumSizes (S.take (j + 1)) = sumSizes (S.take j) + (S.get ⟨j, hj⟩).2.field_type.size := by
  rw [List.take_succ]
  rw [show S[j]? = some (S.get ⟨j, hj⟩) from by rw [List.getElem?_eq_getElem hj]; rfl]
  unfold sumSizes
  rw [List.map_append, List.sum_append]
  simp

theorem sumSizes_take_le (l : List (Nat × Field)) (j : Nat) :
    sumSizes (l.take j) ≤ sumSizes l := by
  induction l generalizing j with
  | nil => simp [sumSizes]
  | cons a t ih =>
    cases j with
    | zero => simp [sumSizes]
    | succ j =>
      rw [List.take_succ_cons, sumSizes_cons, sumSizes_cons]
      exact Nat.add_le_add_left (ih j) _

theorem sumSizes_take_mono (S : List (Nat × Field)) (j k : Nat) (h : j ≤ k) :
    sumSizes (S.take j) ≤ sumSizes (S.take k) := by
  calc sumSizes (S.take j) = sumSizes ((S.take k).take j) := by
        rw [List.take_take, Nat.min_eq_left h]
    _ ≤ sumSizes (S.take k) := sumSizes_take_le _ j

/-! ## Association lists by position -/

theorem lookupVal_getElem {α : Type} (l : List (Nat × α)) (hnd : (l.map (·.1)).Nodup) :
    ∀ j, (hj : j < l.length) → lookupVal l (l.get ⟨j, hj⟩).1 = some (l.get ⟨j, hj⟩).2 := by
  induction l with
  | nil => intro j hj; exact absurd hj (by simp)
  | cons a t ih =>
    intro j hj
    rw [List.map_cons, List.nodup_cons] at hnd
    cases j with
    | zero =>
      rw [show ((a :: t).get ⟨0, hj⟩) = a from rfl, lookupVal_cons, if_pos rfl]
    | succ j =>
      have hj2 : j < t.length := by simpa using hj
      rw [show ((a :: t).get ⟨j + 1, hj⟩) = t.get ⟨j, hj2⟩ from rfl, lookupVal_cons,
        if_neg ?_, ih hnd.2 j hj2]
      intro hc
      exact hnd.1 (List.mem_map.mpr ⟨t.get ⟨j, hj2⟩, List.get_mem t _ _, hc.symm⟩)

theorem lookupVal_eq_some_elim {α : Type} (l : List (Nat × α)) (h : Nat) (f : α)
    (hl : lookupVal l h = some f) : ∃ j, ∃ (hj : j < l.length),
      (l.get ⟨j, hj⟩).1 = h ∧ (l.get ⟨j, hj⟩).2 = f := by
  induction l with
  | nil => exact absurd hl (by simp [lookupVal])
  | cons a t ih =>
    rw [lookupVal_cons] at hl
    by_cases ha : a.1 = h
    · rw [if_pos ha] at hl
      exact ⟨0, by simp, ha, by injection hl⟩
    · rw [if_neg ha] at hl
      obtain ⟨j, hj, h1, h2⟩ := ih hl
      exact ⟨j + 1, by simpa using Nat.succ_lt_succ hj, h1, h2⟩

theorem mem_of_lookupVal {α : Type} (l : List (Nat × α)) (h : Nat) (f : α)
    (hl : lookupVal l h = some f) : (h, f) ∈ l := by
  unfold lookupVal at hl
  rcases hfo : l.find? (fun p => p.1 == h) with - | q
  · rw [hfo] at hl
    exact absurd hl (by simp)
  · rw [hfo] at hl
    have hq1 : q.1 = h := by simpa using List.find?_some hfo
    have hq2 : q.2 = f := by simpa using hl
    have : q = (h, f) := Prod.ext hq1 hq2
    exact this ▸ List.mem_of_find?_eq_some hfo

theorem lookupVal_of_mem {α : Type} (l : List (Nat × α)) (p : Nat × α)
    (hnd : (l.map (·.1)).Nodup) (hp : p ∈ l) : lookupVal l p.1 = some p.2 := by
  induction l with
  | nil => exact absurd hp (by simp)
  | cons a t ih =>
    rw [List.map_cons, List.nodup_cons] at hnd
    rcases List.mem_cons.mp hp with hph | hpt
    · subst hph
      rw [lookupVal_cons, if_pos rfl]
    · rw [lookupVal_cons, if_neg ?_, ih hnd.2 hpt]
      intro hc
      exact hnd.1 (List.mem_map.mpr ⟨p, hpt, hc.symm⟩)

theorem sumSizes_perm (l1 l2 : List (Nat × Field)) (h : l1.Perm l2) :
    sumSizes l1 = sumSizes l2 := by
  unfold sumSizes
  exact List.Perm.sum_eq (h.map _)

theorem assignOffsets_length (S : List (Nat × Field)) (cur : Nat) :
    (assignOffsets S cur).1.length = S.length := by
  have := congrArg List.length (assignOffsets_keys S cur)
  simpa using this

/-- Eliminate a successful lookup in the offset-assigned sorted directory:
the binding comes from position `j` of the sorted list, with the prefix-sum
offset installed. -/
theorem FWO_elim (S : List (Nat × Field)) (hnd : (S.map (·.1)).Nodup)
    (hb : sumSizes S ≤ 65535) (h : Nat) (f : Field)
    (hl : lookupVal (assignOffsets S 0).1 h = some f) :
    ∃ j, ∃ (hj : j < S.length), (S.get ⟨j, hj⟩).1 = h ∧
      f = { (S.get ⟨j, hj⟩).2 with offset := sumSizes (S.take j) } := by
  obtain ⟨j, hj, hkey, hval⟩ := lookupVal_eq_some_elim _ _ _ hl
  have hjS : j < S.length := by rw [← assignOffsets_length S 0]; exact hj
  have hsome := assignOffsets_getElem S 0 (by omega) j hjS
  have hget : (assignOffsets S 0).1.get ⟨j, hj⟩ =
      ((S.get ⟨j, hjS⟩).1, { (S.get ⟨j, hjS⟩).2 with offset := 0 + sumSizes (S.take j) }) := by
    have h1 : (assignOffsets S 0).1[j]? = some ((assignOffsets S 0).1.get ⟨j, hj⟩) := by
      rw [List.getElem?_eq_getElem hj]
      rfl
    rw [h1] at hsome
    exact Option.some.inj hsome
  refine ⟨j, hjS, ?_, ?_⟩
  · rw [← hkey, hget]
  · rw [← hval, hget]
    simp

/-- Introduce a lookup in the offset-assigned sorted directory from a
position of the sorted list. -/
theorem FWO_intro (S : List (Nat × Field)) (hnd : (S.map (·.1)).Nodup)
    (hb : sumSizes S ≤ 65535) (j : Nat) (hj : j < S.length) :
    lookupVal (assignOffsets S 0).1 (S.get ⟨j, hj⟩).1 =
      some { (S.get ⟨j, hj⟩).2 with offset := sumSizes (S.take j) } := by
  have hjA : j < (assignOffsets S 0).1.length := by rw [assignOffsets_length]; exact hj
  have hndA : ((assignOffsets S 0).1.map (·.1)).Nodup := by
    rw [assignOffsets_keys]; exact hnd
  have hsome := assignOffsets_getElem S 0 (by omega) j hj
  have hget : (assignOffsets S 0).1.get ⟨j, hjA⟩ =
      ((S.get ⟨j, hj⟩).1, { (S.get ⟨j, hj⟩).2 with offset := 0 + sumSizes (S.take j) }) := by
    have h1 : (assignOffsets S 0).1[j]? = some ((assignOffsets S 0).1.get ⟨j, hjA⟩) := by
      rw [List.getElem?_eq_getElem hjA]
      rfl
    rw [h1] at hsome
    exact Option.some.inj hsome
  have := lookupVal_getElem (assignOffsets S 0).1 hndA j hjA
  rw [hget] at this
  simpa using this

theorem FWO_wf (S : List (Nat × Field)) (hnd : (S.map (·.1)).Nodup)
    (hb : sumSizes S ≤ 65535)
    (hm : ∀ p ∈ S, p.2.mask = p.2.field_type.default_mask)
    (hs : ∀ p ∈ S, p.2.shift = 0) :
    ∀ h f, lookupVal (assignOffsets S 0).1 h = some f →
      f.mask = f.field_type.default_mask ∧ f.shift = 0 := by
  intro h f hl
  obtain ⟨j, hj, hkey, hval⟩ := FWO_elim S hnd hb h f hl
  have hmem : S.get ⟨j, hj⟩ ∈ S := List.get_mem S j hj
  subst hval
  exact ⟨hm _ hmem, hs _ hmem⟩

theorem FWO_range (S : List (Nat × Field)) (hnd : (S.map (·.1)).Nodup)
    (hb : sumSizes S ≤ 65535) :
    ∀ h f, lookupVal (assignOffsets S 0).1 h = some f →
      f.offset + f.field_type.size ≤ align4 (assignOffsets S 0).2 := by
  intro h f hl
  obtain ⟨j, hj, hkey, hval⟩ := FWO_elim S hnd hb h f hl
  subst hval
  have h1 : sumSizes (S.take j) + (S.get ⟨j, hj⟩).2.field_type.size =
      sumSizes (S.take (j + 1)) := (sumSizes_take_succ S j hj).symm
  have h2 : sumSizes (S.take (j + 1)) ≤ sumSizes S := sumSizes_take_le S (j + 1)
  have h3 : (assignOffsets S 0).2 = sumSizes S := by
    rw [assignOffsets_total S 0 (by omega)]
    omega
  show sumSizes (S.take j) + ({ (S.get ⟨j, hj⟩).2 with
    offset := sumSizes (S.take j) } : Field).field_type.size ≤ _
  rw [show ({ (S.get ⟨j, hj⟩).2 with offset := sumSizes (S.take j) } : Field).field_type.size =
    (S.get ⟨j, hj⟩).2.field_type.size from rfl, h1, h3]
  unfold align4
  omega

theorem FWO_disj (S : List (Nat × Field)) (hnd : (S.map (·.1)).Nodup)
    (hb : sumSizes S ≤ 65535) :
    ∀ h1 f1 h2 f2, h1 ≠ h2 →
      lookupVal (assignOffsets S 0).1 h1 = some f1 →
      lookupVal (assignOffsets S 0).1 h2 = some f2 →
      f1.offset + f1.field_type.size ≤ f2.offset ∨
        f2.offset + f2.field_type.size ≤ f1.offset := by
  have key : ∀ j1 j2 (hj1 : j1 < S.length) (hj2 : j2 < S.length), j1 < j2 →
      sumSizes (S.take j1) + (S.get ⟨j1, hj1⟩).2.field_type.size ≤ sumSizes (S.take j2) := by
    intro j1 j2 hj1 hj2 hlt
    rw [← sumSizes_take_succ S j1 hj1]
    exact sumSizes_take_mono S (j1 + 1) j2 hlt
  intro h1 f1 h2 f2 hne hl1 hl2
  obtain ⟨j1, hj1, hkey1, hval1⟩ := FWO_elim S hnd hb h1 f1 hl1
  obtain ⟨j2, hj2, hkey2, hval2⟩ := FWO_elim S hnd hb h2 f2 hl2
  have hjne : j1 ≠ j2 := by
    intro hc
    apply hne
    rw [← hkey1, ← hkey2]
    subst hc
    rfl
  subst hval1
  subst hval2
  rcases Nat.lt_or_ge j1 j2 with hlt | hge
  · left
    exact key j1 j2 hj1 hj2 hlt
  · right
    exact key j2 j1 hj2 hj1 (by omega)

/-! ## Field-directory and header buffer lemmas -/

theorem size_write_field (buf : Buffer) (off h : Nat) (f : Field) (be : Bool) :
    (write_field buf off h f be).size = buf.size := by
  simp [write_field]

theorem size_writeFieldsLoop (be : Bool) :
    ∀ (fl : List (Nat × Field)) (off : Nat) (buf : Buffer),
      (writeFieldsLoop be fl off buf).size = buf.size := by
  intro fl
  induction fl with
  | nil => intro off buf; rfl
  | cons a t ih =>
    intro off buf
    obtain ⟨h, f⟩ := a
    show (writeFieldsLoop be t (off + 12) (write_field buf off h f be)).size = _
    rw [ih, size_write_field]

theorem data_write_field_out (buf : Buffer) (off h : Nat) (f : Field) (be : Bool) (i : Nat)
    (hi : i < off ∨ off + 12 ≤ i) : (write_field buf off h f be).data i = buf.data i := by
  unfold write_field
  rw [data_writeU8_out _ _ _ _ (by omega), data_writeU8_out _ _ _ _ (by omega),
    data_writeU16_out _ _ _ _ _ (by omega), data_writeU32_out _ _ _ _ _ (by omega),
    data_writeU32_out _ _ _ _ _ (by omega)]

theorem data_writeFieldsLoop_out (be : Bool) :
    ∀ (fl : List (Nat × Field)) (off : Nat) (buf : Buffer) (i : Nat),
      (i < off ∨ off + 12 * fl.length ≤ i) →
      (writeFieldsLoop be fl off buf).data i = buf.data i := by
  intro fl
  induction fl with
  | nil => intro off buf i _; rfl
  | cons a t ih =>
    intro off buf i hi
    obtain ⟨h, f⟩ := a
    show (writeFieldsLoop be t (off + 12) (write_field buf off h f be)).data i = _
    rw [ih (off + 12) _ i (by simp at hi ⊢; omega),
      data_write_field_out _ _ _ _ _ _ (by simp at hi; omega)]

theorem write_field_readback (buf : Buffer) (off h : Nat) (f : Field) (be : Bool)
    (hh : h < 4294967296) (hm : f.mask < 4294967296) (ho : f.offset < 65536) :
    readU32 be (write_field buf off h f be) off = h ∧
    readU32 be (write_field buf off h f be) (off + 4) = f.mask ∧
    readU16 be (write_field buf off h f be) (off + 8) = f.offset ∧
    (write_field buf off h f be).data (off + 0xA) = f.shift ∧
    (write_field buf off h f be).data (off + 0xB) = f.field_type.raw := by
  unfold write_field
  refine ⟨?_, ?_, ?_, ?_, ?_⟩
  · rw [readU32_congr be _ (writeU32 be buf off h) off ?_, readU32_writeU32,
      Nat.mod_eq_of_lt hh]
    intro i h1 h2
    rw [data_writeU8_out _ _ _ _ (by omega), data_writeU8_out _ _ _ _ (by omega),
      data_writeU16_out _ _ _ _ _ (by omega), data_writeU32_out _ _ _ _ _ (by omega)]
  · rw [readU32_congr be _ (writeU32 be (writeU32 be buf off h) (off + 4) f.mask) (off + 4) ?_,
      readU32_writeU32, Nat.mod_eq_of_lt hm]
    intro i h1 h2
    rw [data_writeU8_out _ _ _ _ (by omega), data_writeU8_out _ _ _ _ (by omega),
      data_writeU16_out _ _ _ _ _ (by omega)]
  · rw [readU16_congr be _ (writeU16 be (writeU32 be (writeU32 be buf off h) (off + 4) f.mask)
      (off + 8) f.offset) (off + 8) ?_, readU16_writeU16, Nat.mod_eq_of_lt ho]
    intro i h1 h2
    rw [data_writeU8_out _ _ _ _ (by omega), data_writeU8_out _ _ _ _ (by omega)]
  · rw [data_writeU8_out _ _ _ _ (by omega), data_writeU8_self]
  · rw [data_writeU8_self]

theorem writeFieldsLoop_record (be : Bool) :
    ∀ (fl : List (Nat × Field)) (off : Nat) (buf : Buffer) (j : Nat) (hj : j < fl.length),
      (∀ p ∈ fl, p.1 < 4294967296 ∧ p.2.mask < 4294967296 ∧ p.2.offset < 65536) →
      readU32 be (writeFieldsLoop be fl off buf) (off + 12 * j) = (fl.get ⟨j, hj⟩).1 ∧
      readU32 be (writeFieldsLoop be fl off buf) (off + 12 * j + 4) = (fl.get ⟨j, hj⟩).2.mask ∧
      readU16 be (writeFieldsLoop be fl off buf) (off + 12 * j + 8) = (fl.get ⟨j, hj⟩).2.offset ∧
      (writeFieldsLoop be fl off buf).data (off + 12 * j + 0xA) = (fl.get ⟨j, hj⟩).2.shift ∧
      (writeFieldsLoop be fl off buf).data (off + 12 * j + 0xB) =
        (fl.get ⟨j, hj⟩).2.field_type.raw := by
  intro fl
  induction fl with
  | nil => intro off buf j hj; exact absurd hj (by simp)
  | cons a t ih =>
    intro off buf j hj hbounds
    obtain ⟨h, f⟩ := a
    obtain ⟨hh, hm, ho⟩ := hbounds (h, f) (List.mem_cons_self _ _)
    show readU32 be (writeFieldsLoop be t (off + 12) (write_field buf off h f be)) _ = _ ∧ _
    cases j with
    | zero =>
      obtain ⟨r1, r2, r3, r4, r5⟩ := write_field_readback buf off h f be hh hm ho
      have hout : ∀ i, off ≤ i → i < off + 12 →
          (writeFieldsLoop be t (off + 12) (write_field buf off h f be)).data i =
            (write_field buf off h f be).data i := by
        intro i h1 h2
        exact data_writeFieldsLoop_out be t (off + 12) _ i (by omega)
      refine ⟨?_, ?_, ?_, ?_, ?_⟩
      · show readU32 be (writeFieldsLoop be t (off + 12) (write_field buf off h f be))
          (off + 12 * 0) = h
        rw [show off + 12 * 0 = off from by ring,
          readU32_congr be _ (write_field buf off h f be) off (fun i h1 h2 => hout i h1 (by omega))]
        exact r1
      · show readU32 be (writeFieldsLoop be t (off + 12) (write_field buf off h f be))
          (off + 12 * 0 + 4) = f.mask
        rw [show off + 12 * 0 + 4 = off + 4 from by ring,
          readU32_congr be _ (write_field buf off h f be) (off + 4)
            (fun i h1 h2 => hout i (by omega) (by omega))]
        exact r2
      · show readU16 be (writeFieldsLoop be t (off + 12) (write_field buf off h f be))
          (off + 12 * 0 + 8) = f.offset
        rw [show off + 12 * 0 + 8 = off + 8 from by ring,
          readU16_congr be _ (write_field buf off h f be) (off + 8)
            (fun i h1 h2 => hout i (by omega) (by omega))]
        exact r3
      · show (writeFieldsLoop be t (off + 12) (write_field buf off h f be)).data
          (off + 12 * 0 + 0xA) = f.shift
        rw [show off + 12 * 0 + 0xA = off + 0xA from by ring, hout _ (by omega) (by omega)]
        exact r4
      · show (writeFieldsLoop be t (off + 12) (write_field buf off h f be)).data
          (off + 12 * 0 + 0xB) = f.field_type.raw
        rw [show off + 12 * 0 + 0xB = off + 0xB from by ring, hout _ (by omega) (by omega)]
        exact r5
    | succ j =>
      have hj2 : j < t.length := by simpa using hj
      have := ih (off + 12) (write_field buf off h f be) j hj2
        (fun p hp => hbounds p (List.mem_cons_of_mem _ hp))
      have harith : ∀ c : Nat, off + 12 * (j + 1) + c = off + 12 + 12 * j + c := by
        intro c; ring
      obtain ⟨r1, r2, r3, r4, r5⟩ := this
      refine ⟨?_, ?_, ?_, ?_, ?_⟩
      · show readU32 be (writeFieldsLoop be t (off + 12) (write_field buf off h f be))
          (off + 12 * (j + 1)) = (t.get ⟨j, hj2⟩).1
        rw [show off + 12 * (j + 1) = off + 12 + 12 * j from by ring]
        exact r1
      · show readU32 be (writeFieldsLoop be t (off + 12) (write_field buf off h f be))
          (off + 12 * (j + 1) + 4) = (t.get ⟨j, hj2⟩).2.mask
        rw [harith 4]
        exact r2
      · show readU16 be (writeFieldsLoop be t (off + 12) (write_field buf off h f be))
          (off + 12 * (j + 1) + 8) = (t.get ⟨j, hj2⟩).2.offset
        rw [harith 8]
        exact r3
      · show (writeFieldsLoop be t (off + 12) (write_field buf off h f be)).data
          (off + 12 * (j + 1) + 0xA) = (t.get ⟨j, hj2⟩).2.shift
        rw [harith 0xA]
        exact r4
      · show (writeFieldsLoop be t (off + 12) (write_field buf off h f be)).data
          (off + 12 * (j + 1) + 0xB) = (t.get ⟨j, hj2⟩).2.field_type.raw
        rw [harith 0xB]
        exact r5

theorem size_writeHeader (buf : Buffer) (be : Bool) (a b c d : Nat) :
    (writeHeader buf be a b c d).size = buf.size := by
  simp [writeHeader]

theorem data_writeHeader_out (buf : Buffer) (be : Bool) (a b c d i : Nat) (hi : 16 ≤ i) :
    (writeHeader buf be a b c d).data i = buf.data i := by
  unfold writeHeader
  rw [data_writeU32_out _ _ _ _ _ (by omega), data_writeU32_out _ _ _ _ _ (by omega),
    data_writeU32_out _ _ _ _ _ (by omega), data_writeU32_out _ _ _ _ _ (by omega)]

theorem writeHeader_readback (buf : Buffer) (be : Bool) (a b c d : Nat)
    (ha : a < 4294967296) (hb : b < 4294967296) (hc : c < 4294967296) (hd : d < 4294967296) :
    readU32 be (writeHeader buf be a b c d) 0 = a ∧
    readU32 be (writeHeader buf be a b c d) 4 = b ∧
    readU32 be (writeHeader buf be a b c d) 8 = c ∧
    readU32 be (writeHeader buf be a b c d) 12 = d := by
  unfold writeHeader
  refine ⟨?_, ?_, ?_, ?_⟩
  · rw [readU32_congr be _ (writeU32 be buf 0 a) 0 ?_, readU32_writeU32, Nat.mod_eq_of_lt ha]
    intro i h1 h2
    rw [data_writeU32_out _ _ _ _ _ (by omega), data_writeU32_out _ _ _ _ _ (by omega),
      data_writeU32_out _ _ _ _ _ (by omega)]
  · rw [readU32_congr be _ (writeU32 be (writeU32 be buf 0 a) 4 b) 4 ?_, readU32_writeU32,
      Nat.mod_eq_of_lt hb]
    intro i h1 h2
    rw [data_writeU32_out _ _ _ _ _ (by omega), data_writeU32_out _ _ _ _ _ (by omega)]
  · rw [readU32_congr be _ (writeU32 be (writeU32 be (writeU32 be buf 0 a) 4 b) 8 c) 8 ?_,
      readU32_writeU32, Nat.mod_eq_of_lt hc]
    intro i h1 h2
    rw [data_writeU32_out _ _ _ _ _ (by omega)]
  · rw [readU32_writeU32, Nat.mod_eq_of_lt hd]

/-! ## Decoding the encoded directory -/

theorem from_raw_raw (ft : FieldType) : FieldType.from_raw ft.raw = some ft := by
  cases ft <;> rfl

/-- The field record the decoder reconstructs from an encoded directory
entry: same key, mask, offset, type and shift, with the default reset to
the default of the type. -/
def decodedPair (p : Nat × Field) : Nat × Field :=
  (p.1, { hash := p.1, mask := p.2.mask, offset := p.2.offset,
          field_type := p.2.field_type, shift := p.2.shift,
          default := FieldValue.default_for p.2.field_type })

theorem indexInsert_append {α : Type} (l : List (Nat × α)) (k : Nat) (v : α)
    (h : k ∉ l.map (·.1)) : indexInsert l k v = l ++ [(k, v)] := by
  unfold indexInsert
  rw [if_neg]
  intro hc
  rw [List.any_eq_true] at hc
  obtain ⟨p, hp, hpk⟩ := hc
  exact h (List.mem_map.mpr ⟨p, hp, by simpa using hpk⟩)

theorem readFieldsLoop_spec (B : Buffer) (be : Bool) :
    ∀ (fl : List (Nat × Field)) (k : Nat) (acc : List (Nat × Field)),
      (∀ j, (hj : j < fl.length) →
        16 + 12 * (k + j) + 12 ≤ B.size ∧
        readU32 be B (16 + 12 * (k + j)) = (fl.get ⟨j, hj⟩).1 ∧
        readU32 be B (16 + 12 * (k + j) + 4) = (fl.get ⟨j, hj⟩).2.mask ∧
        readU16 be B (16 + 12 * (k + j) + 8) = (fl.get ⟨j, hj⟩).2.offset ∧
        B.data (16 + 12 * (k + j) + 0xA) = (fl.get ⟨j, hj⟩).2.shift ∧
        B.data (16 + 12 * (k + j) + 0xB) = (fl.get ⟨j, hj⟩).2.field_type.raw) →
      (∀ j, (hj : j < fl.length) → (fl.get ⟨j, hj⟩).1 ∉ acc.map (·.1)) →
      (fl.map (·.1)).Nodup →
      readFieldsLoop B be fl.length (16 + 12 * k) acc =
        some (.ok (acc ++ fl.map decodedPair)) := by
  intro fl
  induction fl with
  | nil => intro k acc _ _ _; simp [readFieldsLoop]
  | cons q rest ih =>
    intro k acc hrec hfresh hnd
    obtain ⟨hb0, h1, h2, h3, h4, h5⟩ := hrec 0 (by simp)
    have e0 : 16 + 12 * (k + 0) = 16 + 12 * k := by ring
    have e1 : readU32 be B (16 + 12 * k) = q.1 := by rw [← e0]; exact h1
    have e2 : readU32 be B (16 + 12 * k + 0x04) = q.2.mask := by
      rw [show 16 + 12 * k + 0x04 = 16 + 12 * (k + 0) + 4 from by ring]; exact h2
    have e3 : readU16 be B (16 + 12 * k + 0x08) = q.2.offset := by
      rw [show 16 + 12 * k + 0x08 = 16 + 12 * (k + 0) + 8 from by ring]; exact h3
    have e4 : B.data (16 + 12 * k + 0x0A) = q.2.shift := by
      rw [show 16 + 12 * k + 0x0A = 16 + 12 * (k + 0) + 0xA from by ring]; exact h4
    have e5 : B.data (16 + 12 * k + 0x0B) = q.2.field_type.raw := by
      rw [show 16 + 12 * k + 0x0B = 16 + 12 * (k + 0) + 0xB from by ring]; exact h5
    have hread : read_field B (16 + 12 * k) be = some (.ok (decodedPair q).2) := by
      unfold read_field
      rw [if_pos (by omega)]
      simp only [e1, e2, e3, e4, e5, from_raw_raw, decodedPair]
    show readFieldsLoop B be (rest.length + 1) (16 + 12 * k) acc = _
    rw [show rest.length + 1 = Nat.succ rest.length from rfl]
    unfold readFieldsLoop
    rw [hread]
    have hacc : indexInsert acc (decodedPair q).2.hash (decodedPair q).2 =
        acc ++ [decodedPair q] :=
      indexInsert_append acc _ _ (hfresh 0 (by simp))
    show readFieldsLoop B be rest.length (16 + 12 * k + 0x0C)
        (indexInsert acc (decodedPair q).2.hash (decodedPair q).2) = _
    rw [List.map_cons, List.nodup_cons] at hnd
    have hrest := ih (k + 1) (acc ++ [decodedPair q])
      (fun j hj => by
        have := hrec (j + 1) (by simpa using Nat.succ_lt_succ hj)
        rw [show k + (j + 1) = k + 1 + j from by ring] at this
        exact this)
      (fun j hj => by
        rw [List.map_append]
        intro hc
        rcases List.mem_append.mp hc with hc1 | hc2
        · exact hfresh (j + 1) (by simpa using Nat.succ_lt_succ hj) hc1
        · have hqe : (rest.get ⟨j, hj⟩).1 = q.1 := by simpa [decodedPair] using hc2
          exact hnd.1 (hqe ▸ List.mem_map.mpr ⟨rest.get ⟨j, hj⟩, List.get_mem _ _ _, rfl⟩))
      hnd.2
    rw [show (16 + 12 * k + 0x0C) = 16 + 12 * (k + 1) from by ring, hacc, hrest,
      List.append_assoc]
    rfl

/-! ## Decoding values back from encoded slots -/

/-- The value decode returns for a value stored through encode: integers
are narrowed to the field width and sign-extended exactly as the decoder
does, float bits are narrowed to 32 bits, text is returned unchanged. -/
def truncateValue : FieldType → FieldValue → FieldValue
  | .Long, .Int n => .Int (n % 4294967296)
  | .UnsignedLong, .Int n => .Int (n % 4294967296)
  | .Short, .Int n =>
      .Int (if n % 65536 &&& 0x8000 ≠ 0 then n % 65536 ||| 0xFFFF0000 else n % 65536)
  | .Char, .Int n =>
      .Int (if n % 256 &&& 0x80 ≠ 0 then n % 256 ||| 0xFFFFFF00 else n % 256)
  | .Float, .Float b => .Float (b % 4294967296)
  | _, v => v

/-- Taking a NUL-terminated window up to the first NUL recovers a NUL-free
string laid out at the start of the window. -/
theorem take_firstNul (g : Nat → Nat) (N : Nat) (s : List Nat) (d : Nat)
    (hnul : ∀ b ∈ s, b ≠ 0)
    (hslen : s.length ≤ N)
    (hg : ∀ j, j < s.length → g j = s.getD j 0)
    (hterm : s.length < N → g s.length = 0)
    (hd : s.length = N → d = N) :
    ((List.range N).map g).take ((((List.range N).map g).findIdx? (fun b => b == 0)).getD d)
      = s := by
  have hWlen : ((List.range N).map g).length = N := by simp
  have hWsome : ∀ j, j < N → ((List.range N).map g)[j]? = some (g j) := by
    intro j hj
    rw [List.getElem?_map]
    simp [List.getElem?_range, hj]
  have hWget : ∀ j, ∀ (hj2 : j < ((List.range N).map g).length),
      ((List.range N).map g).get ⟨j, hj2⟩ = g j := by
    intro j hj2
    have h1 := hWsome j (by rw [← hWlen]; exact hj2)
    rw [List.getElem?_eq_getElem hj2] at h1
    exact Option.some.inj h1
  have htake : ((List.range N).map g).take s.length = s := by
    apply List.ext_getElem?
    intro n
    by_cases hn : n < s.length
    · rw [List.getElem?_take, if_pos hn, hWsome n (by omega), hg n hn,
        List.getD_eq_getElem s 0 hn, List.getElem?_eq_getElem hn]
    · have hlen2 : (((List.range N).map g).take s.length).length = s.length := by
        rw [List.length_take, hWlen]
        omega
      rw [List.getElem?_eq_none (by omega), List.getElem?_eq_none (by omega)]
  rcases Nat.lt_or_ge s.length N with hlt | hge
  · have hfind : ((List.range N).map g).findIdx? (fun b => b == 0) = some (0 + s.length) := by
      apply findIdx?_of_first (fun b => b == 0) _ s.length (by rw [hWlen]; exact hlt) 0
      · rw [hWget s.length (by rw [hWlen]; exact hlt), hterm hlt]
        rfl
      · intro j hj
        rw [hWget j (by rw [hWlen]; omega), hg j hj]
        have hmem : s.getD j 0 ∈ s := by
          rw [List.getD_eq_getElem s 0 hj]
          exact List.get_mem s j hj
        simpa using hnul _ hmem
    rw [hfind]
    simpa using htake
  · have hN : s.length = N := by omega
    have hfind : ((List.range N).map g).findIdx? (fun b => b == 0) = none := by
      rw [List.findIdx?_eq_none_iff]
      intro x hx
      obtain ⟨j, hjr, rfl⟩ := List.mem_map.mp hx
      have hjN : j < N := List.mem_range.mp hjr
      rw [hg j (by omega)]
      have hmem : s.getD j 0 ∈ s := by
        rw [List.getD_eq_getElem s 0 (by omega)]
        exact List.get_mem s j (by omega)
      simpa using hnul _ hmem
    rw [hfind]
    show ((List.range N).map g).take d = s
    rw [hd hN]
    have h2 : ((List.range N).map g).take N = ((List.range N).map g).take s.length := by
      rw [hN]
    rw [h2]
    exact htake

/-- Reading back one encoded slot: given the slot contents established by
the encoder, the well-formed pool records and the decoded directory entry
(same type, default mask, zero shift), the decoder returns exactly the
width-truncated value. -/
theorem read_slot_value (opts : IoOptions) (B : Buffer) (pos stOff : Nat) (f fd : Field)
    (v : FieldValue) (σ : List (List Nat × Nat))
    (hft : fd.field_type = f.field_type)
    (hmask : fd.mask = f.field_type.default_mask)
    (hshift : fd.shift = 0)
    (hslot : slotHolds opts B pos f v σ)
    (hsize : pos + f.field_type.size ≤ B.size)
    (htext : ∀ s, v = .String s → (∀ b ∈ s, b ≠ 0) ∧
      (f.field_type = FieldType.String → s.length ≤ 32))
    (hpool : ∀ q ∈ σ, stOff + q.2 + q.1.length + 1 ≤ B.size ∧
      (∀ j, j < q.1.length → B.data (stOff + q.2 + j) = q.1.getD j 0) ∧
      B.data (stOff + q.2 + q.1.length) = 0)
    (hσo : ∀ q ∈ σ, q.2 < 4294967296) :
    read_field_value B pos stOff fd opts = some (.ok (truncateValue f.field_type v)) := by
  unfold slotHolds at hslot
  rcases hcases : f.field_type <;> rw [hcases] at hslot hmask hsize <;>
    rcases hv : v with n | bits | s <;> rw [hv] at hslot <;>
    simp only [FieldType.default_mask] at hmask <;>
    simp only [FieldType.size] at hsize <;>
    first
    | exact hslot.elim
    | skip
  case Long.Int =>
    have hread : readU32 opts.big_endian B pos = n % 4294967296 := hslot
    simp only [read_field_value, hft, hcases, hmask, hshift, hread, hv]
    rw [if_pos hsize]
    simp only [ite_self, truncateValue, and_mask32, Nat.shiftRight_zero,
      Nat.mod_mod_of_dvd _ (dvd_refl 4294967296)]
  case String.String =>
    have hwin : ∀ j, j < 32 → B.data (pos + j) = if j < s.length then s.getD j 0 else 0 := hslot
    obtain ⟨hnul, hs32⟩ := htext s hv
    have hs32c : s.length ≤ 32 := hs32 hcases
    simp only [read_field_value, hft, hcases, hv]
    rw [if_pos hsize]
    have htk := take_firstNul (fun j => B.data (pos + j)) 32 s 32 hnul hs32c
      (fun j hj => by
        show B.data (pos + j) = s.getD j 0
        rw [hwin j (by omega), if_pos hj])
      (fun hlt => by
        show B.data (pos + s.length) = 0
        rw [hwin s.length hlt, if_neg (by omega)])
      (fun _ => rfl)
    simp only [decode_string]
    rw [htk]
    rfl
  case Float.Float =>
    have hread : readU32 opts.big_endian B pos = bits % 4294967296 := hslot
    simp only [read_field_value, hft, hcases, hread, hv]
    rw [if_pos hsize]
    rfl
  case UnsignedLong.Int =>
    have hread : readU32 opts.big_endian B pos = n % 4294967296 := hslot
    simp only [read_field_value, hft, hcases, hmask, hshift, hread, hv]
    rw [if_pos hsize]
    simp only [ite_self, truncateValue, and_mask32, Nat.shiftRight_zero,
      Nat.mod_mod_of_dvd _ (dvd_refl 4294967296)]
  case Short.Int =>
    have hread : readU16 opts.big_endian B pos = n % 65536 := hslot
    simp only [read_field_value, hft, hcases, hmask, hshift, hread, hv]
    rw [if_pos hsize]
    simp only [truncateValue, and_mask16, Nat.shiftRight_zero,
      Nat.mod_mod_of_dvd _ (dvd_refl 65536)]
  case Char.Int =>
    have hread : B.data pos = n % 256 := hslot
    simp only [read_field_value, hft, hcases, hmask, hshift, hread, hv]
    rw [if_pos hsize]
    simp only [truncateValue, and_mask8, Nat.shiftRight_zero,
      Nat.mod_mod_of_dvd _ (dvd_refl 256)]
  case StringOffset.String =>
    obtain ⟨o, hfind, hread⟩ := hslot
    rcases hfo : σ.find? (fun q => q.1 == s) with - | q0
    · rw [hfo] at hfind
      exact absurd hfind (by simp)
    rw [hfo] at hfind
    have hq0mem : q0 ∈ σ := List.mem_of_find?_eq_some hfo
    have hq0s : q0.1 = s := by simpa using List.find?_some hfo
    have hq0o : q0.2 = o := by simpa using hfind
    obtain ⟨hb1, hb2, hb3⟩ := hpool q0 hq0mem
    rw [hq0s, hq0o] at hb1 hb2 hb3
    have hoe : o % 4294967296 = o := Nat.mod_eq_of_lt (hq0o ▸ hσo q0 hq0mem)
    obtain ⟨hnul, -⟩ := htext s hv
    simp only [read_field_value, hft, hcases, hread, hv, hoe]
    rw [if_pos hsize, if_pos (by omega)]
    have htk := take_firstNul (fun j => B.data (stOff + o + j)) (B.size - (stOff + o)) s 0
      hnul (by omega)
      (fun j hj => hb2 j hj)
      (fun _ => hb3)
      (fun hc => by omega)
    simp only [decode_string]
    rw [htk]
    rfl

/-- Reading one row: when every declared field decodes successfully, the
row becomes the field list mapped to its decoded values, in directory
order. -/
theorem readEntryFields_spec (B : Buffer) (R stOff : Nat) (opts : IoOptions)
    (dv : Nat × Field → FieldValue) :
    ∀ (M : List (Nat × Field)) (acc : Entry),
      (∀ q ∈ M, read_field_value B (R + q.2.offset) stOff q.2 opts = some (.ok (dv q))) →
      (∀ q ∈ M, q.2.hash = q.1) →
      (∀ q ∈ M, q.1 ∉ acc.data.map (·.1)) →
      (M.map (·.1)).Nodup →
      readEntryFields B R stOff opts M acc =
        some (.ok ⟨acc.data ++ M.map (fun q => (q.1, dv q))⟩) := by
  intro M
  induction M with
  | nil =>
    intro acc _ _ _ _
    show some (Except.ok acc) = _
    simp
  | cons q rest ih =>
    obtain ⟨qh, qf⟩ := q
    intro acc hread hhash hfresh hnd
    rw [List.map_cons, List.nodup_cons] at hnd
    have hr0 := hread (qh, qf) (List.mem_cons_self _ _)
    show (match read_field_value B (R + qf.offset) stOff qf opts with
      | none => none
      | some (Except.error e) => some (Except.error e)
      | some (Except.ok value) =>
        readEntryFields B R stOff opts rest (acc.set_by_hash qf.hash value)) = _
    rw [hr0]
    show readEntryFields B R stOff opts rest (acc.set_by_hash qf.hash (dv (qh, qf))) = _
    have hqh : qf.hash = qh := hhash (qh, qf) (List.mem_cons_self _ _)
    have hacc2 : acc.set_by_hash qf.hash (dv (qh, qf)) =
        ⟨acc.data ++ [(qh, dv (qh, qf))]⟩ := by
      unfold Entry.set_by_hash
      rw [hqh]
      rw [indexInsert_append _ _ _ (hfresh (qh, qf) (List.mem_cons_self _ _))]
    rw [hacc2]
    rw [ih ⟨acc.data ++ [(qh, dv (qh, qf))]⟩
      (fun p hp => hread p (List.mem_cons_of_mem _ hp))
      (fun p hp => hhash p (List.mem_cons_of_mem _ hp))
      (fun p hp => by
        rw [List.map_append]
        intro hc
        rcases List.mem_append.mp hc with hc1 | hc2
        · exact hfresh p (List.mem_cons_of_mem _ hp) hc1
        · have hpq : p.1 = qh := by simpa using hc2
          exact hnd.1 (hpq ▸ List.mem_map.mpr ⟨p, hp, rfl⟩))
      hnd.2]
    rw [List.map_cons, List.append_assoc]
    rfl

/-- Reading all rows: when every row parses, the decoder returns the rows
in order. -/
theorem readEntriesLoop_spec (B : Buffer) (stOff : Nat) (M : List (Nat × Field))
    (opts : IoOptions) (esz : Nat) :
    ∀ (n : Nat) (rowE : Nat → Entry) (off : Nat) (acc : List Entry),
      (∀ k, k < n → readEntryFields B (off + k * esz) stOff opts M Entry.new =
        some (.ok (rowE k))) →
      readEntriesLoop B stOff M opts esz n off acc =
        some (.ok (acc ++ (List.range n).map rowE)) := by
  intro n
  induction n with
  | zero => intro rowE off acc _; simp [readEntriesLoop]
  | succ m ih =>
    intro rowE off acc hrows
    have hr0 := hrows 0 (by omega)
    rw [show off + 0 * esz = off from by ring] at hr0
    show (match readEntryFields B off stOff opts M Entry.new with
      | none => none
      | some (Except.error e) => some (Except.error e)
      | some (Except.ok entry) =>
        readEntriesLoop B stOff M opts esz m (off + esz) (acc ++ [entry])) = _
    rw [hr0]
    show readEntriesLoop B stOff M opts esz m (off + esz) (acc ++ [rowE 0]) = _
    rw [ih (fun k => rowE (k + 1)) (off + esz) (acc ++ [rowE 0])
      (fun k hk => by
        rw [show off + esz + k * esz = off + (k + 1) * esz from by ring]
        exact hrows (k + 1) (by omega))]
    rw [List.range_succ_eq_map, List.map_cons, List.map_map, List.append_assoc]
    rfl

/-! ## Shared encoder characterization -/

/-- The final assembly step of the encoder: append the string pool and pad
to a 32-byte boundary with 0x40. -/
def mkFinal (st : EncState) : Buffer :=
  (st.buffer.append st.string_table).resizeFill
    (align32 (st.buffer.append st.string_table).size) 0x40

/-- Behaviour of `to_buffer` on a well-formed, primitives-built container:
encoding succeeds, the output is the padded row buffer plus pool, the pool
is the row-major entry-order dedup fold, the header/directory bytes are
those written by `writeHeader`/`writeFieldsLoop`, and every known-field
row value sits in its slot. -/
theorem encode_spec (jmap : JMapInfo) (opts : IoOptions)
    (hndf : (jmap.fields.map (·.1)).Nodup)
    (hhash : ∀ p ∈ jmap.fields, p.2.hash = p.1)
    (hmaskd : ∀ p ∈ jmap.fields, p.2.mask = p.2.field_type.default_mask)
    (hshift0 : ∀ p ∈ jmap.fields, p.2.shift = 0)
    (hsum : sumSizes jmap.fields ≤ 65535)
    (hne : jmap.entries.length < 4294967296)
    (hnf : 16 + 12 * jmap.fields.length < 4294967296)
    (halloc : 0x10 + jmap.fields.length * 0x0C + jmap.entries.length *
      align4 (assignOffsets (List.insertionSort layoutLe jmap.fields) 0).2 < 4294967296)
    (hent : ∀ e ∈ jmap.entries, (e.data.map (·.1)).Nodup ∧
      (∀ p ∈ e.data, ∀ f,
        lookupVal (assignOffsets (List.insertionSort layoutLe jmap.fields) 0).1 p.1 = some f →
        p.2.is_compatible_with f.field_type = true ∧
        (∀ s, p.2 = FieldValue.String s → f.field_type = FieldType.String → s.length ≤ 32))) :
    ∃ st' : EncState,
      to_buffer jmap opts = some (.ok (mkFinal st')) ∧
      (st'.string_table, st'.string_offsets) =
        poolFoldEntries
          (fun h => lookupVal (assignOffsets (List.insertionSort layoutLe jmap.fields) 0).1 h)
          ([], []) jmap.entries ∧
      st'.buffer.size = 0x10 + jmap.fields.length * 0x0C +
        jmap.entries.length * align4 (assignOffsets (List.insertionSort layoutLe jmap.fields) 0).2 ∧
      (∀ i, i < 0x10 + jmap.fields.length * 0x0C →
        st'.buffer.data i = (writeFieldsLoop opts.big_endian
          (assignOffsets (List.insertionSort layoutLe jmap.fields) 0).1 0x10
          (writeHeader (Buffer.zeros (0x10 + jmap.fields.length * 0x0C +
              jmap.entries.length *
                align4 (assignOffsets (List.insertionSort layoutLe jmap.fields) 0).2))
            opts.big_endian jmap.entries.length jmap.fields.length
            (0x10 + jmap.fields.length * 0x0C)
            (align4 (assignOffsets (List.insertionSort layoutLe jmap.fields) 0).2))).data i) ∧
      (∀ k e, jmap.entries[k]? = some e → ∀ p ∈ e.data, ∀ f,
        lookupVal (assignOffsets (List.insertionSort layoutLe jmap.fields) 0).1 p.1 = some f →
        slotHolds opts st'.buffer
          (0x10 + jmap.fields.length * 0x0C +
            k * align4 (assignOffsets (List.insertionSort layoutLe jmap.fields) 0).2 + f.offset)
          f p.2 st'.string_offsets) := by
  have hperm := List.perm_insertionSort layoutLe jmap.fields
  have hndS : ((List.insertionSort layoutLe jmap.fields).map (·.1)).Nodup :=
    (hperm.map (·.1)).nodup_iff.mpr hndf
  have hsumS : sumSizes (List.insertionSort layoutLe jmap.fields) ≤ 65535 := by
    rw [sumSizes_perm _ _ hperm]
    exact hsum
  have hlenS : (List.insertionSort layoutLe jmap.fields).length = jmap.fields.length :=
    hperm.length_eq
  have hmapid : jmap.fields.map (fun p => (p.2.hash, p.2)) = jmap.fields := by
    have h1 : jmap.fields.map (fun p => (p.2.hash, p.2)) = jmap.fields.map id :=
      List.map_congr_left (fun p hp => by rw [hhash p hp]; rfl)
    rw [h1, List.map_id]
  have hnec : u32cast jmap.entries.length = jmap.entries.length := Nat.mod_eq_of_lt hne
  have hnfc : u32cast jmap.fields.length = jmap.fields.length :=
    Nat.mod_eq_of_lt (by omega)
  rcases hA : assignOffsets (List.insertionSort layoutLe jmap.fields) 0 with ⟨FWO, CUR⟩
  have hFst : (assignOffsets (List.insertionSort layoutLe jmap.fields) 0).1 = FWO := by
    rw [hA]
  have hSnd : (assignOffsets (List.insertionSort layoutLe jmap.fields) 0).2 = CUR := by
    rw [hA]
  have hFWOlen : FWO.length = jmap.fields.length := by
    rw [← hFst, assignOffsets_length, hlenS]
  have hdisjL : ∀ h1 f1 h2 f2, h1 ≠ h2 → lookupVal FWO h1 = some f1 →
      lookupVal FWO h2 = some f2 →
      f1.offset + f1.field_type.size ≤ f2.offset ∨
        f2.offset + f2.field_type.size ≤ f1.offset := by
    rw [← hFst]
    exact FWO_disj _ hndS hsumS
  have hwfL : ∀ h f, lookupVal FWO h = some f →
      f.mask = f.field_type.default_mask ∧ f.shift = 0 := by
    rw [← hFst]
    exact FWO_wf _ hndS hsumS
      (fun p hp => hmaskd p (hperm.mem_iff.mp hp))
      (fun p hp => hshift0 p (hperm.mem_iff.mp hp))
  have hrangeL : ∀ h f, lookupVal FWO h = some f →
      f.offset + f.field_type.size ≤ align4 CUR := by
    rw [← hFst, ← hSnd]
    exact FWO_range _ hndS hsumS
  have hzero : ∀ i, 0x10 + jmap.fields.length * 0x0C ≤ i →
      (writeFieldsLoop opts.big_endian FWO 0x10
        (writeHeader (Buffer.zeros (0x10 + jmap.fields.length * 0x0C +
            jmap.entries.length * align4 CUR))
          opts.big_endian jmap.entries.length jmap.fields.length
          (0x10 + jmap.fields.length * 0x0C) (align4 CUR))).data i = 0 := by
    intro i hi
    rw [data_writeFieldsLoop_out _ _ _ _ i (Or.inr (by rw [hFWOlen]; omega)),
      data_writeHeader_out _ _ _ _ _ _ _ (by omega)]
    rfl
  obtain ⟨st', hloop, hsize, hpool, hframe, hslots⟩ :=
    writeEntriesLoop_spec opts (fun h => lookupVal FWO h) (align4 CUR) hdisjL hwfL hrangeL
      jmap.entries
      ⟨writeFieldsLoop opts.big_endian FWO 0x10
        (writeHeader (Buffer.zeros (0x10 + jmap.fields.length * 0x0C +
            jmap.entries.length * align4 CUR))
          opts.big_endian jmap.entries.length jmap.fields.length
          (0x10 + jmap.fields.length * 0x0C) (align4 CUR)), [], []⟩
      (0x10 + jmap.fields.length * 0x0C)
      (fun e he => ⟨(hent e he).1, fun p hp f hf =>
        (hent e he).2 p hp f (by rw [hFst]; exact hf)⟩)
      hzero
  have hbufFsize : (writeFieldsLoop opts.big_endian FWO 0x10
      (writeHeader (Buffer.zeros (0x10 + jmap.fields.length * 0x0C +
          jmap.entries.length * align4 CUR))
        opts.big_endian jmap.entries.length jmap.fields.length
        (0x10 + jmap.fields.length * 0x0C) (align4 CUR))).size =
      0x10 + jmap.fields.length * 0x0C + jmap.entries.length * align4 CUR := by
    rw [size_writeFieldsLoop, size_writeHeader]
    rfl
  refine ⟨st', ?_, ?_, ?_, ?_, ?_⟩
  · have hg1 : 0x10 + jmap.fields.length * 0x0C < 4294967296 := by omega
    have hg2 : 0x10 + jmap.fields.length * 0x0C +
        jmap.entries.length * align4 CUR < 4294967296 := by
      rw [← hSnd]
      exact halloc
    simp only [to_buffer, hmapid, JMapInfo.len, JMapInfo.num_fields, hA, hnec, hnfc]
    rw [if_pos hg1, if_pos hg2, hloop]
    rfl
  · exact hpool
  · rw [hsize]
    exact hbufFsize
  · intro i hi
    exact hframe i hi
  · exact hslots

/-! ## Auxiliaries for the round-trip theorem -/

theorem default_mask_lt (ft : FieldType) : ft.default_mask < 4294967296 := by
  cases ft <;> decide

theorem decodedPair_keys (l : List (Nat × Field)) :
    (l.map decodedPair).map (·.1) = l.map (·.1) := by
  rw [List.map_map]
  exact List.map_congr_left (fun p hp => rfl)

theorem lookupVal_map_decodedPair (l : List (Nat × Field)) (k : Nat) :
    lookupVal (l.map decodedPair) k =
      (lookupVal l k).map (fun f => (decodedPair (k, f)).2) := by
  induction l with
  | nil => rfl
  | cons a t ih =>
    rw [List.map_cons, lookupVal_cons, lookupVal_cons]
    by_cases h : a.1 = k
    · rw [if_pos (show (decodedPair a).1 = k from h), if_pos h]
      subst h
      rfl
    · rw [if_neg (show ¬ (decodedPair a).1 = k from h), if_neg h, ih]

/-- Keyed lookup on a list mapped through a key-preserving value map. -/
theorem lookupVal_map_withKey {β : Type} (g : Nat × Field → β) (l : List (Nat × Field)) (k : Nat) :
    lookupVal (l.map (fun q => (q.1, g q))) k =
      (l.find? (fun q => q.1 == k)).map g := by
  induction l with
  | nil => rfl
  | cons a t ih =>
    rw [List.map_cons, lookupVal_cons]
    by_cases h : a.1 = k
    · rw [if_pos h, List.find?_cons_of_pos _ (by simp [h])]
      rfl
    · rw [if_neg h, List.find?_cons_of_neg _ (by simp [h]), ih]

theorem FWO_mem_bounds (S : List (Nat × Field)) (hnd : (S.map (·.1)).Nodup)
    (hb : sumSizes S ≤ 65535)
    (hkb : ∀ p ∈ S, p.1 < 4294967296)
    (hmk : ∀ p ∈ S, p.2.mask = p.2.field_type.default_mask) :
    ∀ p ∈ (assignOffsets S 0).1,
      p.1 < 4294967296 ∧ p.2.mask < 4294967296 ∧ p.2.offset < 65536 := by
  intro p hp
  obtain ⟨j, hj, hpj⟩ := List.mem_iff_getElem.mp hp
  have hjS : j < S.length := by
    rw [← assignOffsets_length S 0]
    exact hj
  have hsome := assignOffsets_getElem S 0 (by omega) j hjS
  rw [List.getElem?_eq_getElem hj] at hsome
  have hpj2 : p = ((S.get ⟨j, hjS⟩).1,
      { (S.get ⟨j, hjS⟩).2 with offset := 0 + sumSizes (S.take j) }) := by
    rw [← hpj]
    exact Option.some.inj hsome
  have hmem : S.get ⟨j, hjS⟩ ∈ S := List.get_mem S j hjS
  subst hpj2
  refine ⟨?_, ?_, ?_⟩
  · show (S.get ⟨j, hjS⟩).1 < 4294967296
    exact hkb _ hmem
  · show (S.get ⟨j, hjS⟩).2.mask < 4294967296
    rw [hmk _ hmem]
    exact default_mask_lt _
  · show 0 + sumSizes (S.take j) < 65536
    have := sumSizes_take_le S j
    omega

/-- C1 (amended): for a container built from the public primitives — fields
with default masks, zero shifts, matching hashes and distinct keys; rows
keyed exactly by the declared fields with type-compatible values — and
additionally: inline text NUL-free and at most 32 bytes, indirect text
NUL-free, total row width at most 65535 bytes, counts and header offsets
below 2^32, the full row-region allocation `off_data + entries * row size`
below 2^32 (the source computes it in `u32`), pool bytes below 2^32 — the
encoded buffer decodes back to a
container with the same field set (hash, type, mask, shift, and the offset
`recalculate_offsets` computes) and the same row values up to the
width-appropriate integer truncation and sign extension.  Without the
added text bounds the claim fails: an inline string of 33 bytes is
truncated (see the counterexample). -/
theorem encode_decode_roundtrip (jmap : JMapInfo) (opts : IoOptions)
    (hndf : (jmap.fields.map (·.1)).Nodup)
    (hhash : ∀ p ∈ jmap.fields, p.2.hash = p.1)
    (hmaskd : ∀ p ∈ jmap.fields, p.2.mask = p.2.field_type.default_mask)
    (hshift0 : ∀ p ∈ jmap.fields, p.2.shift = 0)
    (hhb : ∀ p ∈ jmap.fields, p.1 < 4294967296)
    (hsum : sumSizes jmap.fields ≤ 65535)
    (hne : jmap.entries.length < 4294967296)
    (hnf : 16 + 12 * jmap.fields.length < 4294967296)
    (halloc : 0x10 + jmap.fields.length * 0x0C + jmap.entries.length *
      align4 (assignOffsets (List.insertionSort layoutLe jmap.fields) 0).2 < 4294967296)
    (hpb : poolBound jmap.entries < 4294967296)
    (hkeysE : ∀ e ∈ jmap.entries, e.data.map (·.1) = jmap.fields.map (·.1))
    (hcompatE : ∀ e ∈ jmap.entries, ∀ p ∈ e.data, ∀ f, lookupVal jmap.fields p.1 = some f →
      p.2.is_compatible_with f.field_type = true)
    (htextE : ∀ e ∈ jmap.entries, ∀ p ∈ e.data, ∀ s, p.2 = FieldValue.String s →
      (∀ b ∈ s, b ≠ 0) ∧ (∀ f, lookupVal jmap.fields p.1 = some f →
        f.field_type = FieldType.String → s.length ≤ 32)) :
    ∃ buf jm2, to_buffer jmap opts = some (.ok buf) ∧ from_buffer buf opts = some (.ok jm2) ∧
      jm2.entry_size = jmap.recalculate_offsets.entry_size ∧
      jm2.fields.length = jmap.fields.length ∧
      (∀ h f, lookupVal jmap.fields h = some f →
        ∃ o2, lookupVal jmap.recalculate_offsets.fields h = some { f with offset := o2 } ∧
          lookupVal jm2.fields h = some { f with offset := o2, default := FieldValue.default_for f.field_type }) ∧
      jm2.entries.length = jmap.entries.length ∧
      (∀ (k : Nat) (e : Entry), jmap.entries[k]? = some e → ∃ e2 : Entry,
        jm2.entries[k]? = some e2 ∧
        ∀ p ∈ e.data, ∀ f, lookupVal jmap.fields p.1 = some f →
          e2.get_by_hash p.1 = some (truncateValue f.field_type p.2)) := by
  have hperm := List.perm_insertionSort layoutLe jmap.fields
  have hndS : ((List.insertionSort layoutLe jmap.fields).map (·.1)).Nodup :=
    (hperm.map (·.1)).nodup_iff.mpr hndf
  have hsumS : sumSizes (List.insertionSort layoutLe jmap.fields) ≤ 65535 := by
    rw [sumSizes_perm _ _ hperm]
    exact hsum
  have hlenS := hperm.length_eq
  have hndFWO : (((assignOffsets (List.insertionSort layoutLe jmap.fields) 0).1).map
      (·.1)).Nodup := by
    rw [assignOffsets_keys]
    exact hndS
  have hFWOlen : (assignOffsets (List.insertionSort layoutLe jmap.fields) 0).1.length =
      jmap.fields.length := by
    rw [assignOffsets_length, hlenS]
  have hCUR : (assignOffsets (List.insertionSort layoutLe jmap.fields) 0).2 =
      sumSizes (List.insertionSort layoutLe jmap.fields) := by
    rw [assignOffsets_total _ 0 (by omega)]
    omega
  have hESZlt : align4 (assignOffsets (List.insertionSort layoutLe jmap.fields) 0).2 <
      4294967296 := by
    rw [hCUR]
    unfold align4
    omega
  have hwfL := FWO_wf _ hndS hsumS
    (fun p hp => hmaskd p (hperm.mem_iff.mp hp))
    (fun p hp => hshift0 p (hperm.mem_iff.mp hp))
  have hrangeL := FWO_range (List.insertionSort layoutLe jmap.fields) hndS hsumS
  have hFWOg : ∀ h0 f, lookupVal (assignOffsets (List.insertionSort layoutLe jmap.fields) 0).1
      h0 = some f →
      ∃ g, lookupVal jmap.fields h0 = some g ∧ f = { g with offset := f.offset } := by
    intro h0 f hf
    obtain ⟨j, hj, hkey, hval⟩ := FWO_elim _ hndS hsumS h0 f hf
    refine ⟨((List.insertionSort layoutLe jmap.fields).get ⟨j, hj⟩).2, ?_, ?_⟩
    · have hl := lookupVal_of_mem jmap.fields
        ((List.insertionSort layoutLe jmap.fields).get ⟨j, hj⟩) hndf
        (hperm.mem_iff.mp (List.get_mem _ j hj))
      rw [hkey] at hl
      exact hl
    · rw [hval]
  have hentL : ∀ e ∈ jmap.entries, (e.data.map (·.1)).Nodup ∧
      (∀ p ∈ e.data, ∀ f,
        lookupVal (assignOffsets (List.insertionSort layoutLe jmap.fields) 0).1 p.1 = some f →
        p.2.is_compatible_with f.field_type = true ∧
        (∀ s, p.2 = FieldValue.String s → f.field_type = FieldType.String →
          s.length ≤ 32)) := by
    intro e he
    refine ⟨by rw [hkeysE e he]; exact hndf, ?_⟩
    intro p hp f hf
    obtain ⟨g, hg, hfg⟩ := hFWOg p.1 f hf
    have hft : f.field_type = g.field_type := by rw [hfg]
    constructor
    · rw [hft]
      exact hcompatE e he p hp g hg
    · intro s hs hftS
      exact (htextE e he p hp s hs).2 g hg (by rw [← hft]; exact hftS)
  obtain ⟨st', hto, hpool2, hsize2, hframe2, hslots2⟩ :=
    encode_spec jmap opts hndf hhash hmaskd hshift0 hsum hne hnf halloc hentL
  have hPW : poolWF (st'.string_table, st'.string_offsets) := by
    rw [hpool2]
    exact poolWF_poolFoldEntries _ jmap.entries ([], []) poolWF_nil
  have hTlen : st'.string_table.length ≤ poolBound jmap.entries := by
    have h1 : st'.string_table =
        (poolFoldEntries (fun h => lookupVal
          (assignOffsets (List.insertionSort layoutLe jmap.fields) 0).1 h)
          ([], []) jmap.entries).1 := congrArg Prod.fst hpool2
    rw [h1]
    have := poolFoldEntries_table_le (fun h => lookupVal
      (assignOffsets (List.insertionSort layoutLe jmap.fields) 0).1 h) jmap.entries ([], [])
    simpa using this
  have hBig : st'.buffer.size + st'.string_table.length ≤ (mkFinal st').size := by
    show _ ≤ align32 ((st'.buffer.append st'.string_table).size)
    rw [Buffer.size_append]
    unfold align32
    omega
  have hBlow : ∀ i, i < st'.buffer.size → (mkFinal st').data i = st'.buffer.data i := by
    intro i hi
    unfold mkFinal
    rw [Buffer.data_resizeFill_lt _ _ _ _ (by simp; omega), Buffer.data_append_lt _ _ _ hi]
  have hBpool : ∀ u, u < st'.string_table.length →
      (mkFinal st').data (st'.buffer.size + u) = st'.string_table.getD u 0 := by
    intro u hu
    unfold mkFinal
    rw [Buffer.data_resizeFill_lt _ _ _ _ (by simp; omega),
      Buffer.data_append_ge _ _ _ (by omega)]
    congr 1
    omega
  have hBdir : ∀ i, i < 0x10 + jmap.fields.length * 0x0C →
      (mkFinal st').data i = (writeFieldsLoop opts.big_endian
        (assignOffsets (List.insertionSort layoutLe jmap.fields) 0).1 0x10
        (writeHeader (Buffer.zeros (0x10 + jmap.fields.length * 0x0C +
            jmap.entries.length *
              align4 (assignOffsets (List.insertionSort layoutLe jmap.fields) 0).2))
          opts.big_endian jmap.entries.length jmap.fields.length
          (0x10 + jmap.fields.length * 0x0C)
          (align4 (assignOffsets (List.insertionSort layoutLe jmap.fields) 0).2))).data i := by
    intro i hi
    rw [hBlow i (by rw [hsize2]; omega)]
    exact hframe2 i hi
  have hhdr := writeHeader_readback
    (Buffer.zeros (0x10 + jmap.fields.length * 0x0C +
      jmap.entries.length * align4 (assignOffsets (List.insertionSort layoutLe jmap.fields) 0).2))
    opts.big_endian jmap.entries.length jmap.fields.length
    (0x10 + jmap.fields.length * 0x0C)
    (align4 (assignOffsets (List.insertionSort layoutLe jmap.fields) 0).2)
    hne (by omega) (by omega) hESZlt
  have hcongHdr : ∀ off0, off0 + 4 ≤ 16 →
      readU32 opts.big_endian (mkFinal st') off0 =
      readU32 opts.big_endian (writeHeader (Buffer.zeros (0x10 + jmap.fields.length * 0x0C +
          jmap.entries.length *
            align4 (assignOffsets (List.insertionSort layoutLe jmap.fields) 0).2))
        opts.big_endian jmap.entries.length jmap.fields.length
        (0x10 + jmap.fields.length * 0x0C)
        (align4 (assignOffsets (List.insertionSort layoutLe jmap.fields) 0).2)) off0 := by
    intro off0 hoff
    apply readU32_congr
    intro i h1 h2
    rw [hBdir i (by omega), data_writeFieldsLoop_out _ _ _ _ i (Or.inl (by omega))]
  have hB0 : readU32 opts.big_endian (mkFinal st') 0 = jmap.entries.length := by
    rw [hcongHdr 0 (by omega)]
    exact hhdr.1
  have hB4 : readU32 opts.big_endian (mkFinal st') 4 = jmap.fields.length := by
    rw [hcongHdr 4 (by omega)]
    exact hhdr.2.1
  have hB8 : readU32 opts.big_endian (mkFinal st') 8 =
      0x10 + jmap.fields.length * 0x0C := by
    rw [hcongHdr 8 (by omega)]
    exact hhdr.2.2.1
  have hB12 : readU32 opts.big_endian (mkFinal st') 12 =
      align4 (assignOffsets (List.insertionSort layoutLe jmap.fields) 0).2 := by
    rw [hcongHdr 12 (by omega)]
    exact hhdr.2.2.2
  have hbounds := FWO_mem_bounds (List.insertionSort layoutLe jmap.fields) hndS hsumS
    (fun p hp => hhb p (hperm.mem_iff.mp hp))
    (fun p hp => hmaskd p (hperm.mem_iff.mp hp))
  have hBsz16 : 0x10 + jmap.fields.length * 0x0C +
      jmap.entries.length * align4 (assignOffsets (List.insertionSort layoutLe jmap.fields) 0).2
      ≤ (mkFinal st').size := by
    rw [← hsize2]
    omega
  have hRF : readFieldsLoop (mkFinal st') opts.big_endian
      (assignOffsets (List.insertionSort layoutLe jmap.fields) 0).1.length (16 + 12 * 0) [] =
      some (.ok ([] ++ (assignOffsets (List.insertionSort layoutLe jmap.fields) 0).1.map
        decodedPair)) := by
    apply readFieldsLoop_spec
    · intro j hj
      have hjn : j < jmap.fields.length := by rw [← hFWOlen]; exact hj
      obtain ⟨r1, r2, r3, r4, r5⟩ := writeFieldsLoop_record opts.big_endian
        (assignOffsets (List.insertionSort layoutLe jmap.fields) 0).1 0x10
        (writeHeader (Buffer.zeros (0x10 + jmap.fields.length * 0x0C +
            jmap.entries.length *
              align4 (assignOffsets (List.insertionSort layoutLe jmap.fields) 0).2))
          opts.big_endian jmap.entries.length jmap.fields.length
          (0x10 + jmap.fields.length * 0x0C)
          (align4 (assignOffsets (List.insertionSort layoutLe jmap.fields) 0).2))
        j hj hbounds
      have hup : 0x10 + 12 * j + 12 ≤ 0x10 + jmap.fields.length * 0x0C := by omega
      refine ⟨by omega, ?_, ?_, ?_, ?_, ?_⟩
      · rw [show 16 + 12 * (0 + j) = 0x10 + 12 * j from by ring,
          readU32_congr _ _ _ _ (fun i h1 h2 => hBdir i (by omega))]
        exact r1
      · rw [show 16 + 12 * (0 + j) + 4 = 0x10 + 12 * j + 4 from by ring,
          readU32_congr _ _ _ _ (fun i h1 h2 => hBdir i (by omega))]
        exact r2
      · rw [show 16 + 12 * (0 + j) + 8 = 0x10 + 12 * j + 8 from by ring,
          readU16_congr _ _ _ _ (fun i h1 h2 => hBdir i (by omega))]
        exact r3
      · rw [show 16 + 12 * (0 + j) + 0xA = 0x10 + 12 * j + 0xA from by ring,
          hBdir _ (by omega)]
        exact r4
      · rw [show 16 + 12 * (0 + j) + 0xB = 0x10 + 12 * j + 0xB from by ring,
          hBdir _ (by omega)]
        exact r5
    · intro j hj
      simp
    · exact hndFWO
  rw [hFWOlen, show (16 + 12 * 0 : Nat) = 0x10 from by norm_num, List.nil_append] at hRF
  have hslotB : ∀ k e, jmap.entries[k]? = some e → ∀ p ∈ e.data, ∀ f,
      lookupVal (assignOffsets (List.insertionSort layoutLe jmap.fields) 0).1 p.1 = some f →
      slotHolds opts (mkFinal st')
        (0x10 + jmap.fields.length * 0x0C +
          k * align4 (assignOffsets (List.insertionSort layoutLe jmap.fields) 0).2 + f.offset)
        f p.2 st'.string_offsets := by
    intro k e hk p hp f hf
    have hkne : k < jmap.entries.length := by
      by_contra hcon
      push_neg at hcon
      rw [List.getElem?_eq_none hcon] at hk
      exact absurd hk (by simp)
    have hmul : k * align4 (assignOffsets (List.insertionSort layoutLe jmap.fields) 0).2 +
        align4 (assignOffsets (List.insertionSort layoutLe jmap.fields) 0).2 ≤
        jmap.entries.length *
          align4 (assignOffsets (List.insertionSort layoutLe jmap.fields) 0).2 := by
      have h1 := Nat.mul_le_mul_right
        (align4 (assignOffsets (List.insertionSort layoutLe jmap.fields) 0).2)
        (Nat.succ_le_of_lt hkne)
      rw [Nat.succ_mul] at h1
      exact h1
    refine slotHolds_congr opts st'.buffer (mkFinal st') _ f p.2
      st'.string_offsets st'.string_offsets ?_ ⟨[], by simp⟩ (hslots2 k e hk p hp f hf)
    intro i h1 h2
    apply hBlow
    rw [hsize2]
    have hr := hrangeL p.1 f hf
    omega
  have hMnd : ((((assignOffsets (List.insertionSort layoutLe jmap.fields) 0).1).map
      decodedPair).map (·.1)).Nodup := by
    rw [decodedPair_keys]
    exact hndFWO
  have hσoB : ∀ qr ∈ st'.string_offsets, qr.2 < 4294967296 := by
    intro qr hqr
    have h1 : qr.2 + qr.1.length + 1 ≤ st'.string_table.length := (hPW qr hqr).1
    omega
  have hpoolB : ∀ qr ∈ st'.string_offsets,
      (0x10 + jmap.fields.length * 0x0C +
        jmap.entries.length *
          align4 (assignOffsets (List.insertionSort layoutLe jmap.fields) 0).2) + qr.2 +
        qr.1.length + 1 ≤ (mkFinal st').size ∧
      (∀ j2, j2 < qr.1.length →
        (mkFinal st').data ((0x10 + jmap.fields.length * 0x0C +
          jmap.entries.length *
            align4 (assignOffsets (List.insertionSort layoutLe jmap.fields) 0).2) + qr.2 + j2) =
          qr.1.getD j2 0) ∧
      (mkFinal st').data ((0x10 + jmap.fields.length * 0x0C +
        jmap.entries.length *
          align4 (assignOffsets (List.insertionSort layoutLe jmap.fields) 0).2) + qr.2 +
        qr.1.length) = 0 := by
    intro qr hqr
    obtain ⟨hqb0, hqbytes0, hqterm0⟩ := hPW qr hqr
    have hqb : qr.2 + qr.1.length + 1 ≤ st'.string_table.length := hqb0
    have hqbytes : ∀ j, j < qr.1.length →
        st'.string_table.getD (qr.2 + j) 0 = qr.1.getD j 0 := hqbytes0
    have hqterm : st'.string_table.getD (qr.2 + qr.1.length) 0 = 0 := hqterm0
    refine ⟨by omega, ?_, ?_⟩
    · intro j2 hj2
      have hb2 := hBpool (qr.2 + j2) (by omega)
      rw [show (0x10 + jmap.fields.length * 0x0C +
          jmap.entries.length *
            align4 (assignOffsets (List.insertionSort layoutLe jmap.fields) 0).2) + qr.2 + j2 =
          st'.buffer.size + (qr.2 + j2) from by rw [hsize2]; ring, hb2]
      exact hqbytes j2 hj2
    · have hb2 := hBpool (qr.2 + qr.1.length) (by omega)
      rw [show (0x10 + jmap.fields.length * 0x0C +
          jmap.entries.length *
            align4 (assignOffsets (List.insertionSort layoutLe jmap.fields) 0).2) + qr.2 +
          qr.1.length = st'.buffer.size + (qr.2 + qr.1.length) from by rw [hsize2]; ring, hb2]
      exact hqterm
  have hrowE : ∀ k, k < jmap.entries.length →
      readEntryFields (mkFinal st')
        (0x10 + jmap.fields.length * 0x0C +
          k * align4 (assignOffsets (List.insertionSort layoutLe jmap.fields) 0).2)
        (0x10 + jmap.fields.length * 0x0C +
          jmap.entries.length *
            align4 (assignOffsets (List.insertionSort layoutLe jmap.fields) 0).2)
        opts ((assignOffsets (List.insertionSort layoutLe jmap.fields) 0).1.map decodedPair)
        Entry.new =
      some (.ok ⟨((assignOffsets (List.insertionSort layoutLe jmap.fields) 0).1.map
          decodedPair).map (fun q => (q.1, truncateValue q.2.field_type
            ((lookupVal (jmap.entries.getD k Entry.new).data q.1).getD
              (FieldValue.default_for q.2.field_type))))⟩) := by
    intro k hkne
    have hkel : jmap.entries[k]? = some (jmap.entries.getD k Entry.new) := by
      rw [List.getElem?_eq_getElem hkne, List.getD_eq_getElem _ _ hkne]
    have hemem : jmap.entries.getD k Entry.new ∈ jmap.entries := by
      rw [List.getD_eq_getElem _ _ hkne]
      exact List.get_mem _ _ _
    have hekeys := hkeysE _ hemem
    have hndE : ((jmap.entries.getD k Entry.new).data.map (·.1)).Nodup := by
      rw [hekeys]
      exact hndf
    have hres := readEntryFields_spec (mkFinal st')
      (0x10 + jmap.fields.length * 0x0C +
        k * align4 (assignOffsets (List.insertionSort layoutLe jmap.fields) 0).2)
      (0x10 + jmap.fields.length * 0x0C +
        jmap.entries.length *
          align4 (assignOffsets (List.insertionSort layoutLe jmap.fields) 0).2)
      opts
      (fun q => truncateValue q.2.field_type
        ((lookupVal (jmap.entries.getD k Entry.new).data q.1).getD
          (FieldValue.default_for q.2.field_type)))
      ((assignOffsets (List.insertionSort layoutLe jmap.fields) 0).1.map decodedPair)
      Entry.new
      ?_ ?_ (fun q hq => by simp [Entry.new]) hMnd
    · simpa using hres
    · intro q hq
      obtain ⟨pq, hpq, rfl⟩ := List.mem_map.mp hq
      obtain ⟨jf, hjf⟩ := List.get_of_mem hpq
      have hlookF : lookupVal (assignOffsets (List.insertionSort layoutLe jmap.fields) 0).1
          pq.1 = some pq.2 := by
        have h1 := lookupVal_getElem _ hndFWO jf.1 jf.2
        rw [show ((assignOffsets (List.insertionSort layoutLe jmap.fields) 0).1.get
          ⟨jf.1, jf.2⟩) = (assignOffsets (List.insertionSort layoutLe jmap.fields) 0).1.get jf
          from rfl, hjf] at h1
        exact h1
      have hkeyin : pq.1 ∈ (jmap.entries.getD k Entry.new).data.map (·.1) := by
        rw [hekeys]
        have h1 : pq.1 ∈ (assignOffsets (List.insertionSort layoutLe jmap.fields) 0).1.map
            (·.1) := List.mem_map.mpr ⟨pq, hpq, rfl⟩
        rw [assignOffsets_keys] at h1
        exact (hperm.map (·.1)).mem_iff.mp h1
      obtain ⟨pe, hpe, hpe1⟩ := List.mem_map.mp hkeyin
      have hlookE : lookupVal (jmap.entries.getD k Entry.new).data pq.1 = some pe.2 := by
        have h1 := lookupVal_of_mem _ pe hndE hpe
        rw [hpe1] at h1
        exact h1
      have hslot := hslotB k _ hkel pe hpe pq.2 (by rw [hpe1]; exact hlookF)
      obtain ⟨g, hgl, hgf⟩ := hFWOg pq.1 pq.2 hlookF
      have hgft : pq.2.field_type = g.field_type := by rw [hgf]
      have hrd := read_slot_value opts (mkFinal st')
        (0x10 + jmap.fields.length * 0x0C +
          k * align4 (assignOffsets (List.insertionSort layoutLe jmap.fields) 0).2 + pq.2.offset)
        (0x10 + jmap.fields.length * 0x0C +
          jmap.entries.length *
            align4 (assignOffsets (List.insertionSort layoutLe jmap.fields) 0).2)
        pq.2 (decodedPair pq).2 pe.2 st'.string_offsets
        rfl ((hwfL pq.1 pq.2 hlookF).1) ((hwfL pq.1 pq.2 hlookF).2) hslot
        ?_ ?_ hpoolB hσoB
      · have hval : (lookupVal (jmap.entries.getD k Entry.new).data (decodedPair pq).1).getD
            (FieldValue.default_for (decodedPair pq).2.field_type) = pe.2 := by
          rw [show (decodedPair pq).1 = pq.1 from rfl, hlookE]
          rfl
        show read_field_value (mkFinal st') _ _ (decodedPair pq).2 opts =
          some (Except.ok (truncateValue (decodedPair pq).2.field_type
            ((lookupVal (jmap.entries.getD k Entry.new).data (decodedPair pq).1).getD
              (FieldValue.default_for (decodedPair pq).2.field_type))))
        rw [hval]
        exact hrd
      · have hr := hrangeL pq.1 pq.2 hlookF
        have hmul : k * align4 (assignOffsets (List.insertionSort layoutLe jmap.fields) 0).2 +
            align4 (assignOffsets (List.insertionSort layoutLe jmap.fields) 0).2 ≤
            jmap.entries.length *
              align4 (assignOffsets (List.insertionSort layoutLe jmap.fields) 0).2 := by
          have h1 := Nat.mul_le_mul_right
            (align4 (assignOffsets (List.insertionSort layoutLe jmap.fields) 0).2)
            (Nat.succ_le_of_lt hkne)
          rw [Nat.succ_mul] at h1
          exact h1
        omega
      · intro s hs
        obtain ⟨hnul, hlen32⟩ := htextE _ hemem pe hpe s hs
        refine ⟨hnul, ?_⟩
        intro hftS
        exact hlen32 g (by rw [← hpe1] at hgl; exact hgl) (by rw [← hgft]; exact hftS)
    · intro q hq
      obtain ⟨pq, hpq, rfl⟩ := List.mem_map.mp hq
      rfl
  have hloopRows := readEntriesLoop_spec (mkFinal st')
    (0x10 + jmap.fields.length * 0x0C +
      jmap.entries.length *
        align4 (assignOffsets (List.insertionSort layoutLe jmap.fields) 0).2)
    ((assignOffsets (List.insertionSort layoutLe jmap.fields) 0).1.map decodedPair) opts
    (align4 (assignOffsets (List.insertionSort layoutLe jmap.fields) 0).2)
    jmap.entries.length
    (fun k => ⟨((assignOffsets (List.insertionSort layoutLe jmap.fields) 0).1.map
      decodedPair).map (fun q => (q.1, truncateValue q.2.field_type
        ((lookupVal (jmap.entries.getD k Entry.new).data q.1).getD
          (FieldValue.default_for q.2.field_type))))⟩)
    (0x10 + jmap.fields.length * 0x0C) []
    (fun k hk => hrowE k hk)
  have hfrom : from_buffer (mkFinal st') opts = some (.ok
      ⟨(assignOffsets (List.insertionSort layoutLe jmap.fields) 0).1.map decodedPair,
       (List.range jmap.entries.length).map (fun k =>
         ⟨((assignOffsets (List.insertionSort layoutLe jmap.fields) 0).1.map
           decodedPair).map (fun q => (q.1, truncateValue q.2.field_type
             ((lookupVal (jmap.entries.getD k Entry.new).data q.1).getD
               (FieldValue.default_for q.2.field_type))))⟩),
       align4 (assignOffsets (List.insertionSort layoutLe jmap.fields) 0).2⟩) := by
    simp only [from_buffer]
    rw [if_neg (by omega)]
    rw [hB0, hB4, hB8, hB12, hRF]
    show (match readEntriesLoop (mkFinal st')
        (0x10 + jmap.fields.length * 0x0C +
          jmap.entries.length *
            align4 (assignOffsets (List.insertionSort layoutLe jmap.fields) 0).2)
        ((assignOffsets (List.insertionSort layoutLe jmap.fields) 0).1.map decodedPair) opts
        (align4 (assignOffsets (List.insertionSort layoutLe jmap.fields) 0).2)
        jmap.entries.length (0x10 + jmap.fields.length * 0x0C) [] with
      | none => none
      | some (Except.error e) => some (Except.error e)
      | some (Except.ok entries) => some (Except.ok
          (⟨(assignOffsets (List.insertionSort layoutLe jmap.fields) 0).1.map decodedPair,
            entries,
            align4 (assignOffsets (List.insertionSort layoutLe jmap.fields) 0).2⟩ :
            JMapInfo))) = _
    rw [hloopRows]
    rw [List.nil_append]
  refine ⟨mkFinal st', _, hto, hfrom, ?_, ?_, ?_, ?_, ?_⟩
  · show align4 (assignOffsets (List.insertionSort layoutLe jmap.fields) 0).2 =
      (JMapInfo.recalculate_offsets jmap).entry_size
    unfold JMapInfo.recalculate_offsets
    simp only [recalcLoop_total]
  · show ((assignOffsets (List.insertionSort layoutLe jmap.fields) 0).1.map
      decodedPair).length = jmap.fields.length
    rw [List.length_map, hFWOlen]
  · intro h f hf
    obtain ⟨jf, hjf⟩ := List.get_of_mem (hperm.mem_iff.mpr (mem_of_lookupVal _ _ _ hf))
    have hintro := FWO_intro (List.insertionSort layoutLe jmap.fields) hndS hsumS jf.1 jf.2
    rw [show ((List.insertionSort layoutLe jmap.fields).get ⟨jf.1, jf.2⟩) =
      (List.insertionSort layoutLe jmap.fields).get jf from rfl, hjf] at hintro
    have hfh : f.hash = h := hhash (h, f) (mem_of_lookupVal _ _ _ hf)
    refine ⟨sumSizes ((List.insertionSort layoutLe jmap.fields).take jf.1), ?_, ?_⟩
    · have hrl := (recalcLoop_lookup (List.insertionSort layoutLe jmap.fields) 0
        jmap.fields hndS).2 h { f with offset := sumSizes ((List.insertionSort layoutLe jmap.fields).take jf.1) } hintro
      rw [hf] at hrl
      show lookupVal (JMapInfo.recalculate_offsets jmap).fields h = _
      unfold JMapInfo.recalculate_offsets
      simpa using hrl
    · rw [lookupVal_map_decodedPair, hintro]
      show some ((decodedPair (h, { f with offset := sumSizes ((List.insertionSort layoutLe jmap.fields).take jf.1) })).2) = _
      rw [show (decodedPair (h, { f with offset := sumSizes ((List.insertionSort layoutLe jmap.fields).take jf.1) })).2 =
          { f with offset := sumSizes ((List.insertionSort layoutLe jmap.fields).take jf.1), default := FieldValue.default_for f.field_type } from by
        rw [← hfh]
        rfl]
  · show ((List.range jmap.entries.length).map _).length = jmap.entries.length
    rw [List.length_map, List.length_range]
  · intro k e hk
    have hkne : k < jmap.entries.length := by
      by_contra hcon
      push_neg at hcon
      rw [List.getElem?_eq_none hcon] at hk
      exact absurd hk (by simp)
    have hgetD : jmap.entries.getD k Entry.new = e := by
      rw [List.getD_eq_getElem _ _ hkne]
      rw [List.getElem?_eq_getElem hkne] at hk
      exact Option.some.inj hk
    refine ⟨⟨((assignOffsets (List.insertionSort layoutLe jmap.fields) 0).1.map
      decodedPair).map (fun q => (q.1, truncateValue q.2.field_type
        ((lookupVal (jmap.entries.getD k Entry.new).data q.1).getD
          (FieldValue.default_for q.2.field_type))))⟩, ?_, ?_⟩
    · rw [List.getElem?_map, List.getElem?_range hkne]
      rfl
    · intro p hp f hf
      have hemem : e ∈ jmap.entries := List.getElem?_mem hk
      have hndE : (e.data.map (·.1)).Nodup := by
        rw [hkeysE e hemem]
        exact hndf
      have hlookE : lookupVal e.data p.1 = some p.2 := lookupVal_of_mem _ p hndE hp
      obtain ⟨jf, hjf⟩ := List.get_of_mem (hperm.mem_iff.mpr (mem_of_lookupVal _ _ _ hf))
      have hintro := FWO_intro (List.insertionSort layoutLe jmap.fields) hndS hsumS jf.1 jf.2
      rw [show ((List.insertionSort layoutLe jmap.fields).get ⟨jf.1, jf.2⟩) =
        (List.insertionSort layoutLe jmap.fields).get jf from rfl, hjf] at hintro
      show lookupVal (((assignOffsets (List.insertionSort layoutLe jmap.fields) 0).1.map
        decodedPair).map (fun q => (q.1, truncateValue q.2.field_type
          ((lookupVal (jmap.entries.getD k Entry.new).data q.1).getD
            (FieldValue.default_for q.2.field_type))))) p.1 = _
      rw [lookupVal_map_withKey]
      have hlookM : lookupVal ((assignOffsets (List.insertionSort layoutLe jmap.fields) 0).1.map
          decodedPair) p.1 = some ((decodedPair (p.1, { f with offset := sumSizes ((List.insertionSort layoutLe jmap.fields).take jf.1) })).2) := by
        rw [lookupVal_map_decodedPair, hintro]
        rfl
      rcases hfm : ((assignOffsets (List.insertionSort layoutLe jmap.fields) 0).1.map
          decodedPair).find? (fun q => q.1 == p.1) with - | pf
      · unfold lookupVal at hlookM
        rw [hfm] at hlookM
        exact absurd hlookM (by simp)
      · have hpf1 : pf.1 = p.1 := by simpa using List.find?_some hfm
        have hpf2 : pf.2 = (decodedPair (p.1, { f with offset := sumSizes ((List.insertionSort layoutLe jmap.fields).take jf.1) })).2 := by
          unfold lookupVal at hlookM
          rw [hfm] at hlookM
          simpa using hlookM
        rw [hfm]
        show some (truncateValue pf.2.field_type
          ((lookupVal (jmap.entries.getD k Entry.new).data pf.1).getD
            (FieldValue.default_for pf.2.field_type))) = _
        rw [hgetD, hpf1, hlookE, hpf2]
        rfl

/-- Witness for C1 at a concrete container: no fields, one (empty) row. -/
theorem encode_decode_roundtrip_witness :
    ∃ buf jm2, to_buffer (JMapInfo.mk [] [⟨[]⟩] 0) IoOptions.standard = some (.ok buf) ∧
      from_buffer buf IoOptions.standard = some (.ok jm2) ∧
      jm2.entry_size = (JMapInfo.mk [] [⟨[]⟩] 0).recalculate_offsets.entry_size ∧
      jm2.fields.length = (JMapInfo.mk [] [⟨[]⟩] 0).fields.length ∧
      (∀ h f, lookupVal (JMapInfo.mk [] [⟨[]⟩] 0).fields h = some f →
        ∃ o2, lookupVal (JMapInfo.mk [] [⟨[]⟩] 0).recalculate_offsets.fields h =
            some { f with offset := o2 } ∧
          lookupVal jm2.fields h = some { f with offset := o2, default := FieldValue.default_for f.field_type }) ∧
      jm2.entries.length = (JMapInfo.mk [] [⟨[]⟩] 0).entries.length ∧
      (∀ (k : Nat) (e : Entry), (JMapInfo.mk [] [⟨[]⟩] 0).entries[k]? = some e →
        ∃ e2 : Entry, jm2.entries[k]? = some e2 ∧
        ∀ p ∈ e.data, ∀ f, lookupVal (JMapInfo.mk [] [⟨[]⟩] 0).fields p.1 = some f →
          e2.get_by_hash p.1 = some (truncateValue f.field_type p.2)) :=
  encode_decode_roundtrip (JMapInfo.mk [] [⟨[]⟩] 0) IoOptions.standard
    (by decide) (by decide) (by decide) (by decide) (by decide) (by decide)
    (by decide) (by decide) (by decide) (by decide) (by decide)
    (fun e he p hp f hf => by
      simp at he
      subst he
      simp at hp)
    (fun e he p hp s hs => by
      simp at he
      subst he
      simp at hp)

/-- C1 counterexample to the claim as stated: a container built purely
from the public primitives (`create_field` with a 33-byte inline-text
default, then `create_entry`) holds only a type-compatible value, yet the
decode of its encoding returns the value truncated to 32 bytes — a change
not covered by the claim's integer truncation allowance. -/
theorem inline_text_truncation_cex :
    ∃ c buf jm2 e e2,
      (JMapInfo.new.create_field [110] FieldType.String
          (FieldValue.String (List.replicate 33 97))).map JMapInfo.create_entry =
        Except.ok c ∧
      to_buffer c IoOptions.standard = some (.ok buf) ∧
      from_buffer buf IoOptions.standard = some (.ok jm2) ∧
      c.entries = [e] ∧ jm2.entries = [e2] ∧
      e.get_by_hash (calc_hash [110]) = some (.String (List.replicate 33 97)) ∧
      e2.get_by_hash (calc_hash [110]) = some (.String (List.replicate 32 97)) ∧
      FieldValue.String (List.replicate 32 97) ≠ FieldValue.String (List.replicate 33 97) := by
  exact ⟨_, _, _, _, _, rfl, rfl, rfl, rfl, rfl, rfl, rfl, by decide⟩

/-! ## Claim C9: values under undeclared hashes are excluded from encoding -/

theorem writeEntryPairs_skip_append (R : Nat) (L : Nat → Option Field) (opts : IoOptions)
    (h : Nat) (v : FieldValue) (hL : L h = none) :
    ∀ (pairs : List (Nat × FieldValue)) (st : EncState),
      writeEntryPairs R L opts (pairs ++ [(h, v)]) st = writeEntryPairs R L opts pairs st := by
  intro pairs
  induction pairs with
  | nil =>
    intro st
    show writeEntryPairs R L opts [(h, v)] st = _
    simp only [writeEntryPairs, hL]
  | cons p rest ih =>
    obtain ⟨ph, pv⟩ := p
    intro st
    rw [List.cons_append]
    rcases hLp : L ph with - | f
    · simp only [writeEntryPairs, hLp]
      exact ih st
    · simp only [writeEntryPairs, hLp]
      rcases hw : write_field_value (R + f.offset) pv f st opts with e | st2
      · rfl
      · exact ih st2

theorem writeEntryPairs_skip_replace (R : Nat) (L : Nat → Option Field) (opts : IoOptions)
    (h : Nat) (v : FieldValue) (hL : L h = none) :
    ∀ (pairs : List (Nat × FieldValue)) (st : EncState),
      writeEntryPairs R L opts (pairs.map (fun p => if p.1 == h then (h, v) else p)) st =
        writeEntryPairs R L opts pairs st := by
  intro pairs
  induction pairs with
  | nil => intro st; rfl
  | cons p rest ih =>
    obtain ⟨ph, pv⟩ := p
    intro st
    rw [List.map_cons]
    by_cases hp : ph = h
    · rw [show (if (ph, pv).1 == h then (h, v) else (ph, pv)) = (h, v) from by simp [hp]]
      have hLp : L ph = none := by rw [hp]; exact hL
      simp only [writeEntryPairs, hL, hLp]
      exact ih st
    · rw [show (if (ph, pv).1 == h then (h, v) else (ph, pv)) = (ph, pv) from by simp [hp]]
      rcases hLp : L ph with - | f
      · simp only [writeEntryPairs, hLp]
        exact ih st
      · simp only [writeEntryPairs, hLp]
        rcases hw : write_field_value (R + f.offset) pv f st opts with e | st2
        · rfl
        · exact ih st2

theorem write_entry_set_unknown (off : Nat) (e : Entry) (h : Nat) (v : FieldValue)
    (L : Nat → Option Field) (opts : IoOptions) (st : EncState) (hL : L h = none) :
    write_entry off (e.set_by_hash h v) L opts st = write_entry off e L opts st := by
  unfold write_entry Entry.set_by_hash indexInsert
  by_cases hc : e.data.any (fun p => p.1 == h)
  · rw [if_pos hc]
    exact writeEntryPairs_skip_replace off L opts h v hL e.data st
  · rw [if_neg hc]
    exact writeEntryPairs_skip_append off L opts h v hL e.data st

theorem writeEntriesLoop_modify_unknown (L : Nat → Option Field) (opts : IoOptions)
    (esz h : Nat) (v : FieldValue) (hL : L h = none) :
    ∀ (es : List Entry) (i off : Nat) (st : EncState),
      writeEntriesLoop L opts esz (es.modify (fun e => e.set_by_hash h v) i) off st =
        writeEntriesLoop L opts esz es off st := by
  intro es
  induction es with
  | nil => intro i off st; rw [List.modify_nil]
  | cons e rest ih =>
    intro i off st
    cases i with
    | zero =>
      show writeEntriesLoop L opts esz (e.set_by_hash h v :: rest) off st = _
      simp only [writeEntriesLoop, write_entry_set_unknown off e h v L opts st hL]
    | succ i =>
      show writeEntriesLoop L opts esz
        (e :: rest.modify (fun e2 => e2.set_by_hash h v) i) off st = _
      simp only [writeEntriesLoop]
      rcases hw : write_entry off e L opts st with er | st2
      · rfl
      · exact ih i (off + esz) st2

/-- C9: setting a row value under a hash that no field of the directory
declares leaves the encoded output unchanged: the encoder looks every row
pair up in the field directory, silently skips unknown hashes, reports no
error, and produces the byte buffer of the container without that value. -/
theorem unknown_hash_value_excluded (jmap : JMapInfo) (i h : Nat) (v : FieldValue)
    (opts : IoOptions) (hfresh : h ∉ jmap.fields.map (fun p => p.2.hash)) :
    to_buffer (jmap.setEntryValueByHash i h v) opts = to_buffer jmap opts := by
  rcases hA : assignOffsets (List.insertionSort layoutLe
      (jmap.fields.map (fun p => (p.2.hash, p.2)))) 0 with ⟨FWO, CUR⟩
  have hFWO : (assignOffsets (List.insertionSort layoutLe
      (jmap.fields.map (fun p => (p.2.hash, p.2)))) 0).1 = FWO := by rw [hA]
  have hL : lookupVal FWO h = none := by
    apply lookupVal_eq_none_of_not_mem
    rw [← hFWO, assignOffsets_keys]
    intro hc
    apply hfresh
    have hperm := (List.perm_insertionSort layoutLe
      (jmap.fields.map (fun p => (p.2.hash, p.2)))).map (·.1)
    have hc2 := hperm.mem_iff.mp hc
    simpa using hc2
  show to_buffer ⟨jmap.fields, jmap.entries.modify (fun e => e.set_by_hash h v) i,
    jmap.entry_size⟩ opts = _
  simp only [to_buffer, JMapInfo.len, JMapInfo.num_fields, hA, List.length_modify]
  rw [writeEntriesLoop_modify_unknown _ opts _ h v hL jmap.entries i]

/-- Witness for C9: adding a value under the undeclared hash 5 to the row
of a one-field container leaves the encoding unchanged. -/
theorem unknown_hash_value_excluded_witness :
    (5 : Nat) ∉ [(1, Field.new 1 .Long)].map (fun p : Nat × Field => p.2.hash) ∧
    to_buffer ((JMapInfo.mk [(1, Field.new 1 .Long)] [⟨[(1, FieldValue.Int 7)]⟩] 4).setEntryValueByHash
        0 5 (.Int 9)) IoOptions.standard =
      to_buffer (JMapInfo.mk [(1, Field.new 1 .Long)] [⟨[(1, FieldValue.Int 7)]⟩] 4)
        IoOptions.standard :=
  ⟨by decide, unknown_hash_value_excluded
    (JMapInfo.mk [(1, Field.new 1 .Long)] [⟨[(1, FieldValue.Int 7)]⟩] 4) 0 5 (.Int 9)
    IoOptions.standard (by decide)⟩

/-! ## Claim C6: string pool deduplication -/

/-- C6: in a single encode pass indirect text is deduplicated by exact
text: a one-indirect-text-field container with two rows encodes, and when
the two rows hold the same string the pool (the bytes after the rows)
holds exactly one copy of it plus a single null terminator and both rows
hold the same 4-byte offset 0; when they differ, the pool holds the two
distinct entries in row order and the rows hold the two distinct offsets
0 and `s1.length + 1`. -/
theorem string_pool_dedup (h : Nat) (s1 s2 : List Nat) (be : Bool)
    (hlen1 : s1.length + 1 < 4294967296) :
    ∃ buf, to_buffer (JMapInfo.mk [(h, Field.new h .StringOffset)]
        [⟨[(h, FieldValue.String s1)]⟩, ⟨[(h, FieldValue.String s2)]⟩] 0) ⟨be, .Utf8⟩ =
        some (.ok buf) ∧
      (s1 = s2 →
        buf.size = align32 (36 + (s1.length + 1)) ∧
        (∀ i, i < s1.length + 1 → buf.data (36 + i) = (s1 ++ [0]).getD i 0) ∧
        readU32 be buf 28 = 0 ∧ readU32 be buf 32 = 0) ∧
      (s1 ≠ s2 →
        buf.size = align32 (36 + (s1.length + 1) + (s2.length + 1)) ∧
        (∀ i, i < s1.length + 1 + (s2.length + 1) →
          buf.data (36 + i) = (s1 ++ [0] ++ s2 ++ [0]).getD i 0) ∧
        readU32 be buf 28 = 0 ∧ readU32 be buf 32 = s1.length + 1 ∧
        s1.length + 1 ≠ 0) := by
  have hLh : lookupVal (assignOffsets (List.insertionSort layoutLe
      [(h, Field.new h .StringOffset)]) 0).1 h = some (Field.new h .StringOffset) := by
    rw [show (assignOffsets (List.insertionSort layoutLe [(h, Field.new h .StringOffset)]) 0).1 =
      [(h, Field.new h .StringOffset)] from rfl, lookupVal_cons, if_pos rfl]
  obtain ⟨st', hto, hpool2, hsize2, hframe2, hslots2⟩ :=
    encode_spec (JMapInfo.mk [(h, Field.new h .StringOffset)]
        [⟨[(h, FieldValue.String s1)]⟩, ⟨[(h, FieldValue.String s2)]⟩] 0) ⟨be, .Utf8⟩
      (by simp) (by intro p hp; simp at hp; subst hp; rfl)
      (by intro p hp; simp at hp; subst hp; rfl)
      (by intro p hp; simp at hp; subst hp; rfl)
      (by rw [show sumSizes [(h, Field.new h .StringOffset)] = 4 from rfl]; omega)
      (by norm_num) (by norm_num)
      (by show (0x10 : Nat) + 1 * 0x0C + 2 * align4 4 < 4294967296; decide)
      (by
        intro e he
        have he2 : e = (⟨[(h, FieldValue.String s1)]⟩ : Entry) ∨
            e = (⟨[(h, FieldValue.String s2)]⟩ : Entry) := by simpa using he
        have key : ∀ s0 : List Nat, e = (⟨[(h, FieldValue.String s0)]⟩ : Entry) →
            (e.data.map (·.1)).Nodup ∧
            (∀ p ∈ e.data, ∀ f,
              lookupVal (assignOffsets (List.insertionSort layoutLe
                [(h, Field.new h FieldType.StringOffset)]) 0).1 p.1 = some f →
              p.2.is_compatible_with f.field_type = true ∧
              (∀ s, p.2 = FieldValue.String s → f.field_type = FieldType.String →
                s.length ≤ 32)) := by
          intro s0 he0
          subst he0
          refine ⟨by simp, ?_⟩
          intro p hp f hf
          have hp2 : p = (h, FieldValue.String s0) := by simpa using hp
          subst hp2
          have hf2 : lookupVal (assignOffsets (List.insertionSort layoutLe
              [(h, Field.new h FieldType.StringOffset)]) 0).1 h = some f := hf
          rw [hLh] at hf2
          have hff : f = Field.new h FieldType.StringOffset := by
            injection hf2 with hf3
            rw [← hf3]
          subst hff
          exact ⟨rfl, fun s hs hcon => by simp [Field.new] at hcon⟩
        rcases he2 with he2 | he2
        · exact key s1 he2
        · exact key s2 he2)
  have hESZ : align4 (assignOffsets (List.insertionSort layoutLe
      (JMapInfo.mk [(h, Field.new h .StringOffset)]
        [⟨[(h, FieldValue.String s1)]⟩, ⟨[(h, FieldValue.String s2)]⟩] 0).fields) 0).2 = 4 := by
    show align4 4 = 4
    decide
  have hbase : st'.buffer.size = 36 := by
    rw [hsize2, hESZ]
    rfl
  have hBlow : ∀ i, i < 36 → (mkFinal st').data i = st'.buffer.data i := by
    intro i hi
    unfold mkFinal
    rw [Buffer.data_resizeFill_lt _ _ _ _ (by simp; omega),
      Buffer.data_append_lt _ _ _ (by omega)]
  have hBpool : ∀ u, u < st'.string_table.length →
      (mkFinal st').data (36 + u) = st'.string_table.getD u 0 := by
    intro u hu
    unfold mkFinal
    rw [show (36 : Nat) + u = st'.buffer.size + u from by rw [hbase],
      Buffer.data_resizeFill_lt _ _ _ _ (by simp; omega),
      Buffer.data_append_ge _ _ _ (by omega)]
    congr 1
    omega
  have hBsz : (mkFinal st').size = align32 (36 + st'.string_table.length) := by
    show align32 ((st'.buffer.append st'.string_table).size) = _
    rw [Buffer.size_append, hbase]
  -- the two slots
  have hslot1 := hslots2 0 ⟨[(h, FieldValue.String s1)]⟩ rfl (h, FieldValue.String s1)
    (by simp) (Field.new h .StringOffset) hLh
  have hslot2 := hslots2 1 ⟨[(h, FieldValue.String s2)]⟩ rfl (h, FieldValue.String s2)
    (by simp) (Field.new h .StringOffset) hLh
  obtain ⟨o1, hfind1, hread1⟩ := hslot1
  obtain ⟨o2, hfind2, hread2⟩ := hslot2
  have hFL : (JMapInfo.mk [(h, Field.new h .StringOffset)]
      [⟨[(h, FieldValue.String s1)]⟩, ⟨[(h, FieldValue.String s2)]⟩] 0).fields.length = 1 := rfl
  have hFO : (Field.new h .StringOffset).offset = 0 := rfl
  rw [hESZ, hFL, hFO] at hread1 hread2
  rw [show (0x10 + 1 * 0x0C + 0 * 4 + 0 : Nat) = 28 from by norm_num] at hread1
  rw [show (0x10 + 1 * 0x0C + 1 * 4 + 0 : Nat) = 32 from by norm_num] at hread2
  have hread1B : readU32 be (mkFinal st') 28 = o1 % 4294967296 := by
    rw [readU32_congr be (mkFinal st') st'.buffer 28 (fun i hi1 hi2 => hBlow i (by omega))]
    exact hread1
  have hread2B : readU32 be (mkFinal st') 32 = o2 % 4294967296 := by
    rw [readU32_congr be (mkFinal st') st'.buffer 32 (fun i hi1 hi2 => hBlow i (by omega))]
    exact hread2
  have hFT : (Field.new h FieldType.StringOffset).field_type = FieldType.StringOffset := rfl
  refine ⟨mkFinal st', hto, ?_, ?_⟩
  · intro hs12
    subst hs12
    have hfold : (st'.string_table, st'.string_offsets) = (s1 ++ [0], [(s1, 0)]) := by
      rw [hpool2]
      show poolFoldPairs _ (poolFoldPairs _ ([], []) [(h, FieldValue.String s1)])
        [(h, FieldValue.String s1)] = _
      simp only [poolFoldPairs, List.foldl, poolStepValue, hLh, hFT]
      rw [List.find?_nil]
      simp only [List.nil_append]
      rw [List.find?_cons_of_pos _ (by simp)]
      rfl
    have hT : st'.string_table = s1 ++ [0] := congrArg Prod.fst hfold
    have hσ : st'.string_offsets = [(s1, 0)] := congrArg Prod.snd hfold
    rw [hσ] at hfind1 hfind2
    rw [List.find?_cons_of_pos _ (by simp)] at hfind1 hfind2
    have ho1 : o1 = 0 := by simpa using hfind1.symm
    have ho2 : o2 = 0 := by simpa using hfind2.symm
    refine ⟨?_, ?_, ?_, ?_⟩
    · rw [hBsz, hT]
      simp
    · intro i hi
      rw [hBpool i (by rw [hT]; simp; omega), hT]
    · rw [hread1B, ho1]
    · rw [hread2B, ho2]
  · intro hs12
    have hfold : (st'.string_table, st'.string_offsets) =
        (s1 ++ [0] ++ (s2 ++ [0]), [(s1, 0), (s2, s1.length + 1)]) := by
      rw [hpool2]
      show poolFoldPairs _ (poolFoldPairs _ ([], []) [(h, FieldValue.String s1)])
        [(h, FieldValue.String s2)] = _
      simp only [poolFoldPairs, List.foldl, poolStepValue, hLh, hFT]
      rw [List.find?_nil]
      simp only [List.nil_append]
      rw [List.find?_cons_of_neg _ (by simp [hs12]), List.find?_nil]
      simp
    have hT : st'.string_table = s1 ++ [0] ++ (s2 ++ [0]) := congrArg Prod.fst hfold
    have hσ : st'.string_offsets = [(s1, 0), (s2, s1.length + 1)] := congrArg Prod.snd hfold
    rw [hσ] at hfind1 hfind2
    rw [List.find?_cons_of_pos _ (by simp)] at hfind1
    rw [List.find?_cons_of_neg _ (by simp [hs12]),
      List.find?_cons_of_pos _ (by simp)] at hfind2
    have ho1 : o1 = 0 := by simpa using hfind1.symm
    have ho2 : o2 = s1.length + 1 := by simpa using hfind2.symm
    refine ⟨?_, ?_, ?_, ?_, by omega⟩
    · rw [hBsz, hT]
      simp
      ring_nf
    · intro i hi
      rw [hBpool i (by rw [hT]; simp; omega), hT]
      simp only [List.append_assoc]
    · rw [hread1B, ho1]
    · rw [hread2B, ho2, Nat.mod_eq_of_lt hlen1]

/-- Witness for C6 with the concrete strings "a" and "b" and hash 1. -/
theorem string_pool_dedup_witness :
    ([97].length + 1 < 4294967296) ∧
    (∃ buf, to_buffer (JMapInfo.mk [(1, Field.new 1 .StringOffset)]
        [⟨[(1, FieldValue.String [97])]⟩, ⟨[(1, FieldValue.String [98])]⟩] 0)
        ⟨true, .Utf8⟩ = some (.ok buf) ∧
      ([97] = [98] →
        buf.size = align32 (36 + ([97].length + 1)) ∧
        (∀ i, i < [97].length + 1 → buf.data (36 + i) = ([97] ++ [0]).getD i 0) ∧
        readU32 true buf 28 = 0 ∧ readU32 true buf 32 = 0) ∧
      ([97] ≠ [98] →
        buf.size = align32 (36 + ([97].length + 1) + ([98].length + 1)) ∧
        (∀ i, i < [97].length + 1 + ([98].length + 1) →
          buf.data (36 + i) = ([97] ++ [0] ++ [98] ++ [0]).getD i 0) ∧
        readU32 true buf 28 = 0 ∧ readU32 true buf 32 = [97].length + 1 ∧
        [97].length + 1 ≠ 0)) :=
  ⟨by decide, string_pool_dedup 1 [97] [98] true (by decide)⟩

/-! ## Claim C8: pool construction order -/

/-- Dedup-append of one text to a pool accumulator, as the specification
words it. -/
def specPoolInsert (acc : List Nat × List (List Nat × Nat)) (s : List Nat) :
    List Nat × List (List Nat × Nat) :=
  match acc.2.find? (fun r => r.1 == s) with
  | some _ => acc
  | none => (acc.1 ++ s ++ [0], acc.2 ++ [(s, acc.1.length)])

/-- One field-order step of the pool the specification describes: visit a
declared field, look the row value up, and dedup-append indirect text. -/
def specFieldOrderStep (e : Entry) (acc : List Nat × List (List Nat × Nat))
    (q : Nat × Field) : List Nat × List (List Nat × Nat) :=
  match q.2.field_type, lookupVal e.data q.1 with
  | .StringOffset, some (.String s) => specPoolInsert acc s
  | _, _ => acc

/-- The pool built the way the claim words it: row-major over the rows,
and within each row following the declared field order. -/
def specFieldOrderPool (fields : List (Nat × Field)) (entries : List Entry) :
    List Nat × List (List Nat × Nat) :=
  entries.foldl (fun acc e => fields.foldl (specFieldOrderStep e) acc) ([], [])

theorem specFold_congr (fl : List (Nat × Field)) (d1 d2 : List (Nat × FieldValue))
    (hlk : ∀ q ∈ fl, lookupVal d1 q.1 = lookupVal d2 q.1) :
    ∀ acc, fl.foldl (specFieldOrderStep ⟨d1⟩) acc = fl.foldl (specFieldOrderStep ⟨d2⟩) acc := by
  induction fl with
  | nil => intro acc; rfl
  | cons q rest ih =>
    intro acc
    show List.foldl _ (specFieldOrderStep ⟨d1⟩ acc q) rest = _
    rw [show specFieldOrderStep ⟨d1⟩ acc q = specFieldOrderStep ⟨d2⟩ acc q from by
      unfold specFieldOrderStep
      rw [show lookupVal (⟨d1⟩ : Entry).data q.1 = lookupVal (⟨d2⟩ : Entry).data q.1 from
        hlk q (List.mem_cons_self _ _)]]
    exact ih (fun p hp => hlk p (List.mem_cons_of_mem _ hp)) _

theorem specFold_eq_pairs (L : Nat → Option Field) :
    ∀ (fl : List (Nat × Field)) (data : List (Nat × FieldValue))
      (acc : List Nat × List (List Nat × Nat)),
      data.map (·.1) = fl.map (·.1) →
      (data.map (·.1)).Nodup →
      (∀ q ∈ fl, ∃ f, L q.1 = some f ∧ f.field_type = q.2.field_type) →
      fl.foldl (specFieldOrderStep ⟨data⟩) acc = poolFoldPairs L acc data := by
  intro fl
  induction fl with
  | nil =>
    intro data acc hkeys _ _
    have hdata : data = [] := by
      cases data with
      | nil => rfl
      | cons d t => exact absurd hkeys (by simp)
    subst hdata
    rfl
  | cons q rest ih =>
    intro data acc hkeys hnd hL
    cases data with
    | nil => exact absurd hkeys (by simp)
    | cons d drest =>
      rw [List.map_cons, List.map_cons] at hkeys
      have hboth : d.1 = q.1 ∧ drest.map (·.1) = rest.map (·.1) := by
        simpa using hkeys
      have hdq : d.1 = q.1 := hboth.1
      have htail : drest.map (·.1) = rest.map (·.1) := hboth.2
      rw [List.map_cons, List.nodup_cons] at hnd
      obtain ⟨fL, hfL, hft⟩ := hL q (List.mem_cons_self _ _)
      have hstep : specFieldOrderStep ⟨d :: drest⟩ acc q = poolStepValue L acc d := by
        unfold specFieldOrderStep poolStepValue
        rw [show lookupVal (⟨d :: drest⟩ : Entry).data q.1 = some d.2 from by
          show lookupVal (d :: drest) q.1 = some d.2
          rw [lookupVal_cons, if_pos hdq]]
        rw [hdq]
        simp only [hfL, hft]
        generalize q.2.field_type = ft
        rcases ft <;> rcases d.2 with n | b | s <;> rfl
      show List.foldl _ (specFieldOrderStep ⟨d :: drest⟩ acc q) rest = _
      rw [hstep]
      rw [specFold_congr rest (d :: drest) drest ?_ (poolStepValue L acc d)]
      · exact ih drest (poolStepValue L acc d) htail hnd.2
          (fun p hp => hL p (List.mem_cons_of_mem _ hp))
      · intro p hp
        show lookupVal (d :: drest) p.1 = lookupVal drest p.1
        rw [lookupVal_cons, if_neg ?_]
        intro hc
        apply hnd.1
        rw [hc]
        rw [htail]
        exact List.mem_map.mpr ⟨p, hp, rfl⟩

theorem specPool_eq_poolFoldEntries (L : Nat → Option Field) (fields : List (Nat × Field))
    (entries : List Entry)
    (horder : ∀ e ∈ entries, e.data.map (·.1) = fields.map (·.1))
    (hndf : (fields.map (·.1)).Nodup)
    (hL : ∀ q ∈ fields, ∃ f, L q.1 = some f ∧ f.field_type = q.2.field_type) :
    specFieldOrderPool fields entries = poolFoldEntries L ([], []) entries := by
  unfold specFieldOrderPool poolFoldEntries
  have key : ∀ (es : List Entry) (acc : List Nat × List (List Nat × Nat)),
      (∀ e ∈ es, e.data.map (·.1) = fields.map (·.1)) →
      es.foldl (fun acc e => fields.foldl (specFieldOrderStep e) acc) acc =
        es.foldl (fun a e => poolFoldPairs L a e.data) acc := by
    intro es
    induction es with
    | nil => intro acc _; rfl
    | cons e rest ih =>
      intro acc hes
      show List.foldl _ (fields.foldl (specFieldOrderStep e) acc) rest = _
      have he := hes e (List.mem_cons_self _ _)
      have hn : (e.data.map (·.1)).Nodup := by rw [he]; exact hndf
      rw [show fields.foldl (specFieldOrderStep e) acc = poolFoldPairs L acc e.data from
        specFold_eq_pairs L fields e.data acc he hn hL]
      exact ih _ (fun e2 he2 => hes e2 (List.mem_cons_of_mem _ he2))
  exact key entries ([], []) horder

/-- C8 (amended): for a well-formed container whose row-region allocation
`off_data + entries * row size` stays below 2^32 (the source computes it
in `u32`), the encoder is a function of the container — including
each row's recorded iteration order — and the options; the string pool is
built row-major, each row contributing its indirect text in the row's
recorded iteration order, which need not be the declared field order; when
every row's recorded order lists exactly the declared fields in directory
order, the pool coincides with the field-order pool the claim describes.
The claim's unconditional field-order statement fails (see the
counterexample). -/
theorem pool_row_major_entry_order (jmap : JMapInfo) (opts : IoOptions)
    (hndf : (jmap.fields.map (·.1)).Nodup)
    (hhash : ∀ p ∈ jmap.fields, p.2.hash = p.1)
    (hmaskd : ∀ p ∈ jmap.fields, p.2.mask = p.2.field_type.default_mask)
    (hshift0 : ∀ p ∈ jmap.fields, p.2.shift = 0)
    (hsum : sumSizes jmap.fields ≤ 65535)
    (hne : jmap.entries.length < 4294967296)
    (hnf : 16 + 12 * jmap.fields.length < 4294967296)
    (halloc : 0x10 + jmap.fields.length * 0x0C + jmap.entries.length *
      align4 (assignOffsets (List.insertionSort layoutLe jmap.fields) 0).2 < 4294967296)
    (hent : ∀ e ∈ jmap.entries, (e.data.map (·.1)).Nodup ∧
      (∀ p ∈ e.data, ∀ f,
        lookupVal (assignOffsets (List.insertionSort layoutLe jmap.fields) 0).1 p.1 = some f →
        p.2.is_compatible_with f.field_type = true ∧
        (∀ s, p.2 = FieldValue.String s → f.field_type = FieldType.String →
          s.length ≤ 32))) :
    ∃ st' : EncState,
      to_buffer jmap opts = some (.ok (mkFinal st')) ∧
      st'.string_table = (poolFoldEntries
        (fun h => lookupVal (assignOffsets (List.insertionSort layoutLe jmap.fields) 0).1 h)
        ([], []) jmap.entries).1 ∧
      st'.buffer.size = 0x10 + jmap.fields.length * 0x0C +
        jmap.entries.length * align4 (assignOffsets (List.insertionSort layoutLe jmap.fields) 0).2 ∧
      (∀ u, u < st'.string_table.length →
        (mkFinal st').data (st'.buffer.size + u) = st'.string_table.getD u 0) ∧
      ((∀ e ∈ jmap.entries, e.data.map (·.1) = jmap.fields.map (·.1)) →
        st'.string_table = (specFieldOrderPool jmap.fields jmap.entries).1) := by
  obtain ⟨st', hto, hpool2, hsize2, hframe2, hslots2⟩ :=
    encode_spec jmap opts hndf hhash hmaskd hshift0 hsum hne hnf halloc hent
  have hT : st'.string_table = (poolFoldEntries
      (fun h => lookupVal (assignOffsets (List.insertionSort layoutLe jmap.fields) 0).1 h)
      ([], []) jmap.entries).1 := congrArg Prod.fst hpool2
  refine ⟨st', hto, hT, hsize2, ?_, ?_⟩
  · intro u hu
    unfold mkFinal
    rw [Buffer.data_resizeFill_lt _ _ _ _ (by simp; omega),
      Buffer.data_append_ge _ _ _ (by omega)]
    congr 1
    omega
  · intro horder
    have hperm := List.perm_insertionSort layoutLe jmap.fields
    have hndS : ((List.insertionSort layoutLe jmap.fields).map (·.1)).Nodup :=
      (hperm.map (·.1)).nodup_iff.mpr hndf
    have hsumS : sumSizes (List.insertionSort layoutLe jmap.fields) ≤ 65535 := by
      rw [sumSizes_perm _ _ hperm]
      exact hsum
    have hagree : ∀ q ∈ jmap.fields, ∃ f,
        lookupVal (assignOffsets (List.insertionSort layoutLe jmap.fields) 0).1 q.1 = some f ∧
        f.field_type = q.2.field_type := by
      intro q hq
      obtain ⟨jf, hjf⟩ := List.get_of_mem (hperm.mem_iff.mpr hq)
      have hintro := FWO_intro (List.insertionSort layoutLe jmap.fields) hndS hsumS jf.1 jf.2
      rw [show ((List.insertionSort layoutLe jmap.fields).get ⟨jf.1, jf.2⟩) =
        (List.insertionSort layoutLe jmap.fields).get jf from rfl, hjf] at hintro
      exact ⟨_, hintro, rfl⟩
    rw [hT, specPool_eq_poolFoldEntries _ jmap.fields jmap.entries horder hndf hagree]

/-- Witness for C8 at the empty-directory container with one empty row. -/
theorem pool_row_major_entry_order_witness :
    ∃ st' : EncState,
      to_buffer (JMapInfo.mk [] [⟨[]⟩] 0) IoOptions.standard = some (.ok (mkFinal st')) ∧
      st'.string_table = (poolFoldEntries
        (fun h => lookupVal (assignOffsets (List.insertionSort layoutLe
          (JMapInfo.mk [] [⟨[]⟩] 0).fields) 0).1 h)
        ([], []) (JMapInfo.mk [] [⟨[]⟩] 0).entries).1 ∧
      st'.buffer.size = 0x10 + (JMapInfo.mk [] [⟨[]⟩] 0).fields.length * 0x0C +
        (JMapInfo.mk [] [⟨[]⟩] 0).entries.length *
          align4 (assignOffsets (List.insertionSort layoutLe
            (JMapInfo.mk [] [⟨[]⟩] 0).fields) 0).2 ∧
      (∀ u, u < st'.string_table.length →
        (mkFinal st').data (st'.buffer.size + u) = st'.string_table.getD u 0) ∧
      ((∀ e ∈ (JMapInfo.mk [] [⟨[]⟩] 0).entries,
          e.data.map (·.1) = (JMapInfo.mk [] [⟨[]⟩] 0).fields.map (·.1)) →
        st'.string_table = (specFieldOrderPool (JMapInfo.mk [] [⟨[]⟩] 0).fields
          (JMapInfo.mk [] [⟨[]⟩] 0).entries).1) :=
  pool_row_major_entry_order (JMapInfo.mk [] [⟨[]⟩] 0) IoOptions.standard
    (by decide) (by decide) (by decide) (by decide) (by decide) (by decide) (by decide)
    (by decide)
    (fun e he => ⟨by simp at he; subst he; simp,
      fun p hp f hf => by simp at he; subst he; simp at hp⟩)

/-- C8 counterexample to the claim as stated: a two-indirect-text-field
container whose single row records its pairs in the opposite of field
order; the encoded pool holds the row-iteration-order bytes
`[98, 0, 97, 0]`, not the field-order pool `[97, 0, 98, 0]` the claim
prescribes (the two fields have equal sort rank, so the on-wire field
order equals the declaration order here). -/
theorem pool_field_order_cex :
    encodeBytes (JMapInfo.mk [(1, Field.new 1 .StringOffset), (2, Field.new 2 .StringOffset)]
        [⟨[(2, FieldValue.String [98]), (1, FieldValue.String [97])]⟩] 0) ⟨true, .Utf8⟩ =
      some (.ok [0, 0, 0, 1, 0, 0, 0, 2, 0, 0, 0, 40, 0, 0, 0, 8,
           0, 0, 0, 1, 255, 255, 255, 255, 0, 0, 0, 6,
           0, 0, 0, 2, 255, 255, 255, 255, 0, 4, 0, 6,
           0, 0, 0, 2, 0, 0, 0, 0,
           98, 0, 97, 0, 64, 64, 64, 64, 64, 64, 64, 64, 64, 64, 64, 64]) ∧
    (specFieldOrderPool [(1, Field.new 1 .StringOffset), (2, Field.new 2 .StringOffset)]
      [⟨[(2, FieldValue.String [98]), (1, FieldValue.String [97])]⟩]).1 = [97, 0, 98, 0] ∧
    ([98, 0, 97, 0] : List Nat) ≠ [97, 0, 98, 0] := by
  refine ⟨?_, by decide, by decide⟩
  rfl

/-- C10 counterexample to the claim as stated: in a three-field container
dropping the middle field is not a removal of the last position, yet the
remaining directory keeps the insertion order (it equals the
order-preserving removal), because the moved element was the immediate
successor. -/
theorem drop_field_order_preserved_cex :
    (JMapInfo.mk [(97, Field.new 97 .Long), (98, Field.new 98 .Long), (99, Field.new 99 .Long)]
        [] 0 |>.drop_field [98] |>.map (fun c => c.fields.map (·.1))) = .ok [97, 99] ∧
    calc_hash [98] = 98 ∧
    ([(97, Field.new 97 .Long), (98, Field.new 98 .Long), (99, Field.new 99 .Long)].map
      (fun p : Nat × Field => p.1) = [97, 98, 99]) ∧
    ([97, 98, 99].eraseIdx 1 = [97, 99]) := by
  refine ⟨?_, by decide, by decide, by decide⟩
  rfl

end BCSV

